import Mathlib

/-!
Verification of the two graph ADTs of this repository: the adjacency-matrix
directed weighted graph (`d_graph.py`) and the adjacency-list undirected
graph (`ud_graph.py`).  Python lists are modelled as Lean `List`s, Python
integers as `ℤ`, Python's `float('inf')` distances as `WithTop ℤ`, and
Python's negative-index / out-of-range indexing semantics explicitly via
`pyIdx`.  Operations that can raise (`IndexError`) return `Option`.
-/

namespace Graphs

/-- Resolution of a Python list index: a nonnegative index must be < the
length, a negative index `i` refers to position `L + i`; anything else is an
`IndexError` (`none`). -/
def pyIdx (L : ℕ) (i : ℤ) : Option ℕ :=
  if 0 ≤ i ∧ i < (L : ℤ) then some i.toNat
  else if -(L : ℤ) ≤ i ∧ i < 0 then some (i + (L : ℤ)).toNat
  else none

/-- Python `l[i]` (read). -/
def pyGet {α : Type} (l : List α) (i : ℤ) : Option α :=
  (pyIdx l.length i).bind fun k => l.get? k

/-- Python `l[i] = a` (write). -/
def pySet {α : Type} (l : List α) (i : ℤ) (a : α) : Option (List α) :=
  (pyIdx l.length i).map fun k => l.set k a

/-- State of `DirectedGraph`: vertex counter and adjacency matrix, exactly the
two attributes of the Python class. -/
structure DGraph where
  v_count : ℕ
  adj_matrix : List (List ℤ)
deriving DecidableEq, Repr

/-- The freshly constructed graph (`__init__` with no `start_edges`). -/
def DGraph.empty : DGraph := ⟨0, []⟩

/-- `DirectedGraph.add_vertex`: increment the counter, build an all-zero row of
the new length, append a `0` entry to every existing row, append the new row. -/
def DGraph.add_vertex (g : DGraph) : DGraph :=
  let n := g.v_count + 1
  { v_count := n
    adj_matrix := (g.adj_matrix.map fun row => row ++ [0]) ++ [List.replicate n 0] }

/-- `DirectedGraph.add_edge`: guarded by
`src != dst and weight >= 0 and len(self.adj_matrix) > src and len(self.adj_matrix) > dst`,
then `self.adj_matrix[src][dst] = weight` with Python indexing (`none` models
an `IndexError`). -/
def DGraph.add_edge (g : DGraph) (src dst weight : ℤ) : Option DGraph :=
  if src ≠ dst ∧ 0 ≤ weight ∧ src < (g.adj_matrix.length : ℤ) ∧
      dst < (g.adj_matrix.length : ℤ) then
    match pyGet g.adj_matrix src with
    | none => none
    | some row =>
      match pySet row dst weight with
      | none => none
      | some row2 =>
        match pySet g.adj_matrix src row2 with
        | none => none
        | some m => some { g with adj_matrix := m }
  else some g

/-- `DirectedGraph.remove_edge`: guarded by
`len(self.adj_matrix) > src and len(self.adj_matrix) > dst and src >= 0 and dst >= 0`,
then `self.adj_matrix[src][dst] = 0`. -/
def DGraph.remove_edge (g : DGraph) (src dst : ℤ) : Option DGraph :=
  if src < (g.adj_matrix.length : ℤ) ∧ dst < (g.adj_matrix.length : ℤ) ∧
      0 ≤ src ∧ 0 ≤ dst then
    match pyGet g.adj_matrix src with
    | none => none
    | some row =>
      match pySet row dst (0 : ℤ) with
      | none => none
      | some row2 =>
        match pySet g.adj_matrix src row2 with
        | none => none
        | some m => some { g with adj_matrix := m }
  else some g

/-- `DirectedGraph.__init__` with `start_edges`: count `max` over endpoints,
add `v_count + 1` vertices, then add each edge. -/
def DGraph.mk_start (es : List (ℤ × ℤ × ℤ)) : Option DGraph :=
  let vc : ℤ := es.foldl (fun a e => max a (max e.1 e.2.1)) 0
  let g0 : DGraph := DGraph.add_vertex^[(vc + 1).toNat] DGraph.empty
  es.foldlM (fun g e => g.add_edge e.1 e.2.1 e.2.2) g0

/-- Squareness of the adjacency matrix: `v_count` rows, each of length
`v_count`.  This is the basic shape invariant of every `DirectedGraph`
(the matrix grows by one row and one column per `add_vertex`). -/
def DGraph.Square (g : DGraph) : Prop :=
  g.adj_matrix.length = g.v_count ∧ ∀ row ∈ g.adj_matrix, row.length = g.v_count

instance (g : DGraph) : Decidable g.Square := by
  unfold DGraph.Square; infer_instance

section CSmallDirected

/-- The two-vertex empty graph used as a concrete state in counterexamples. -/
def g2 : DGraph := DGraph.empty.add_vertex.add_vertex

end CSmallDirected

/-- `temp_list` of `dfs`: the column indices of the nonzero entries of a row
(collected in ascending order), then `temp_list.sort(reverse=True)`. -/
def rowNbrsDesc (row : List ℤ) : List ℤ :=
  List.insertionSort (fun a b => b ≤ a)
    (((List.range row.length).filter fun c => row.getD c 0 ≠ 0).map Int.ofNat)

/-- `temp_list` of `bfs`: the column indices of the nonzero entries of a row,
then `temp_list.sort()` (ascending). -/
def rowNbrsAsc (row : List ℤ) : List ℤ :=
  List.insertionSort (fun a b => a ≤ b)
    (((List.range row.length).filter fun c => row.getD c 0 ≠ 0).map Int.ofNat)

/-- The `while` loop of `DirectedGraph.dfs`, fuelled.  Each iteration pops the
last stack element; an unvisited vertex is appended to `visited` and its
neighbour indices are pushed in descending order; the loop breaks (returning
`visited`) once `v == v_end`.  `none` models a raised `IndexError` (or, never
with the fuel used below, fuel exhaustion). -/
def DGraph.dfsLoop (g : DGraph) (vEnd : Option ℤ) : ℕ → List ℤ → List ℤ → Option (List ℤ)
  | 0, _, _ => none
  | fuel + 1, visited, stack =>
    match stack.getLast? with
    | none => some visited
    | some v =>
      let stack1 := stack.dropLast
      if v ∈ visited then
        if vEnd = some v then some visited else g.dfsLoop vEnd fuel visited stack1
      else
        match pyGet g.adj_matrix v with
        | none => none
        | some row =>
          let visited1 := visited ++ [v]
          let stack2 := stack1 ++ rowNbrsDesc row
          if vEnd = some v then some visited1 else g.dfsLoop vEnd fuel visited1 stack2

/-- `DirectedGraph.dfs`: the guard is the source's off-by-one
`if v_start > len(self.adj_matrix)` (strictly greater), then the stack loop
starting from `[v_start]`.  The fuel bound exceeds the maximal number of
iterations of any terminating run on a square matrix. -/
def DGraph.dfs (g : DGraph) (v_start : ℤ) (v_end : Option ℤ) : Option (List ℤ) :=
  let n := g.adj_matrix.length
  if v_start > (n : ℤ) then some []
  else g.dfsLoop v_end (n * n + n + 2) [] [v_start]

/-- The `while` loop of `DirectedGraph.bfs`, fuelled: pops the queue head,
appends unvisited vertices to `visited` and enqueues their neighbour indices
in ascending order; breaks once `v == v_end`. -/
def DGraph.bfsLoop (g : DGraph) (vEnd : Option ℤ) : ℕ → List ℤ → List ℤ → Option (List ℤ)
  | 0, _, _ => none
  | fuel + 1, visited, queue =>
    match queue with
    | [] => some visited
    | v :: queue1 =>
      if v ∈ visited then
        if vEnd = some v then some visited else g.bfsLoop vEnd fuel visited queue1
      else
        match pyGet g.adj_matrix v with
        | none => none
        | some row =>
          let visited1 := visited ++ [v]
          let queue2 := queue1 ++ rowNbrsAsc row
          if vEnd = some v then some visited1 else g.bfsLoop vEnd fuel visited1 queue2

/-- `DirectedGraph.bfs`: same off-by-one guard as `dfs`, then the queue loop. -/
def DGraph.bfs (g : DGraph) (v_start : ℤ) (v_end : Option ℤ) : Option (List ℤ) :=
  let n := g.adj_matrix.length
  if v_start > (n : ℤ) then some []
  else g.bfsLoop v_end (n * n + n + 2) [] [v_start]

/-- The one-vertex graph, a second concrete reachable state. -/
def g1 : DGraph := DGraph.empty.add_vertex

/-! ## The undirected graph (`ud_graph.py`)

`self.adj_list` is a Python `dict` from vertex label to adjacency list; it is
modelled as an association list in insertion order, `dict` lookup as the first
(and, by the key-uniqueness invariant, only) match. -/

/-- Lookup in an association list (first match), i.e. `dict.get`. -/
def getA : List (String × List String) → String → Option (List String)
  | [], _ => none
  | p :: rest, v => if p.1 = v then some p.2 else getA rest v

/-- Replace the value at key `k` by `f` of it (all matches; keys are unique in
every reachable state), i.e. mutation of `self.adj_list[k]`. -/
def updateA (l : List (String × List String)) (k : String) (f : List String → List String) :
    List (String × List String) :=
  l.map fun p => if p.1 = k then (p.1, f p.2) else p

/-- State of `UndirectedGraph`: the single attribute `adj_list`. -/
structure UGraph where
  adj_list : List (String × List String)
deriving DecidableEq, Repr

/-- The freshly constructed graph. -/
def UGraph.emptyU : UGraph := ⟨[]⟩

/-- `dict.get v` on the adjacency mapping. -/
def UGraph.get (g : UGraph) (v : String) : Option (List String) := getA g.adj_list v

/-- The keys of the adjacency mapping, in insertion order. -/
def UGraph.keys (g : UGraph) : List String := g.adj_list.map Prod.fst

/-- `UndirectedGraph.add_vertex`: insert `v` with an empty adjacency list if
it is not already a key (new `dict` keys go to the end). -/
def UGraph.add_vertex (g : UGraph) (v : String) : UGraph :=
  if (g.get v).isSome then g else ⟨g.adj_list ++ [(v, [])]⟩

/-- `UndirectedGraph.add_edge`: add the missing endpoints (unless `v == u`),
then append each endpoint to the other's list if `v != u` and neither already
lists the other. -/
def UGraph.add_edge (g : UGraph) (u v : String) : UGraph :=
  let g1 := if (g.get u).isNone ∧ v ≠ u then g.add_vertex u else g
  let g2 := if (g1.get v).isNone ∧ v ≠ u then g1.add_vertex v else g1
  if v ≠ u then
    match g2.get u, g2.get v with
    | some lu, some lv =>
      if v ∉ lu ∧ u ∉ lv then
        ⟨updateA (updateA g2.adj_list v fun l => l ++ [u]) u fun l => l ++ [v]⟩
      else g2
    | _, _ => g2
  else g2

/-- `UndirectedGraph.remove_edge(v, u)`: the source condition is
`if v and u in self.adj_list and v in self.adj_list.get(u) and u in self.adj_list.get(v)`,
i.e. the truthiness of `v` (`v ≠ ""`) conjoined with the membership tests; on
success both symmetric entries are removed (`list.remove`, first occurrence).
When `v` is truthy, `v ∈ adj[u]` but `v` is not a key, Python raises a
`TypeError` on `u in None` with the state unchanged; the state is likewise
unchanged here. -/
def UGraph.remove_edge (g : UGraph) (v u : String) : UGraph :=
  match g.get u, g.get v with
  | some lu, some lv =>
    if v ≠ "" ∧ v ∈ lu ∧ u ∈ lv then
      ⟨updateA (updateA g.adj_list v fun l => l.erase u) u fun l => l.erase v⟩
    else g
  | _, _ => g

/-- `UndirectedGraph.remove_vertex`: pop the key and strip `v` from every
remaining adjacency list (`list.remove` is only called when present; erasing
an absent element is the identity). -/
def UGraph.remove_vertex (g : UGraph) (v : String) : UGraph :=
  if (g.get v).isSome then
    ⟨(g.adj_list.filter fun p => p.1 != v).map fun p => (p.1, p.2.erase v)⟩
  else g

/-- `UndirectedGraph.__init__` with `start_edges`: add each edge in order. -/
def UGraph.mk_start (es : List (String × String)) : UGraph :=
  es.foldl (fun g e => g.add_edge e.1 e.2) UGraph.emptyU

/-- Adjacency: `b` occurs in `a`'s adjacency list. -/
def UGraph.Adj (g : UGraph) (a b : String) : Prop :=
  ∃ l, g.get a = some l ∧ b ∈ l

/-- The states of `UndirectedGraph` reachable from a freshly constructed
graph by the mutating operations (the `start_edges` constructor is a fold of
`add_edge`, so it yields reachable states as well). -/
inductive UReach : UGraph → Prop
  | init : UReach UGraph.emptyU
  | add_vertex (g : UGraph) (v : String) : UReach g → UReach (g.add_vertex v)
  | add_edge (g : UGraph) (u v : String) : UReach g → UReach (g.add_edge u v)
  | remove_edge (g : UGraph) (v u : String) : UReach g → UReach (g.remove_edge v u)
  | remove_vertex (g : UGraph) (v : String) : UReach g → UReach (g.remove_vertex v)

/-- The data-model invariant of the undirected graph: keys are unique,
adjacency lists are duplicate-free, contain no self-loop, mention only
existing vertices, and adjacency is symmetric. -/
def UGraph.WF (g : UGraph) : Prop :=
  g.keys.Nodup ∧
  (∀ k l, g.get k = some l → l.Nodup ∧ k ∉ l ∧ ∀ x ∈ l, (g.get x).isSome) ∧
  ∀ a b, g.Adj a b → g.Adj b a

/-! ## Dijkstra (`d_graph.py`, `dijkstra`)

`map` holds `float('inf')` or integer distances: `WithTop ℤ`.  The queue
holds `(vertex, distance)` pairs; `queue.pop(0)` is a FIFO pop. -/

/-- The matrix entry `adj_matrix[u][t]` read totally (`0`, i.e. "no edge",
when out of range). -/
def DGraph.wt (g : DGraph) (u t : ℕ) : ℤ :=
  ((g.adj_matrix.get? u).bind fun row => row.get? t).getD 0

/-- There is an edge from `u` to `t` (nonzero matrix entry). -/
def DGraph.Edge (g : DGraph) (u t : ℕ) : Prop := g.wt u t ≠ 0

/-- `g.IsWalk a l`: starting at `a`, the successive vertices of `l` are each
reached by an edge. -/
def DGraph.IsWalk (g : DGraph) (a : ℕ) : List ℕ → Prop
  | [] => True
  | b :: rest => g.Edge a b ∧ g.IsWalk b rest

/-- Total weight of the walk `a :: l`. -/
def walkW (g : DGraph) : ℕ → List ℕ → ℤ
  | _, [] => 0
  | a, b :: rest => g.wt a b + walkW g b rest

/-- `c` is reachable from `a` by a directed walk (possibly empty). -/
def DGraph.Reaches (g : DGraph) (a c : ℕ) : Prop :=
  ∃ l, g.IsWalk a l ∧ l.getLastD a = c

/-- The data-model invariant of `DirectedGraph` relevant to `dijkstra`:
square matrix, nonnegative entries, zero diagonal. -/
def DGraph.WF (g : DGraph) : Prop :=
  g.Square ∧ (∀ row ∈ g.adj_matrix, ∀ w ∈ row, 0 ≤ w) ∧
    ∀ i, i < g.v_count → g.wt i i = 0

instance (g : DGraph) : Decidable g.WF := by
  unfold DGraph.WF DGraph.wt
  infer_instance

/-- The largest matrix entry (clamped to ℕ). -/
def DGraph.wmax (g : DGraph) : ℕ :=
  ((g.adj_matrix.flatten.map Int.toNat).foldr max 0)

/-- The inner `for vi, d in enumerate(self.adj_matrix[v])` loop of `dijkstra`:
the queue items appended while scanning the row (`vi` counts from `vi0`).
A nonzero entry towards an unvisited vertex is always enqueued; towards a
visited vertex only when the new distance is below `map[vi]`.  `none` models
the `IndexError` on `map[vi]` (impossible on square matrices). -/
def relaxRow (mapL : List (WithTop ℤ)) (visited : List ℕ) (di : ℤ) :
    List ℤ → ℕ → Option (List (ℕ × ℤ))
  | [], _ => some []
  | d :: ds, vi =>
    if d ≠ 0 ∧ vi ∉ visited then
      (relaxRow mapL visited di ds (vi + 1)).map fun r => (vi, di + d) :: r
    else if d ≠ 0 ∧ vi ∈ visited then
      match mapL.get? vi with
      | none => none
      | some mvi =>
        if ((di + d : ℤ) : WithTop ℤ) < mvi then
          (relaxRow mapL visited di ds (vi + 1)).map fun r => (vi, di + d) :: r
        else relaxRow mapL visited di ds (vi + 1)
    else relaxRow mapL visited di ds (vi + 1)

/-- The `while` loop of `dijkstra`, fuelled: pop the queue head `(v, d)`,
set `map[v] = d` when `d < map[v]`, append the relaxation items of row `v`,
append `v` to `visited`. -/
def DGraph.dijkstraLoop (g : DGraph) :
    ℕ → List (WithTop ℤ) → List ℕ → List (ℕ × ℤ) → Option (List (WithTop ℤ))
  | 0, _, _, _ => none
  | _ + 1, mapL, _, [] => some mapL
  | fuel + 1, mapL, visited, (v, d) :: queue1 =>
    match mapL.get? v, g.adj_matrix.get? v with
    | some mv, some row =>
      match (if ((d : ℤ) : WithTop ℤ) < mv then mapL.set v ((d : ℤ) : WithTop ℤ)
          else mapL) with
      | mapL1 =>
        match relaxRow mapL1 visited d row 0 with
        | none => none
        | some items => g.dijkstraLoop fuel mapL1 (visited ++ [v]) (queue1 ++ items)
    | _, _ => none

/-- A fuel amount that always outlasts the loop: an upper bound on the
decreasing queue potential, plus one. -/
def DGraph.dijkstraBound (g : DGraph) : ℕ :=
  (g.v_count + 1) ^ (g.wmax * g.v_count * g.v_count + g.wmax * g.v_count) + 1

/-- `DirectedGraph.dijkstra`: distances initialised to infinity, queue seeded
with `(src, 0)`, then the relaxation loop until the queue drains. -/
def DGraph.dijkstra (g : DGraph) (src : ℕ) : Option (List (WithTop ℤ)) :=
  g.dijkstraLoop g.dijkstraBound (List.replicate g.v_count ⊤) [] [(src, 0)]

/-- The spec's example graph: edges `(0,1,10), (1,2,5), (0,2,20)`. -/
def gd3 : DGraph := ⟨3, [[0, 10, 20], [0, 0, 5], [0, 0, 0]]⟩

/-- The potential of the pending queue: each item contributes
`(n+1)^(K - d)`; every loop iteration strictly decreases the sum. -/
def qpot (n K : ℕ) (queue : List (ℕ × ℤ)) : ℕ :=
  (queue.map fun p => (n + 1) ^ (K - p.2.toNat)).sum

/-- The loop invariant of `dijkstra`, relative to graph `g` and source `src`:
pending items carry walk weights, `visited` is exactly the set of vertices
with finite distance, finite distances are walk weights bounded by
`wmax * n * |visited|`, every visited vertex's outgoing edges are either
relaxed in `map` or pending in the queue, and pending values carry the
credit sets that bound them. -/
structure DijkInv (g : DGraph) (src : ℕ) (mapL : List (WithTop ℤ))
    (visited : List ℕ) (queue : List (ℕ × ℤ)) : Prop where
  hlen : mapL.length = g.v_count
  hitems : ∀ p ∈ queue, p.1 < g.v_count ∧ 0 ≤ p.2 ∧
    ∃ l, g.IsWalk src l ∧ l.getLastD src = p.1 ∧ walkW g src l = p.2
  hvis : ∀ u, u ∈ visited ↔ u < g.v_count ∧ mapL.getD u ⊤ ≠ ⊤
  hmapw : ∀ u, u < g.v_count → mapL.getD u ⊤ = ⊤ ∨
    ∃ l, g.IsWalk src l ∧ l.getLastD src = u ∧
      mapL.getD u ⊤ = ((walkW g src l : ℤ) : WithTop ℤ)
  htri : ∀ u ∈ visited, ∀ t, g.Edge u t →
    mapL.getD t ⊤ ≤ mapL.getD u ⊤ + ((g.wt u t : ℤ) : WithTop ℤ) ∨
    ∃ p ∈ queue, p.1 = t ∧
      ((p.2 : ℤ) : WithTop ℤ) ≤ mapL.getD u ⊤ + ((g.wt u t : ℤ) : WithTop ℤ)
  hcov : ∀ u ∈ visited, ∀ t, g.Edge u t → t ∈ visited ∨ ∃ p ∈ queue, p.1 = t
  hsrc0 : (mapL.getD src ⊤ = 0 ∧ src ∈ visited) ∨
    (mapL = List.replicate g.v_count ⊤ ∧ visited = [] ∧ queue = [(src, 0)])
  hbound : ∀ p ∈ queue, ∃ T : Finset ℕ,
    (∀ x ∈ T, x ∈ visited ∨ x = p.1) ∧ T ⊆ Finset.range g.v_count ∧
    p.2 ≤ ((g.wmax * g.v_count * visited.toFinset.card + g.wmax * T.card : ℕ) : ℤ)
  hmapb : ∀ u, u < g.v_count → mapL.getD u ⊤ = ⊤ ∨
    mapL.getD u ⊤ ≤ (((g.wmax * g.v_count * visited.toFinset.card : ℕ) : ℤ) : WithTop ℤ)

/-! ## Cycle detection (`has_cycle` of both classes) -/

/-- The `for` loop of `DirectedGraph.has_Cycle_helper` over one matrix row.
`count` tracks the column index, `h` is the recursive helper at the next
recursion depth threading the shared `visited` list; a `True` result
short-circuits, a `False` result continues with the returned `visited`. -/
def cycleScanF (h : ℕ → List ℕ → Option (Bool × List ℕ)) :
    List ℤ → List ℕ → ℕ → Option (Bool × List ℕ)
  | [], visited, _ => some (false, visited)
  | i :: rest, visited, count =>
    if count ∉ visited ∧ i ≠ 0 then
      match h count visited with
      | none => none
      | some (true, vis1) => some (true, vis1)
      | some (false, vis1) => cycleScanF h rest vis1 (count + 1)
    else if count ∈ visited ∧ i ≠ 0 then some (true, visited)
    else cycleScanF h rest visited (count + 1)

/-- `DirectedGraph.has_Cycle_helper`, fuelled by recursion depth: append `v`
to the shared `visited`, scan row `v`, and after a cycle-free scan pop the
last `visited` entry.  `none` models an `IndexError` (row `v` missing) or
fuel exhaustion (never reached from `has_cycle` on a square matrix). -/
def DGraph.cycleHelper (g : DGraph) : ℕ → ℕ → List ℕ → Option (Bool × List ℕ)
  | 0, _, _ => none
  | fuel + 1, v, visited =>
    match g.adj_matrix.get? v with
    | none => none
    | some row =>
      match cycleScanF (g.cycleHelper fuel) row (visited ++ [v]) 0 with
      | none => none
      | some (true, vis1) => some (true, vis1)
      | some (false, vis1) => some (false, vis1.dropLast)

/-- The `for` loop of `DirectedGraph.has_cycle`: for each row index `count`
not yet in the shared `visited`, run the helper. -/
def DGraph.hasCycleLoop (g : DGraph) : List (List ℤ) → ℕ → List ℕ → Option Bool
  | [], _, _ => some false
  | _ :: rows, count, visited =>
    if count ∈ visited then g.hasCycleLoop rows (count + 1) visited
    else
      match g.cycleHelper (g.v_count + 1) count visited with
      | none => none
      | some (true, _) => some true
      | some (false, vis1) => g.hasCycleLoop rows (count + 1) vis1

/-- `DirectedGraph.has_cycle`.  The helper's recursion depth is bounded by
the number of unvisited vertices, so fuel `v_count + 1` never runs out on a
square matrix. -/
def DGraph.has_cycle (g : DGraph) : Option Bool :=
  g.hasCycleLoop g.adj_matrix 0 []

/-- The graph contains a directed cycle: a nonempty closed walk. -/
def DGraph.HasDCycle (g : DGraph) : Prop :=
  ∃ (a : ℕ) (l : List ℕ), g.IsWalk a l ∧ l ≠ [] ∧ l.getLastD a = a

/-- What a call `has_Cycle_helper(v, stack)` of the directed cycle search
detects: either an edge from `v` back into `stack ++ [v]`, or an edge to a
fresh vertex from which the search (with `v` pushed) detects a cycle. -/
inductive CycFrom (g : DGraph) : ℕ → List ℕ → Prop
  | base (v : ℕ) (stack : List ℕ) (c : ℕ) :
      g.Edge v c → c ∈ stack ++ [v] → CycFrom g v stack
  | step (v : ℕ) (stack : List ℕ) (c : ℕ) :
      g.Edge v c → c ∉ stack ++ [v] → CycFrom g c (stack ++ [v]) →
      CycFrom g v stack

/-- The `for` loop of `UndirectedGraph.has_Cycle_helper` over one adjacency
list: an already-visited neighbour other than the parent is a cycle; an
unvisited neighbour is explored recursively through `h`. -/
def ucycleScanF (h : String → List String → Option (Bool × List String))
    (parent : Option String) :
    List String → List String → Option (Bool × List String)
  | [], visited => some (false, visited)
  | i :: rest, visited =>
    if i ∉ visited then
      match h i visited with
      | none => none
      | some (true, vis1) => some (true, vis1)
      | some (false, vis1) => ucycleScanF h parent rest vis1
    else if parent ≠ some i then some (true, visited)
    else ucycleScanF h parent rest visited

/-- `UndirectedGraph.has_Cycle_helper`, fuelled by recursion depth; the
`-1` sentinel parent of the top-level call is `none`.  Unlike the directed
helper, `visited` is never popped. -/
def UGraph.ucycleHelper (g : UGraph) :
    ℕ → String → List String → Option String → Option (Bool × List String)
  | 0, _, _, _ => none
  | fuel + 1, v, visited, parent =>
    match g.get v with
    | none => none
    | some nbrs =>
      ucycleScanF (fun c vis => g.ucycleHelper fuel c vis (some v)) parent
        nbrs (visited ++ [v])

/-- The `for` loop of `UndirectedGraph.has_cycle` over the vertex keys. -/
def UGraph.hasCycleLoopU (g : UGraph) : List String → List String → Option Bool
  | [], _ => some false
  | v :: vs, visited =>
    if v ∈ visited then g.hasCycleLoopU vs visited
    else
      match g.ucycleHelper (g.keys.length + 1) v visited none with
      | none => none
      | some (true, _) => some true
      | some (false, vis1) => g.hasCycleLoopU vs vis1

/-- `UndirectedGraph.has_cycle`. -/
def UGraph.has_cycle (g : UGraph) : Option Bool :=
  g.hasCycleLoopU g.keys []

/-- `g.IsWalkU a l`: successive vertices of `l` are each adjacent to the
previous one, starting from `a`. -/
def UGraph.IsWalkU (g : UGraph) (a : String) : List String → Prop
  | [] => True
  | b :: rest => g.Adj a b ∧ g.IsWalkU b rest

/-- Consecutive adjacency along a vertex list. -/
def UGraph.ChainU (g : UGraph) : List String → Prop
  | [] => True
  | [_] => True
  | a :: b :: rest => g.Adj a b ∧ UGraph.ChainU g (b :: rest)

/-- `cs` lists the vertices of a cycle of the undirected graph: at least 3
distinct vertices, consecutively adjacent, and closed by an edge from the
last vertex back to the first. -/
def UGraph.CycleList (g : UGraph) (cs : List String) : Prop :=
  3 ≤ cs.length ∧ cs.Nodup ∧ g.ChainU cs ∧
    ∀ a b, cs.head? = some a → cs.getLast? = some b → g.Adj b a

/-- The undirected graph contains a cycle (closed walk of length at least 3
with distinct vertices). -/
def UGraph.HasCycleU (g : UGraph) : Prop :=
  ∃ cs, g.CycleList cs

/-- Call invariant of `has_Cycle_helper(v, visited, parent)` (undirected):
`stack` is the chain of active ancestors, consecutively adjacent, ending in
the parent; `v` is fresh; `visited` holds only known vertices, without
duplicates, and every visited vertex outside the active chain has all its
neighbours visited. -/
def UInv (g : UGraph) (v : String) (visited stack : List String) : Prop :=
  g.ChainU (stack ++ [v]) ∧ (stack ++ [v]).Nodup ∧
  (∀ x ∈ stack, x ∈ visited) ∧ v ∉ visited ∧ v ∈ g.keys ∧
  (∀ x ∈ visited, x ∈ g.keys) ∧ visited.Nodup ∧
  (∀ x ∈ visited, x ∉ stack → ∀ y, g.Adj x y → y ∈ visited)

/-- Postcondition of a cycle-free helper call: `new` are the vertices
appended during the call (the subtree rooted at `v`); they are fresh, fully
explored, touch the ancestor chain only through the tree edge `parent–v`,
and each has at most one neighbour visited before it (its tree parent). -/
def UPost (g : UGraph) (v : String) (visited stack new : List String) : Prop :=
  v ∈ new ∧
  (∀ x ∈ new, x ∈ g.keys ∧ x ∉ visited) ∧
  (visited ++ new).Nodup ∧
  (∀ x ∈ new, ∀ y, g.Adj x y → y ∈ visited ++ new) ∧
  (∀ x ∈ new, ∀ y ∈ stack, g.Adj x y → x = v ∧ stack.getLast? = some y) ∧
  (∀ x ∈ new, ∃ px, ∀ y, g.Adj x y → y ∈ visited ++ new →
    (visited ++ new).indexOf y < (visited ++ new).indexOf x → some y = px)

/-- Invariant of the neighbour scan inside the helper call at `v`: `done`
are the neighbours already processed, `acc` the vertices appended so far by
completed subtrees. -/
def UScanInv (g : UGraph) (v : String) (visited stack done acc : List String) :
    Prop :=
  (∀ x ∈ acc, x ∈ g.keys ∧ x ∉ visited ++ [v]) ∧
  ((visited ++ [v]) ++ acc).Nodup ∧
  (∀ x ∈ acc, ∀ y, g.Adj x y → y ∈ (visited ++ [v]) ++ acc) ∧
  (∀ x ∈ acc, ∀ y ∈ stack ++ [v], g.Adj x y → y = v ∧ x ∈ done) ∧
  (∀ x ∈ acc, ∃ px, ∀ y, g.Adj x y → y ∈ (visited ++ [v]) ++ acc →
    ((visited ++ [v]) ++ acc).indexOf y < ((visited ++ [v]) ++ acc).indexOf x →
    some y = px) ∧
  (∀ y ∈ done, y ∈ (visited ++ [v]) ++ acc) ∧
  (∀ y ∈ done, y ∈ visited → stack.getLast? = some y)

/-! ## Traversals of the undirected graph, and reference front-stack machines -/

/-- `temp_list.sort(reverse=True)` of the undirected `dfs` (reverse
lexicographic). -/
def sortedDescStr (l : List String) : List String :=
  List.insertionSort (fun a b => b ≤ a) l

/-- `temp_list.sort()` of the undirected `bfs` (lexicographic). -/
def sortedAscStr (l : List String) : List String :=
  List.insertionSort (fun a b => a ≤ b) l

/-- The `while` loop of `UndirectedGraph.dfs`, fuelled: pop the last stack
element, append it to `visited` if unseen and push its neighbour labels in
reverse lexicographic order; break once `v == v_end`. -/
def UGraph.udfsLoop (g : UGraph) (vEnd : Option String) :
    ℕ → List String → List String → Option (List String)
  | 0, _, _ => none
  | fuel + 1, visited, stack =>
    match stack.getLast? with
    | none => some visited
    | some v =>
      let stack1 := stack.dropLast
      if v ∈ visited then
        if vEnd = some v then some visited
        else g.udfsLoop vEnd fuel visited stack1
      else
        match g.get v with
        | none => none
        | some nbrs =>
          let visited1 := visited ++ [v]
          let stack2 := stack1 ++ sortedDescStr nbrs
          if vEnd = some v then some visited1
          else g.udfsLoop vEnd fuel visited1 stack2

/-- `UndirectedGraph.dfs`: empty result for an absent start, else the stack
loop from `[v_start]`. -/
def UGraph.dfs (g : UGraph) (v_start : String) (v_end : Option String) :
    Option (List String) :=
  if (g.get v_start).isNone then some []
  else g.udfsLoop v_end (g.keys.length * g.keys.length + g.keys.length + 2)
    [] [v_start]

/-- The `while` loop of `UndirectedGraph.bfs`, fuelled: pop the queue head,
append it to `visited` if unseen and enqueue its neighbour labels in
lexicographic order. -/
def UGraph.ubfsLoop (g : UGraph) (vEnd : Option String) :
    ℕ → List String → List String → Option (List String)
  | 0, _, _ => none
  | fuel + 1, visited, queue =>
    match queue with
    | [] => some visited
    | v :: queue1 =>
      if v ∈ visited then
        if vEnd = some v then some visited
        else g.ubfsLoop vEnd fuel visited queue1
      else
        match g.get v with
        | none => none
        | some nbrs =>
          let visited1 := visited ++ [v]
          let queue2 := queue1 ++ sortedAscStr nbrs
          if vEnd = some v then some visited1
          else g.ubfsLoop vEnd fuel visited1 queue2

/-- `UndirectedGraph.bfs`. -/
def UGraph.bfs (g : UGraph) (v_start : String) (v_end : Option String) :
    Option (List String) :=
  if (g.get v_start).isNone then some []
  else g.ubfsLoop v_end (g.keys.length * g.keys.length + g.keys.length + 2)
    [] [v_start]

/-- Reference formulation of the directed `dfs` loop, written the way the
spec reads: the pending stack is popped from the front and the neighbours of
a newly visited vertex are placed at the front in ascending numeric order
(so they are explored next, smallest first).  `dfsLoop` is this machine on
the reversed stack. -/
def DGraph.dfsFront (g : DGraph) (vEnd : Option ℤ) :
    ℕ → List ℤ → List ℤ → Option (List ℤ)
  | 0, _, _ => none
  | fuel + 1, visited, stack =>
    match stack with
    | [] => some visited
    | v :: stack1 =>
      if v ∈ visited then
        if vEnd = some v then some visited
        else g.dfsFront vEnd fuel visited stack1
      else
        match pyGet g.adj_matrix v with
        | none => none
        | some row =>
          let visited1 := visited ++ [v]
          let stack2 := rowNbrsAsc row ++ stack1
          if vEnd = some v then some visited1
          else g.dfsFront vEnd fuel visited1 stack2

/-- Reference formulation of the undirected `dfs` loop: front pops, with the
neighbours of a new vertex placed at the front in ascending lexicographic
order. -/
def UGraph.udfsFront (g : UGraph) (vEnd : Option String) :
    ℕ → List String → List String → Option (List String)
  | 0, _, _ => none
  | fuel + 1, visited, stack =>
    match stack with
    | [] => some visited
    | v :: stack1 =>
      if v ∈ visited then
        if vEnd = some v then some visited
        else g.udfsFront vEnd fuel visited stack1
      else
        match g.get v with
        | none => none
        | some nbrs =>
          let visited1 := visited ++ [v]
          let stack2 := sortedAscStr nbrs ++ stack1
          if vEnd = some v then some visited1
          else g.udfsFront vEnd fuel visited1 stack2

/-- `c` is reachable from `a` in the undirected graph. -/
def UGraph.ReachesU (g : UGraph) (a c : String) : Prop :=
  ∃ l, g.IsWalkU a l ∧ l.getLastD a = c

/-! ## Theorems -/

theorem g2_eq : g2 = ⟨2, [[0, 0], [0, 0]]⟩ := by decide

/-- Claim C3 (code bug, failing input): on the reachable two-vertex graph,
`add_edge(-1, 0, 5)` passes the guard (`len(adj_matrix) > -1` holds and no
`src >= 0` check is made, unlike in `remove_edge`), so Python's negative
indexing writes `M[1][0] = 5`: the state changes on an out-of-range (negative)
`src`, contradicting the claimed silent no-op. -/
theorem add_edge_negative_src_mutates :
    g2.add_edge (-1) 0 5 = some ⟨2, [[0, 0], [5, 0]]⟩ ∧ g2.add_edge (-1) 0 5 ≠ some g2 := by
  decide

/-- Claim C4 (code bug, failing input): the state reached by
`add_vertex(); add_vertex(); add_edge(-2, 0, 5)` has `M[0][0] = 5`, a
self-loop with the guard `src != dst` satisfied because `-2 != 0`, while
Python's negative indexing aliases row `-2` to row `0`.  This violates the
claimed invariant `M[i][i] == 0`. -/
theorem add_edge_negative_wrap_self_loop :
    g2.add_edge (-2) 0 5 = some ⟨2, [[5, 0], [0, 0]]⟩ := by
  decide

/-- Claim C9: for distinct valid vertex ids, `add_edge(src, dst, 0)` is
accepted (the guard only rejects `weight < 0`) and produces exactly the state
`remove_edge(src, dst)` produces: entry `M[src][dst]` becomes `0`. -/
theorem add_edge_zero_eq_remove_edge (g : DGraph) (hsq : g.Square)
    (src dst : ℤ) (hs0 : 0 ≤ src) (hs : src < (g.v_count : ℤ))
    (hd0 : 0 ≤ dst) (hd : dst < (g.v_count : ℤ)) (hne : src ≠ dst) :
    g.add_edge src dst 0 = g.remove_edge src dst := by
  have hlen : g.adj_matrix.length = g.v_count := hsq.1
  simp only [DGraph.add_edge, DGraph.remove_edge, hlen]
  rw [if_pos ⟨hne, le_refl (0 : ℤ), hs, hd⟩, if_pos ⟨hs, hd, hs0, hd0⟩]

/-- Witness for C9 at the concrete two-vertex graph with `src = 0`, `dst = 1`. -/
theorem add_edge_zero_eq_remove_edge_w :
    g2.Square ∧ g2.add_edge 0 1 0 = g2.remove_edge 0 1 :=
  ⟨by decide, add_edge_zero_eq_remove_edge g2 (by decide) 0 1 (by decide) (by decide)
    (by decide) (by decide) (by decide)⟩

/-- Claim C5 (code bug, failing input): on the one-vertex graph, `dfs(1)` and
`bfs(1)` pass the off-by-one guard `v_start > len(adj_matrix)` (since
`1 > 1` is false) and then fault with an `IndexError` on `adj_matrix[1]`
(`none`), instead of returning the empty sequence; and `dfs(-1)` silently
wraps to row `0` and returns the non-empty `[-1]` instead of the empty
sequence. -/
theorem dfs_bfs_out_of_range_faults :
    g1.dfs 1 none = none ∧ g1.bfs 1 none = none ∧ g1.dfs (-1) none = some [-1] := by
  decide

/-- Claim C7 (counterexample): in the graph built from the single edge
`("", "A")` both vertices exist and the edge exists, yet
`remove_edge("", "A")` is a no-op: the source condition
`if v and u in self.adj_list and ...` tests the truthiness of `v`, and the
empty string is falsy.  The claim, which requires removal for every label
value including the empty string, fails here. -/
theorem remove_edge_empty_label_noop :
    (UGraph.mk_start [("", "A")]).get "" = some ["A"] ∧
    (UGraph.mk_start [("", "A")]).get "A" = some [""] ∧
    (UGraph.mk_start [("", "A")]).remove_edge "" "A" = UGraph.mk_start [("", "A")] := by
  decide

/-! ### Association-list lemmas -/

theorem getA_eq_none_iff (l : List (String × List String)) (k : String) :
    getA l k = none ↔ k ∉ l.map Prod.fst := by
  induction l with
  | nil => simp [getA]
  | cons p rest ih =>
    simp only [getA, List.map_cons, List.mem_cons]
    by_cases h : p.1 = k
    · simp [h]
    · rw [if_neg h, ih]
      constructor
      · intro hn hmem
        rcases hmem with h1 | h2
        · exact h h1.symm
        · exact hn h2
      · intro hn h2
        exact hn (Or.inr h2)

theorem getA_isSome_iff (l : List (String × List String)) (k : String) :
    (getA l k).isSome ↔ k ∈ l.map Prod.fst := by
  constructor
  · intro h
    by_contra hk
    rw [← getA_eq_none_iff] at hk
    simp [hk] at h
  · intro h
    by_contra hs
    have hnone : getA l k = none := by
      cases hh : getA l k
      · rfl
      · simp [hh] at hs
    exact (getA_eq_none_iff l k).mp hnone h

theorem getA_mem (l : List (String × List String)) (k : String) (s : List String)
    (h : getA l k = some s) : (k, s) ∈ l := by
  induction l with
  | nil => simp [getA] at h
  | cons p rest ih =>
    obtain ⟨a, b⟩ := p
    simp only [getA] at h
    by_cases hp : a = k
    · rw [if_pos hp] at h
      cases h
      subst hp
      exact List.mem_cons_self _ _
    · rw [if_neg hp] at h
      exact List.mem_cons_of_mem _ (ih h)

theorem getA_append_single (l : List (String × List String)) (v : String) (s : List String)
    (k : String) :
    getA (l ++ [(v, s)]) k =
      match getA l k with
      | some t => some t
      | none => if v = k then some s else none := by
  induction l with
  | nil => simp [getA]
  | cons p rest ih =>
    by_cases hp : p.1 = k <;> simp [getA, hp, ih]

theorem getA_updateA (l : List (String × List String)) (k : String)
    (f : List String → List String) (k' : String) :
    getA (updateA l k f) k' = if k' = k then (getA l k).map f else getA l k' := by
  induction l with
  | nil => simp [getA, updateA]
  | cons p rest ih =>
    simp only [updateA, List.map_cons] at ih ⊢
    by_cases hpk : p.1 = k
    · by_cases hk' : k' = k
      · subst hk'
        simp [getA, hpk, ih]
      · have hp' : ¬ p.1 = k' := fun h => hk' (by rw [← h]; exact hpk)
        have hk2 : ¬ k = k' := fun h => hk' h.symm
        simp [getA, hpk, hp', ih, hk', hk2]
    · by_cases hk' : k' = k
      · subst hk'
        simp [getA, hpk, ih]
      · by_cases hpk' : p.1 = k'
        · simp [getA, hpk, hpk', ih, hk']
        · simp [getA, hpk, hpk', ih, hk']

theorem keys_updateA (l : List (String × List String)) (k : String)
    (f : List String → List String) :
    (updateA l k f).map Prod.fst = l.map Prod.fst := by
  induction l with
  | nil => rfl
  | cons p rest ih =>
    by_cases hp : p.1 = k <;> simp only [updateA, List.map_cons] at ih ⊢ <;>
      simp [hp, ih]

theorem getA_filter_erase (l : List (String × List String)) (v k : String) :
    getA ((l.filter fun p => p.1 != v).map fun p => (p.1, p.2.erase v)) k =
      if k = v then none else (getA l k).map fun s => s.erase v := by
  induction l with
  | nil => simp [getA]
  | cons p rest ih =>
    simp only [List.filter_cons]
    by_cases hpv : p.1 = v
    · have hbv : (p.1 != v) = false := by simp [hpv]
      rw [hbv]
      simp only [Bool.false_eq_true, if_false, ih]
      by_cases hkv : k = v
      · simp [hkv]
      · have hpk : ¬ p.1 = k := fun h => hkv (by rw [← h]; exact hpv)
        simp [getA, hpk, hkv]
    · have hbv : (p.1 != v) = true := by simp [hpv]
      rw [hbv]
      simp only [if_true, List.map_cons]
      by_cases hpk : p.1 = k
      · by_cases hkv : k = v
        · exact absurd (hpk.trans hkv) hpv
        · simp [getA, hpk, hkv]
      · by_cases hkv : k = v
        · subst hkv
          simp [getA, hpk, hpv, ih]
        · simp [getA, hpk, hkv, ih]


/-! ### Effects of the undirected operations on `get` -/

theorem uget_eq_none_iff (g : UGraph) (k : String) : g.get k = none ↔ k ∉ g.keys :=
  getA_eq_none_iff g.adj_list k

theorem uget_isSome_iff (g : UGraph) (k : String) : (g.get k).isSome ↔ k ∈ g.keys :=
  getA_isSome_iff g.adj_list k

theorem add_vertex_of_present (g : UGraph) (v : String) (h : (g.get v).isSome) :
    g.add_vertex v = g := by
  unfold UGraph.add_vertex
  rw [if_pos h]

theorem get_add_vertex (g : UGraph) (v k : String) (h : g.get v = none) :
    (g.add_vertex v).get k = if v = k then some [] else g.get k := by
  unfold UGraph.add_vertex
  rw [h]
  simp only [Option.isSome_none, Bool.false_eq_true, if_false]
  show getA (g.adj_list ++ [(v, [])]) k = _
  rw [getA_append_single]
  by_cases hvk : v = k
  · subst hvk
    rw [show getA g.adj_list v = none from h]
    simp
  · cases hk : getA g.adj_list k <;> simp [hvk, UGraph.get, hk]

theorem keys_add_vertex (g : UGraph) (v : String) (h : g.get v = none) :
    (g.add_vertex v).keys = g.keys ++ [v] := by
  unfold UGraph.add_vertex
  rw [h]
  simp [UGraph.keys]

theorem wf_add_vertex (g : UGraph) (v : String) (h : g.WF) : (g.add_vertex v).WF := by
  by_cases hv : (g.get v).isSome
  · rw [add_vertex_of_present g v hv]
    exact h
  · have hn : g.get v = none := by
      cases hh : g.get v
      · rfl
      · simp [hh] at hv
    obtain ⟨hk, hent, hsym⟩ := h
    refine ⟨?_, ?_, ?_⟩
    · rw [keys_add_vertex g v hn]
      rw [List.nodup_append]
      exact ⟨hk, List.nodup_singleton v, fun a ha hav =>
        (uget_eq_none_iff g v).mp hn (List.mem_singleton.mp hav ▸ ha)⟩
    · intro k l hget
      rw [get_add_vertex g v k hn] at hget
      by_cases hvk : v = k
      · rw [if_pos hvk] at hget
        cases hget
        exact ⟨List.nodup_nil, by simp, by simp⟩
      · rw [if_neg hvk] at hget
        obtain ⟨h1, h2, h3⟩ := hent k l hget
        refine ⟨h1, h2, fun x hx => ?_⟩
        rw [get_add_vertex g v x hn]
        by_cases hvx : v = x
        · simp [hvx]
        · rw [if_neg hvx]
          exact h3 x hx
    · rintro a b ⟨l, hget, hb⟩
      rw [get_add_vertex g v a hn] at hget
      by_cases hva : v = a
      · rw [if_pos hva] at hget
        cases hget
        simp at hb
      · rw [if_neg hva] at hget
        obtain ⟨l', hget', hb'⟩ := hsym a b ⟨l, hget, hb⟩
        refine ⟨l', ?_, hb'⟩
        rw [get_add_vertex g v b hn]
        have hvb : ¬ v = b := by
          intro hh
          subst hh
          rw [hget'] at hn
          cases hn
        rw [if_neg hvb]
        exact hget'

theorem add_edge_self (g : UGraph) (u : String) : g.add_edge u u = g := by
  simp [UGraph.add_edge]

theorem get_append_edge (g : UGraph) (u v : String) (hvu : v ≠ u)
    (lu lv : List String) (hu : g.get u = some lu) (hv : g.get v = some lv) (k : String) :
    (UGraph.mk (updateA (updateA g.adj_list v fun l => l ++ [u]) u fun l => l ++ [v])).get k =
      if k = u then some (lu ++ [v]) else if k = v then some (lv ++ [u]) else g.get k := by
  have hu' : getA g.adj_list u = some lu := hu
  have hv' : getA g.adj_list v = some lv := hv
  show getA _ k = _
  simp only [getA_updateA]
  by_cases hku : k = u
  · rw [if_pos hku, if_pos hku, if_neg (fun h : u = v => hvu h.symm), hu']
    rfl
  · by_cases hkv : k = v
    · rw [if_neg hku, if_neg hku, if_pos hkv, if_pos hkv, hv']
      rfl
    · rw [if_neg hku, if_neg hku, if_neg hkv, if_neg hkv]
      rfl

theorem wf_append_edge (g : UGraph) (hwf : g.WF) (u v : String) (hvu : v ≠ u)
    (lu lv : List String) (hu : g.get u = some lu) (hv : g.get v = some lv)
    (hvl : v ∉ lu) (hul : u ∉ lv) :
    (UGraph.mk (updateA (updateA g.adj_list v fun l => l ++ [u]) u fun l => l ++ [v])).WF := by
  obtain ⟨hk, hent, hsym⟩ := hwf
  have hget := get_append_edge g u v hvu lu lv hu hv
  obtain ⟨hndu, hsu, hclu⟩ := hent u lu hu
  obtain ⟨hndv, hsv, hclv⟩ := hent v lv hv
  have hclosed : ∀ x, (g.get x).isSome →
      ((UGraph.mk (updateA (updateA g.adj_list v fun l => l ++ [u]) u
        fun l => l ++ [v])).get x).isSome := by
    intro x hx
    rw [hget x]
    by_cases hxu : x = u
    · rw [if_pos hxu]
      simp
    · by_cases hxv : x = v
      · rw [if_neg hxu, if_pos hxv]
        simp
      · rw [if_neg hxu, if_neg hxv]
        exact hx
  refine ⟨?_, ?_, ?_⟩
  · show ((updateA (updateA g.adj_list v fun l => l ++ [u]) u
      fun l => l ++ [v]).map Prod.fst).Nodup
    rw [keys_updateA, keys_updateA]
    exact hk
  · intro k l hgetk
    rw [hget k] at hgetk
    by_cases hku : k = u
    · rw [if_pos hku] at hgetk
      cases hgetk
      subst hku
      refine ⟨?_, ?_, ?_⟩
      · rw [List.nodup_append]
        exact ⟨hndu, List.nodup_singleton _,
          fun a ha hav => hvl (List.mem_singleton.mp hav ▸ ha)⟩
      · rw [List.mem_append]
        rintro (h | h)
        · exact hsu h
        · exact hvu (List.mem_singleton.mp h).symm
      · intro x hx
        rcases List.mem_append.mp hx with h | h
        · exact hclosed x (hclu x h)
        · rw [List.mem_singleton.mp h]
          exact hclosed v (by simp [hv])
    · by_cases hkv : k = v
      · rw [if_neg hku, if_pos hkv] at hgetk
        cases hgetk
        subst hkv
        refine ⟨?_, ?_, ?_⟩
        · rw [List.nodup_append]
          exact ⟨hndv, List.nodup_singleton _,
            fun a ha hav => hul (List.mem_singleton.mp hav ▸ ha)⟩
        · rw [List.mem_append]
          rintro (h | h)
          · exact hsv h
          · exact hvu (List.mem_singleton.mp h)
        · intro x hx
          rcases List.mem_append.mp hx with h | h
          · exact hclosed x (hclv x h)
          · rw [List.mem_singleton.mp h]
            exact hclosed u (by simp [hu])
      · rw [if_neg hku, if_neg hkv] at hgetk
        obtain ⟨h1, h2, h3⟩ := hent k l hgetk
        exact ⟨h1, h2, fun x hx => hclosed x (h3 x hx)⟩
  · have hmono : ∀ x y, g.Adj x y ∨ (x = u ∧ y = v) ∨ (x = v ∧ y = u) →
        (UGraph.mk (updateA (updateA g.adj_list v fun l => l ++ [u]) u
          fun l => l ++ [v])).Adj x y := by
      rintro x y (⟨l, hl, hy⟩ | ⟨hx1, hy1⟩ | ⟨hx1, hy1⟩)
      · by_cases hxu : x = u
        · subst hxu
          rw [hl] at hu
          cases hu
          exact ⟨lu ++ [v], by rw [hget x]; simp, List.mem_append.mpr (Or.inl hy)⟩
        · by_cases hxv : x = v
          · subst hxv
            rw [hl] at hv
            cases hv
            exact ⟨lv ++ [u], by rw [hget x, if_neg hxu]; simp,
              List.mem_append.mpr (Or.inl hy)⟩
          · exact ⟨l, by rw [hget x, if_neg hxu, if_neg hxv]; exact hl, hy⟩
      · rw [hx1, hy1]
        exact ⟨lu ++ [v], by rw [hget u]; simp, by simp⟩
      · rw [hx1, hy1]
        exact ⟨lv ++ [u], by rw [hget v, if_neg hvu]; simp, by simp⟩
    have hdec : ∀ x y,
        (UGraph.mk (updateA (updateA g.adj_list v fun l => l ++ [u]) u
          fun l => l ++ [v])).Adj x y →
        g.Adj x y ∨ (x = u ∧ y = v) ∨ (x = v ∧ y = u) := by
      rintro x y ⟨l, hl, hy⟩
      rw [hget x] at hl
      by_cases hxu : x = u
      · rw [if_pos hxu] at hl
        cases hl
        rcases List.mem_append.mp hy with h | h
        · exact Or.inl ⟨lu, hxu ▸ hu, h⟩
        · exact Or.inr (Or.inl ⟨hxu, List.mem_singleton.mp h⟩)
      · by_cases hxv : x = v
        · rw [if_neg hxu, if_pos hxv] at hl
          cases hl
          rcases List.mem_append.mp hy with h | h
          · exact Or.inl ⟨lv, hxv ▸ hv, h⟩
          · exact Or.inr (Or.inr ⟨hxv, List.mem_singleton.mp h⟩)
        · rw [if_neg hxu, if_neg hxv] at hl
          exact Or.inl ⟨l, hl, hy⟩
    intro a b hab
    rcases hdec a b hab with h | ⟨ha, hb⟩ | ⟨ha, hb⟩
    · exact hmono b a (Or.inl (hsym a b h))
    · exact hmono b a (Or.inr (Or.inr ⟨hb, ha⟩))
    · exact hmono b a (Or.inr (Or.inl ⟨hb, ha⟩))

theorem wf_add_edge (g : UGraph) (u v : String) (h : g.WF) : (g.add_edge u v).WF := by
  by_cases hvu : v = u
  · subst hvu
    rw [add_edge_self]
    exact h
  · rw [UGraph.add_edge]
    set gA := if (g.get u).isNone ∧ v ≠ u then g.add_vertex u else g with hgA
    set gB := if (gA.get v).isNone ∧ v ≠ u then gA.add_vertex v else gA with hgB
    have hWA : gA.WF := by
      rw [hgA]
      split_ifs with hc
      · exact wf_add_vertex g u h
      · exact h
    have hWB : gB.WF := by
      rw [hgB]
      split_ifs with hc
      · exact wf_add_vertex gA v hWA
      · exact hWA
    have hAu : (gA.get u).isSome := by
      rw [hgA]
      split_ifs with hc
      · rw [get_add_vertex g u u (Option.isNone_iff_eq_none.mp hc.1)]
        simp
      · cases hgu : g.get u with
        | none => exact absurd ⟨by simp [hgu], hvu⟩ hc
        | some l => simp
    have hBu : (gB.get u).isSome := by
      rw [hgB]
      split_ifs with hc
      · rw [get_add_vertex gA v u (Option.isNone_iff_eq_none.mp hc.1), if_neg hvu]
        exact hAu
      · exact hAu
    have hBv : (gB.get v).isSome := by
      rw [hgB]
      split_ifs with hc
      · rw [get_add_vertex gA v v (Option.isNone_iff_eq_none.mp hc.1), if_pos rfl]
        simp
      · cases hgv : gA.get v with
        | none => exact absurd ⟨by simp [hgv], hvu⟩ hc
        | some l => simp
    rw [if_pos hvu]
    obtain ⟨lu, hlu⟩ := Option.isSome_iff_exists.mp hBu
    obtain ⟨lv, hlv⟩ := Option.isSome_iff_exists.mp hBv
    rw [hlu, hlv]
    dsimp only
    by_cases hcond : v ∉ lu ∧ u ∉ lv
    · rw [if_pos hcond]
      exact wf_append_edge gB hWB u v hvu lu lv hlu hlv hcond.1 hcond.2
    · rw [if_neg hcond]
      exact hWB



theorem get_remove_edge_core (g : UGraph) (v u : String) (huv : u ≠ v)
    (lu lv : List String) (hu : g.get u = some lu) (hv : g.get v = some lv) (k : String) :
    (UGraph.mk (updateA (updateA g.adj_list v fun l => l.erase u) u
      fun l => l.erase v)).get k =
      if k = u then some (lu.erase v) else if k = v then some (lv.erase u) else g.get k := by
  have hu' : getA g.adj_list u = some lu := hu
  have hv' : getA g.adj_list v = some lv := hv
  show getA _ k = _
  simp only [getA_updateA]
  by_cases hku : k = u
  · rw [if_pos hku, if_pos hku, if_neg (fun hh : u = v => huv hh), hu']
    rfl
  · by_cases hkv : k = v
    · rw [if_neg hku, if_neg hku, if_pos hkv, if_pos hkv, hv']
      rfl
    · rw [if_neg hku, if_neg hku, if_neg hkv, if_neg hkv]
      rfl

theorem wf_remove_edge (g : UGraph) (v u : String) (h : g.WF) : (g.remove_edge v u).WF := by
  rw [UGraph.remove_edge]
  cases hu : g.get u with
  | none => exact h
  | some lu =>
    cases hv : g.get v with
    | none => exact h
    | some lv =>
      dsimp only
      by_cases hcond : v ≠ "" ∧ v ∈ lu ∧ u ∈ lv
      · rw [if_pos hcond]
        obtain ⟨hks, hent, hsym⟩ := h
        obtain ⟨hndu, hsu, hclu⟩ := hent u lu hu
        obtain ⟨hndv, hsv, hclv⟩ := hent v lv hv
        have huv : u ≠ v := by
          intro hh
          subst hh
          rw [hu] at hv
          cases hv
          exact hsu hcond.2.1
        have hget := get_remove_edge_core g v u huv lu lv hu hv
        have hclosed : ∀ x, (g.get x).isSome →
            ((UGraph.mk (updateA (updateA g.adj_list v fun l => l.erase u) u
              fun l => l.erase v)).get x).isSome := by
          intro x hx
          rw [hget x]
          by_cases hxu : x = u
          · rw [if_pos hxu]
            simp
          · by_cases hxv : x = v
            · rw [if_neg hxu, if_pos hxv]
              simp
            · rw [if_neg hxu, if_neg hxv]
              exact hx
        refine ⟨?_, ?_, ?_⟩
        · show ((updateA (updateA g.adj_list v fun l => l.erase u) u
            fun l => l.erase v).map Prod.fst).Nodup
          rw [keys_updateA, keys_updateA]
          exact hks
        · intro k l hgetk
          rw [hget k] at hgetk
          by_cases hku : k = u
          · rw [if_pos hku] at hgetk
            cases hgetk
            subst hku
            exact ⟨hndu.erase v, fun hmem => hsu (List.erase_subset _ _ hmem),
              fun x hx => hclosed x (hclu x (List.erase_subset _ _ hx))⟩
          · by_cases hkv : k = v
            · rw [if_neg hku, if_pos hkv] at hgetk
              cases hgetk
              subst hkv
              exact ⟨hndv.erase u, fun hmem => hsv (List.erase_subset _ _ hmem),
                fun x hx => hclosed x (hclv x (List.erase_subset _ _ hx))⟩
            · rw [if_neg hku, if_neg hkv] at hgetk
              obtain ⟨h1, h2, h3⟩ := hent k l hgetk
              exact ⟨h1, h2, fun x hx => hclosed x (h3 x hx)⟩
        · rintro a b ⟨l, hla, hb⟩
          rw [hget a] at hla
          by_cases hau : a = u
          · rw [if_pos hau] at hla
            cases hla
            have hbv : b ≠ v := (hndu.mem_erase_iff.mp hb).1
            have hblu : b ∈ lu := (hndu.mem_erase_iff.mp hb).2
            obtain ⟨lb, hlb, hub⟩ := hsym u b ⟨lu, hu, hblu⟩
            have hbu : b ≠ u := fun hh => hsu (hh ▸ hblu)
            refine ⟨lb, ?_, hau ▸ hub⟩
            rw [hget b, if_neg hbu, if_neg hbv]
            exact hlb
          · by_cases hav : a = v
            · rw [if_neg hau, if_pos hav] at hla
              cases hla
              have hbu : b ≠ u := (hndv.mem_erase_iff.mp hb).1
              have hblv : b ∈ lv := (hndv.mem_erase_iff.mp hb).2
              obtain ⟨lb, hlb, hvb⟩ := hsym v b ⟨lv, hv, hblv⟩
              have hbv : b ≠ v := fun hh => hsv (hh ▸ hblv)
              refine ⟨lb, ?_, hav ▸ hvb⟩
              rw [hget b, if_neg hbu, if_neg hbv]
              exact hlb
            · rw [if_neg hau, if_neg hav] at hla
              obtain ⟨lb, hlb, hab⟩ := hsym a b ⟨l, hla, hb⟩
              by_cases hbu : b = u
              · refine ⟨lu.erase v, by rw [hget b, if_pos hbu], ?_⟩
                rw [hndu.mem_erase_iff]
                refine ⟨hav, ?_⟩
                rw [hbu] at hlb
                rw [hu] at hlb
                cases hlb
                exact hab
              · by_cases hbv : b = v
                · refine ⟨lv.erase u, by rw [hget b, if_neg hbu, if_pos hbv], ?_⟩
                  rw [hndv.mem_erase_iff]
                  refine ⟨hau, ?_⟩
                  rw [hbv] at hlb
                  rw [hv] at hlb
                  cases hlb
                  exact hab
                · refine ⟨lb, ?_, hab⟩
                  rw [hget b, if_neg hbu, if_neg hbv]
                  exact hlb
      · rw [if_neg hcond]
        exact h

theorem remove_vertex_absent (g : UGraph) (v : String) (h : g.get v = none) :
    g.remove_vertex v = g := by
  unfold UGraph.remove_vertex
  rw [h]
  simp

theorem get_remove_vertex (g : UGraph) (v : String) (h : (g.get v).isSome) (k : String) :
    (g.remove_vertex v).get k =
      if k = v then none else (g.get k).map fun l => l.erase v := by
  unfold UGraph.remove_vertex
  rw [if_pos h]
  exact getA_filter_erase g.adj_list v k

theorem keys_filter_erase (l : List (String × List String)) (v : String) :
    ((l.filter fun p => p.1 != v).map fun p => (p.1, p.2.erase v)).map Prod.fst =
      (l.map Prod.fst).filter fun k => k != v := by
  induction l with
  | nil => rfl
  | cons p rest ih =>
    by_cases hpv : p.1 = v <;> simp [List.filter_cons, hpv, ih]

theorem keys_remove_vertex (g : UGraph) (v : String) (h : (g.get v).isSome) :
    (g.remove_vertex v).keys = g.keys.filter fun k => k != v := by
  unfold UGraph.remove_vertex
  rw [if_pos h]
  exact keys_filter_erase g.adj_list v

theorem wf_remove_vertex (g : UGraph) (v : String) (h : g.WF) : (g.remove_vertex v).WF := by
  by_cases hv : (g.get v).isSome
  · obtain ⟨hks, hent, hsym⟩ := h
    have hget := get_remove_vertex g v hv
    refine ⟨?_, ?_, ?_⟩
    · rw [keys_remove_vertex g v hv]
      exact hks.filter _
    · intro k l hgetk
      rw [hget k] at hgetk
      by_cases hkv : k = v
      · rw [if_pos hkv] at hgetk
        cases hgetk
      · rw [if_neg hkv] at hgetk
        obtain ⟨l0, hl0, rfl⟩ := Option.map_eq_some'.mp hgetk
        obtain ⟨hnd0, hs0, hcl0⟩ := hent k l0 hl0
        refine ⟨hnd0.erase v, fun hmem => hs0 (List.erase_subset _ _ hmem), ?_⟩
        intro x hx
        have hxl : x ∈ l0 := List.erase_subset _ _ hx
        have hxv : x ≠ v := (hnd0.mem_erase_iff.mp hx).1
        rw [hget x, if_neg hxv]
        have hxs := hcl0 x hxl
        cases hgx : g.get x with
        | none =>
          rw [hgx] at hxs
          simp at hxs
        | some lx => simp
    · rintro a b ⟨l, hla, hb⟩
      rw [hget a] at hla
      by_cases hav : a = v
      · rw [if_pos hav] at hla
        cases hla
      · rw [if_neg hav] at hla
        obtain ⟨la, hla0, rfl⟩ := Option.map_eq_some'.mp hla
        obtain ⟨hnda, hsa, hcla⟩ := hent a la hla0
        have hbv : b ≠ v := (hnda.mem_erase_iff.mp hb).1
        have hbla : b ∈ la := (hnda.mem_erase_iff.mp hb).2
        obtain ⟨lb, hlb, hab⟩ := hsym a b ⟨la, hla0, hbla⟩
        obtain ⟨hndb, hsb, hclb⟩ := hent b lb hlb
        refine ⟨lb.erase v, ?_, ?_⟩
        · rw [hget b, if_neg hbv, hlb]
          rfl
        · rw [hndb.mem_erase_iff]
          exact ⟨hav, hab⟩
  · have hn : g.get v = none := by
      cases hh : g.get v
      · rfl
      · simp [hh] at hv
    rw [remove_vertex_absent g v hn]
    exact h

theorem wf_emptyU : UGraph.emptyU.WF := by
  refine ⟨List.nodup_nil, ?_, ?_⟩
  · intro k l h
    simp [UGraph.emptyU, UGraph.get, getA] at h
  · rintro a b ⟨l, h, _⟩
    simp [UGraph.emptyU, UGraph.get, getA] at h

theorem ureach_wf (g : UGraph) (h : UReach g) : g.WF := by
  induction h with
  | init => exact wf_emptyU
  | add_vertex g v _ ih => exact wf_add_vertex g v ih
  | add_edge g u v _ ih => exact wf_add_edge g u v ih
  | remove_edge g v u _ ih => exact wf_remove_edge g v u ih
  | remove_vertex g v _ ih => exact wf_remove_vertex g v ih

/-- Claim C6: every state reachable by any sequence of `add_vertex`,
`add_edge`, `remove_edge` and `remove_vertex` from the empty graph has
symmetric adjacency (`u` in `adj(v)` iff `v` in `adj(u)`), no vertex in its
own adjacency list, and no duplicate entries in any adjacency list. -/
theorem ureach_adjacency_invariants (g : UGraph) (h : UReach g) :
    (∀ a b, g.Adj a b ↔ g.Adj b a) ∧
    ∀ k l, g.get k = some l → k ∉ l ∧ l.Nodup := by
  obtain ⟨hks, hent, hsym⟩ := ureach_wf g h
  exact ⟨fun a b => ⟨hsym a b, hsym b a⟩,
    fun k l hl => ⟨(hent k l hl).2.1, (hent k l hl).1⟩⟩

/-- Witness for C6 on the reachable two-vertex graph with one edge. -/
theorem ureach_adjacency_invariants_w :
    UReach (UGraph.mk_start [("A", "B")]) ∧
    ((UGraph.mk_start [("A", "B")]).Adj "A" "B" ↔
      (UGraph.mk_start [("A", "B")]).Adj "B" "A") := by
  have hr : UReach (UGraph.mk_start [("A", "B")]) :=
    UReach.add_edge _ "A" "B" UReach.init
  exact ⟨hr, (ureach_adjacency_invariants _ hr).1 "A" "B"⟩

/-- Claim C7 (amended): `remove_edge(v, u)` removes the two symmetric entries
exactly when both vertices exist, the edge exists, and additionally the first
argument `v` is not the empty string (Python truthiness of `v`); in every
other case, including `v = ""` with the edge present, the graph is unchanged. -/
theorem remove_edge_characterization (g : UGraph) (hg : UReach g) (v u : String) :
    (∀ lu lv, v ≠ "" → g.get u = some lu → g.get v = some lv → v ∈ lu →
      (g.remove_edge v u).get u = some (lu.erase v) ∧
      (g.remove_edge v u).get v = some (lv.erase u) ∧
      ∀ w, w ≠ u → w ≠ v → (g.remove_edge v u).get w = g.get w) ∧
    ((v = "" ∨ g.get u = none ∨ g.get v = none ∨ ∀ lu, g.get u = some lu → v ∉ lu) →
      g.remove_edge v u = g) := by
  obtain ⟨hks, hent, hsym⟩ := ureach_wf g hg
  constructor
  · intro lu lv hv0 hu hv hvlu
    obtain ⟨lv', hlv', hulv⟩ := hsym u v ⟨lu, hu, hvlu⟩
    rw [hv] at hlv'
    cases hlv'
    have huv : u ≠ v := by
      intro hh
      subst hh
      exact (hent u lu hu).2.1 hvlu
    have heq : g.remove_edge v u =
        UGraph.mk (updateA (updateA g.adj_list v fun l => l.erase u) u
          fun l => l.erase v) := by
      rw [UGraph.remove_edge, hu, hv]
      dsimp only
      rw [if_pos ⟨hv0, hvlu, hulv⟩]
    rw [heq]
    have hget := get_remove_edge_core g v u huv lu lv hu hv
    refine ⟨?_, ?_, ?_⟩
    · rw [hget u, if_pos rfl]
    · rw [hget v, if_neg (fun hh : v = u => huv hh.symm), if_pos rfl]
    · intro w hwu hwv
      rw [hget w, if_neg hwu, if_neg hwv]
  · intro hcase
    rw [UGraph.remove_edge]
    cases hu : g.get u with
    | none => rfl
    | some lu =>
      cases hv : g.get v with
      | none => rfl
      | some lv =>
        dsimp only
        rw [if_neg]
        rintro ⟨h1, h2, h3⟩
        rcases hcase with h0 | h0 | h0 | h0
        · exact h1 h0
        · rw [hu] at h0
          cases h0
        · rw [hv] at h0
          cases h0
        · exact h0 lu hu h2

/-- Witness for the amended C7 on the reachable graph with the single edge
`A - B`, removing with `v = "B"`, `u = "A"`. -/
theorem remove_edge_characterization_w :
    ((UGraph.mk_start [("A", "B")]).remove_edge "B" "A").get "A" = some [] ∧
    ((UGraph.mk_start [("A", "B")]).remove_edge "B" "A").get "B" = some [] := by
  have hr : UReach (UGraph.mk_start [("A", "B")]) :=
    UReach.add_edge _ "A" "B" UReach.init
  have h := (remove_edge_characterization _ hr "B" "A").1 ["B"] ["A"]
    (by decide) (by decide) (by decide) (by decide)
  exact ⟨by rw [h.1]; rfl, by rw [h.2.1]; rfl⟩

/-! ### Weights, edges, walks -/

theorem le_foldr_max (l : List ℕ) (x : ℕ) (h : x ∈ l) : x ≤ l.foldr max 0 := by
  induction l with
  | nil => cases h
  | cons a rest ih =>
    rcases List.mem_cons.mp h with rfl | h2
    · exact le_max_left _ _
    · exact le_trans (ih h2) (le_max_right _ _)

theorem wt_nonneg (g : DGraph) (hwf : g.WF) (u t : ℕ) : 0 ≤ g.wt u t := by
  unfold DGraph.wt
  cases hr : g.adj_matrix.get? u with
  | none => simp
  | some row =>
    simp only [Option.some_bind]
    cases hw : row.get? t with
    | none => simp
    | some w =>
      simp only [Option.getD_some]
      exact hwf.2.1 row (List.get?_mem hr) w (List.get?_mem hw)

theorem edge_elim (g : DGraph) {u t : ℕ} (h : g.Edge u t) :
    ∃ row w, g.adj_matrix.get? u = some row ∧ row.get? t = some w ∧ w ≠ 0 ∧
      g.wt u t = w := by
  unfold DGraph.Edge DGraph.wt at h
  cases hr : g.adj_matrix.get? u with
  | none =>
    rw [hr] at h
    simp at h
  | some row =>
    rw [hr] at h
    simp only [Option.some_bind] at h
    cases hw : row.get? t with
    | none =>
      rw [hw] at h
      simp at h
    | some w =>
      rw [hw] at h
      simp only [Option.getD_some] at h
      refine ⟨row, w, rfl, hw, h, ?_⟩
      unfold DGraph.wt
      rw [hr]
      simp only [Option.some_bind]
      rw [hw]
      rfl

theorem edge_lt (g : DGraph) (hwf : g.WF) {u t : ℕ} (h : g.Edge u t) :
    u < g.v_count ∧ t < g.v_count := by
  obtain ⟨row, w, hr, hw, hw0, hwt⟩ := edge_elim g h
  have hu : u < g.adj_matrix.length := by
    by_contra hh
    rw [List.get?_eq_none.mpr (le_of_not_lt hh)] at hr
    cases hr
  have ht : t < row.length := by
    by_contra hh
    rw [List.get?_eq_none.mpr (le_of_not_lt hh)] at hw
    cases hw
  constructor
  · rw [← hwf.1.1]
    exact hu
  · rw [← hwf.1.2 row (List.get?_mem hr)]
    exact ht

theorem edge_one_le (g : DGraph) (hwf : g.WF) {u t : ℕ} (h : g.Edge u t) :
    1 ≤ g.wt u t := by
  have h0 := wt_nonneg g hwf u t
  have hne : g.wt u t ≠ 0 := h
  omega

theorem edge_ne (g : DGraph) (hwf : g.WF) {u t : ℕ} (h : g.Edge u t) : u ≠ t := by
  intro hh
  subst hh
  exact h (hwf.2.2 u (edge_lt g hwf h).1)

theorem wt_le_wmax (g : DGraph) (hwf : g.WF) (u t : ℕ) : g.wt u t ≤ (g.wmax : ℤ) := by
  unfold DGraph.wt DGraph.wmax
  cases hr : g.adj_matrix.get? u with
  | none => simp
  | some row =>
    simp only [Option.some_bind]
    cases hw : row.get? t with
    | none => simp
    | some w =>
      simp only [Option.getD_some]
      have hwm : w ∈ row := List.get?_mem hw
      have hmem : w.toNat ∈ (g.adj_matrix.flatten.map Int.toNat) :=
        List.mem_map.mpr ⟨w, List.mem_flatten.mpr ⟨row, List.get?_mem hr, hwm⟩, rfl⟩
      have hle := le_foldr_max _ _ hmem
      have h0 : 0 ≤ w := hwf.2.1 row (List.get?_mem hr) w hwm
      omega

theorem walkW_nonneg (g : DGraph) (hwf : g.WF) :
    ∀ (l : List ℕ) (a : ℕ), 0 ≤ walkW g a l := by
  intro l
  induction l with
  | nil =>
    intro a
    simp [walkW]
  | cons b rest ih =>
    intro a
    have h1 := wt_nonneg g hwf a b
    have h2 := ih b
    simp only [walkW]
    omega

theorem walk_snoc (g : DGraph) :
    ∀ (l : List ℕ) (a t : ℕ), g.IsWalk a l → g.Edge (l.getLastD a) t →
      g.IsWalk a (l ++ [t]) ∧ (l ++ [t]).getLastD a = t ∧
      walkW g a (l ++ [t]) = walkW g a l + g.wt (l.getLastD a) t := by
  intro l
  induction l with
  | nil =>
    intro a t _ he
    refine ⟨⟨he, trivial⟩, rfl, ?_⟩
    simp only [walkW, List.getLastD_nil] at *
    omega
  | cons b rest ih =>
    intro a t hw he
    have hlast : (b :: rest).getLastD a = rest.getLastD b := List.getLastD_cons a b rest
    rw [hlast] at he
    obtain ⟨h1, h2, h3⟩ := ih b t hw.2 he
    refine ⟨⟨hw.1, h1⟩, ?_, ?_⟩
    · rw [List.cons_append, List.getLastD_cons, h2]
    · simp only [List.cons_append, walkW, List.append_eq]
      rw [hlast, h3]
      ring

/-! ### Behaviour of the relaxation scan -/

theorem relaxRow_isSome (mapL : List (WithTop ℤ)) (visited : List ℕ) (di : ℤ) :
    ∀ (ds : List ℤ) (vi0 : ℕ), (∀ u ∈ visited, u < mapL.length) →
      ∃ items, relaxRow mapL visited di ds vi0 = some items := by
  intro ds
  induction ds with
  | nil =>
    intro vi0 _
    exact ⟨[], rfl⟩
  | cons d rest ih =>
    intro vi0 hv
    obtain ⟨items, hit⟩ := ih (vi0 + 1) hv
    rw [relaxRow]
    by_cases h1 : d ≠ 0 ∧ vi0 ∉ visited
    · rw [if_pos h1, hit]
      exact ⟨_, rfl⟩
    · rw [if_neg h1]
      by_cases h2 : d ≠ 0 ∧ vi0 ∈ visited
      · rw [if_pos h2]
        have hlt : vi0 < mapL.length := hv vi0 h2.2
        rw [List.get?_eq_get hlt]
        dsimp only
        by_cases h3 : ((di + d : ℤ) : WithTop ℤ) < mapL.get ⟨vi0, hlt⟩
        · rw [if_pos h3, hit]
          exact ⟨_, rfl⟩
        · rw [if_neg h3, hit]
          exact ⟨_, rfl⟩
      · rw [if_neg h2, hit]
        exact ⟨_, rfl⟩

theorem relaxRow_cons_shape (mapL : List (WithTop ℤ)) (visited : List ℕ) (di d : ℤ)
    (rest : List ℤ) (vi0 : ℕ) (items : List (ℕ × ℤ))
    (h : relaxRow mapL visited di (d :: rest) vi0 = some items) :
    ∃ items', relaxRow mapL visited di rest (vi0 + 1) = some items' ∧
      (items = items' ∨ items = (vi0, di + d) :: items') := by
  rw [relaxRow] at h
  by_cases h1 : d ≠ 0 ∧ vi0 ∉ visited
  · rw [if_pos h1] at h
    cases hrec : relaxRow mapL visited di rest (vi0 + 1) with
    | none =>
      rw [hrec] at h
      cases h
    | some items' =>
      rw [hrec] at h
      simp only [Option.map_some'] at h
      cases h
      exact ⟨items', rfl, Or.inr rfl⟩
  · rw [if_neg h1] at h
    by_cases h2 : d ≠ 0 ∧ vi0 ∈ visited
    · rw [if_pos h2] at h
      cases hm : mapL.get? vi0 with
      | none =>
        rw [hm] at h
        cases h
      | some mvi =>
        rw [hm] at h
        dsimp only at h
        by_cases h3 : ((di + d : ℤ) : WithTop ℤ) < mvi
        · rw [if_pos h3] at h
          cases hrec : relaxRow mapL visited di rest (vi0 + 1) with
          | none =>
            rw [hrec] at h
            cases h
          | some items' =>
            rw [hrec] at h
            simp only [Option.map_some'] at h
            cases h
            exact ⟨items', rfl, Or.inr rfl⟩
        · rw [if_neg h3] at h
          exact ⟨items, h, Or.inl rfl⟩
    · rw [if_neg h2] at h
      exact ⟨items, h, Or.inl rfl⟩

theorem relaxRow_length (mapL : List (WithTop ℤ)) (visited : List ℕ) (di : ℤ) :
    ∀ (ds : List ℤ) (vi0 : ℕ) (items : List (ℕ × ℤ)),
      relaxRow mapL visited di ds vi0 = some items → items.length ≤ ds.length := by
  intro ds
  induction ds with
  | nil =>
    intro vi0 items h
    rw [relaxRow] at h
    cases h
    simp
  | cons d rest ih =>
    intro vi0 items h
    obtain ⟨items', hrec, hcase⟩ := relaxRow_cons_shape mapL visited di d rest vi0 items h
    have := ih (vi0 + 1) items' hrec
    rcases hcase with rfl | rfl <;> simp <;> omega

theorem relaxRow_mem (mapL : List (WithTop ℤ)) (visited : List ℕ) (di : ℤ) :
    ∀ (ds : List ℤ) (vi0 : ℕ) (items : List (ℕ × ℤ)),
      relaxRow mapL visited di ds vi0 = some items →
      ∀ p ∈ items, ∃ j w, ds.get? j = some w ∧ w ≠ 0 ∧ p = (vi0 + j, di + w) ∧
        (p.1 ∉ visited ∨ p.1 ∈ visited ∧
          ((di + w : ℤ) : WithTop ℤ) < mapL.getD p.1 ⊤) := by
  intro ds
  induction ds with
  | nil =>
    intro vi0 items h p hp
    rw [relaxRow] at h
    cases h
    cases hp
  | cons d rest ih =>
    intro vi0 items h p hp
    rw [relaxRow] at h
    by_cases h1 : d ≠ 0 ∧ vi0 ∉ visited
    · rw [if_pos h1] at h
      cases hrec : relaxRow mapL visited di rest (vi0 + 1) with
      | none =>
        rw [hrec] at h
        cases h
      | some items' =>
        rw [hrec] at h
        simp only [Option.map_some'] at h
        cases h
        rcases List.mem_cons.mp hp with rfl | hp2
        · exact ⟨0, d, rfl, h1.1, by simp, Or.inl h1.2⟩
        · obtain ⟨j, w, hj, hw0, hpe, hcase⟩ := ih (vi0 + 1) items' hrec p hp2
          refine ⟨j + 1, w, by rw [List.get?_cons_succ]; exact hj, hw0, ?_, hcase⟩
          rw [hpe]
          simp only [Prod.mk.injEq]
          exact ⟨by omega, trivial⟩
    · rw [if_neg h1] at h
      by_cases h2 : d ≠ 0 ∧ vi0 ∈ visited
      · rw [if_pos h2] at h
        cases hm : mapL.get? vi0 with
        | none =>
          rw [hm] at h
          cases h
        | some mvi =>
          rw [hm] at h
          dsimp only at h
          have hgd : mapL.getD vi0 ⊤ = mvi := by
            rw [List.getD_eq_get?, hm]
            rfl
          by_cases h3 : ((di + d : ℤ) : WithTop ℤ) < mvi
          · rw [if_pos h3] at h
            cases hrec : relaxRow mapL visited di rest (vi0 + 1) with
            | none =>
              rw [hrec] at h
              cases h
            | some items' =>
              rw [hrec] at h
              simp only [Option.map_some'] at h
              cases h
              rcases List.mem_cons.mp hp with rfl | hp2
              · refine ⟨0, d, rfl, h2.1, by simp, Or.inr ⟨h2.2, ?_⟩⟩
                rw [hgd]
                exact h3
              · obtain ⟨j, w, hj, hw0, hpe, hcase⟩ := ih (vi0 + 1) items' hrec p hp2
                refine ⟨j + 1, w, by rw [List.get?_cons_succ]; exact hj, hw0, ?_, hcase⟩
                rw [hpe]
                simp only [Prod.mk.injEq]
                exact ⟨by omega, trivial⟩
          · rw [if_neg h3] at h
            obtain ⟨j, w, hj, hw0, hpe, hcase⟩ := ih (vi0 + 1) items h p hp
            refine ⟨j + 1, w, by rw [List.get?_cons_succ]; exact hj, hw0, ?_, hcase⟩
            rw [hpe]
            simp only [Prod.mk.injEq]
            exact ⟨by omega, trivial⟩
      · rw [if_neg h2] at h
        obtain ⟨j, w, hj, hw0, hpe, hcase⟩ := ih (vi0 + 1) items h p hp
        refine ⟨j + 1, w, by rw [List.get?_cons_succ]; exact hj, hw0, ?_, hcase⟩
        rw [hpe]
        simp only [Prod.mk.injEq]
        exact ⟨by omega, trivial⟩

theorem relaxRow_mem_unvisited (mapL : List (WithTop ℤ)) (visited : List ℕ) (di : ℤ) :
    ∀ (ds : List ℤ) (vi0 : ℕ) (items : List (ℕ × ℤ)),
      relaxRow mapL visited di ds vi0 = some items →
      ∀ j w, ds.get? j = some w → w ≠ 0 → (vi0 + j) ∉ visited →
        (vi0 + j, di + w) ∈ items := by
  intro ds
  induction ds with
  | nil =>
    intro vi0 items h j w hj
    simp at hj
  | cons d rest ih =>
    intro vi0 items h j w hj hw0 hnv
    cases j with
    | zero =>
      simp only [List.get?_cons_zero, Option.some.injEq] at hj
      rw [← hj] at hw0 ⊢
      have h1 : d ≠ 0 ∧ vi0 ∉ visited := ⟨hw0, by simpa using hnv⟩
      rw [relaxRow, if_pos h1] at h
      cases hrec : relaxRow mapL visited di rest (vi0 + 1) with
      | none =>
        rw [hrec] at h
        cases h
      | some items' =>
        rw [hrec] at h
        simp only [Option.map_some'] at h
        cases h
        exact List.mem_cons.mpr (Or.inl (by simp))
    | succ j' =>
      rw [List.get?_cons_succ] at hj
      have harith : vi0 + (j' + 1) = (vi0 + 1) + j' := by omega
      have hnv' : (vi0 + 1) + j' ∉ visited := by
        rw [← harith]
        exact hnv
      obtain ⟨items', hrec, hcase⟩ := relaxRow_cons_shape mapL visited di d rest vi0 items h
      have hmem := ih (vi0 + 1) items' hrec j' w hj hw0 hnv'
      rw [harith]
      rcases hcase with rfl | rfl
      · exact hmem
      · exact List.mem_cons.mpr (Or.inr hmem)

theorem relaxRow_mem_dec (mapL : List (WithTop ℤ)) (visited : List ℕ) (di : ℤ) :
    ∀ (ds : List ℤ) (vi0 : ℕ) (items : List (ℕ × ℤ)),
      relaxRow mapL visited di ds vi0 = some items →
      ∀ j w, ds.get? j = some w → w ≠ 0 → (vi0 + j) ∈ visited →
        ((di + w : ℤ) : WithTop ℤ) < mapL.getD (vi0 + j) ⊤ →
        (vi0 + j, di + w) ∈ items := by
  intro ds
  induction ds with
  | nil =>
    intro vi0 items h j w hj
    simp at hj
  | cons d rest ih =>
    intro vi0 items h j w hj hw0 hvv hlt
    cases j with
    | zero =>
      simp only [List.get?_cons_zero, Option.some.injEq] at hj
      rw [← hj] at hw0 hlt ⊢
      have hvv0 : vi0 ∈ visited := by simpa using hvv
      have h1 : ¬(d ≠ 0 ∧ vi0 ∉ visited) := by
        rintro ⟨-, hn⟩
        exact hn hvv0
      have h2 : d ≠ 0 ∧ vi0 ∈ visited := ⟨hw0, hvv0⟩
      rw [relaxRow, if_neg h1, if_pos h2] at h
      cases hm : mapL.get? vi0 with
      | none =>
        rw [hm] at h
        cases h
      | some mvi =>
        rw [hm] at h
        dsimp only at h
        have hgd : mapL.getD vi0 ⊤ = mvi := by
          rw [List.getD_eq_get?, hm]
          rfl
        have h3 : ((di + d : ℤ) : WithTop ℤ) < mvi := by
          rw [← hgd]
          simpa using hlt
        rw [if_pos h3] at h
        cases hrec : relaxRow mapL visited di rest (vi0 + 1) with
        | none =>
          rw [hrec] at h
          cases h
        | some items' =>
          rw [hrec] at h
          simp only [Option.map_some'] at h
          cases h
          exact List.mem_cons.mpr (Or.inl (by simp))
    | succ j' =>
      rw [List.get?_cons_succ] at hj
      have harith : vi0 + (j' + 1) = (vi0 + 1) + j' := by omega
      rw [harith] at hvv hlt
      obtain ⟨items', hrec, hcase⟩ := relaxRow_cons_shape mapL visited di d rest vi0 items h
      have hmem := ih (vi0 + 1) items' hrec j' w hj hw0 hvv hlt
      rw [harith]
      rcases hcase with rfl | rfl
      · exact hmem
      · exact List.mem_cons.mpr (Or.inr hmem)

/-! ### Helpers for the dijkstra invariant -/

theorem mgetD_set_self (mapL : List (WithTop ℤ)) (v : ℕ) (x : WithTop ℤ)
    (h : v < mapL.length) : (mapL.set v x).getD v ⊤ = x := by
  rw [List.getD_eq_getElem?_getD, List.getElem?_set_eq_of_lt x h]
  rfl

theorem mgetD_set_ne (mapL : List (WithTop ℤ)) (v u : ℕ) (x : WithTop ℤ)
    (h : v ≠ u) : (mapL.set v x).getD u ⊤ = mapL.getD u ⊤ := by
  rw [List.getD_eq_getElem?_getD, List.getD_eq_getElem?_getD, List.getElem?_set_ne h]

theorem mget_some_getD (mapL : List (WithTop ℤ)) (v : ℕ) (h : v < mapL.length) :
    mapL.get? v = some (mapL.getD v ⊤) := by
  rw [List.get?_eq_getElem?, List.getD_eq_getElem?_getD]
  cases hq : mapL[v]? with
  | none =>
    rw [List.getElem?_eq_none_iff] at hq
    omega
  | some x => rfl

theorem mgetD_replicate (n u : ℕ) :
    (List.replicate n (⊤ : WithTop ℤ)).getD u ⊤ = ⊤ := by
  rw [List.getD_eq_getElem?_getD]
  cases hq : (List.replicate n (⊤ : WithTop ℤ))[u]? with
  | none => rfl
  | some x =>
    have := List.getElem?_mem hq
    rw [List.eq_of_mem_replicate this]
    rfl

theorem card_append_single (visited : List ℕ) (v : ℕ) :
    (visited ++ [v]).toFinset.card =
      if v ∈ visited then visited.toFinset.card else visited.toFinset.card + 1 := by
  rw [List.toFinset_append]
  have h1 : ([v] : List ℕ).toFinset = {v} := rfl
  rw [h1]
  by_cases hv : v ∈ visited
  · rw [if_pos hv]
    congr 1
    apply Finset.union_eq_left.mpr
    intro x hx
    rw [Finset.mem_singleton] at hx
    rw [hx, List.mem_toFinset]
    exact hv
  · rw [if_neg hv, Finset.union_comm, ← Finset.insert_eq,
      Finset.card_insert_of_not_mem (by rw [List.mem_toFinset]; exact hv)]

theorem card_le_of_lt (visited : List ℕ) (n : ℕ) (h : ∀ u ∈ visited, u < n) :
    visited.toFinset.card ≤ n := by
  have hsub : visited.toFinset ⊆ Finset.range n := by
    intro x hx
    rw [List.mem_toFinset] at hx
    rw [Finset.mem_range]
    exact h x hx
  simpa using Finset.card_le_card hsub

theorem qpot_append (n K : ℕ) (q1 q2 : List (ℕ × ℤ)) :
    qpot n K (q1 ++ q2) = qpot n K q1 + qpot n K q2 := by
  simp [qpot]

theorem qpot_cons (n K : ℕ) (v : ℕ) (d : ℤ) (q : List (ℕ × ℤ)) :
    qpot n K ((v, d) :: q) = (n + 1) ^ (K - d.toNat) + qpot n K q := by
  simp [qpot]

theorem qpot_bound (n K : ℕ) (q : List (ℕ × ℤ)) (e : ℕ)
    (h : ∀ p ∈ q, K - p.2.toNat ≤ e) :
    qpot n K q ≤ q.length * (n + 1) ^ e := by
  induction q with
  | nil => simp [qpot]
  | cons p rest ih =>
    have h1 : (n + 1) ^ (K - p.2.toNat) ≤ (n + 1) ^ e :=
      Nat.pow_le_pow_right (by omega) (h p (List.mem_cons_self _ _))
    have h2 := ih fun p' hp' => h p' (List.mem_cons_of_mem _ hp')
    simp only [qpot, List.map_cons, List.sum_cons] at *
    calc (n + 1) ^ (K - p.2.toNat) + (rest.map fun p => (n + 1) ^ (K - p.2.toNat)).sum
        ≤ (n + 1) ^ e + rest.length * (n + 1) ^ e := by omega
      _ = (rest.length + 1) * (n + 1) ^ e := by ring
      _ = (p :: rest).length * (n + 1) ^ e := by simp

theorem inv_val_le_K (g : DGraph) (src : ℕ) (mapL : List (WithTop ℤ))
    (visited : List ℕ) (queue : List (ℕ × ℤ))
    (hinv : DijkInv g src mapL visited queue) :
    ∀ p ∈ queue, p.2 ≤ ((g.wmax * g.v_count * g.v_count + g.wmax * g.v_count : ℕ) : ℤ) := by
  intro p hp
  obtain ⟨T, hT1, hT2, hT3⟩ := hinv.hbound p hp
  have hcard : visited.toFinset.card ≤ g.v_count :=
    card_le_of_lt visited g.v_count fun u hu => ((hinv.hvis u).mp hu).1
  have hTcard : T.card ≤ g.v_count := by
    simpa using Finset.card_le_card hT2
  have hle : g.wmax * g.v_count * visited.toFinset.card + g.wmax * T.card ≤
      g.wmax * g.v_count * g.v_count + g.wmax * g.v_count := by
    have := Nat.mul_le_mul_left (g.wmax * g.v_count) hcard
    have := Nat.mul_le_mul_left g.wmax hTcard
    omega
  calc p.2 ≤ _ := hT3
    _ ≤ _ := by exact_mod_cast hle

/-! ### One iteration of the dijkstra loop preserves the invariant -/

theorem dijkstra_step_inv (g : DGraph) (hwf : g.WF) (src : ℕ)
    (mapL : List (WithTop ℤ)) (visited : List ℕ) (v : ℕ) (d : ℤ)
    (queue1 : List (ℕ × ℤ)) (row : List ℤ)
    (hrow : g.adj_matrix.get? v = some row)
    (hinv : DijkInv g src mapL visited ((v, d) :: queue1)) :
    ∃ items,
      relaxRow (if (d : WithTop ℤ) < mapL.getD v ⊤
          then mapL.set v (d : WithTop ℤ) else mapL) visited d row 0 = some items ∧
      DijkInv g src
        (if (d : WithTop ℤ) < mapL.getD v ⊤
          then mapL.set v (d : WithTop ℤ) else mapL)
        (visited ++ [v]) (queue1 ++ items) := by
  obtain ⟨hlen, hitems, hvis, hmapw, htri, hcov, hsrc0, hbound, hmapb⟩ := hinv
  obtain ⟨hvlt, hd0, lv, hlv1, hlv2, hlv3⟩ := hitems (v, d) (List.mem_cons_self _ _)
  have hvlen : v < mapL.length := by
    rw [hlen]
    exact hvlt
  have hrlen : row.length = g.v_count := hwf.1.2 row (List.get?_mem hrow)
  have hwt_eq : ∀ j w, row.get? j = some w → g.wt v j = w := by
    intro j w hj
    unfold DGraph.wt
    rw [hrow]
    simp only [Option.some_bind]
    rw [hj]
    rfl
  have hrow_get : ∀ j, j < g.v_count → row.get? j = some (g.wt v j) := by
    intro j hj
    have hjl : j < row.length := by omega
    have hx : row.get? j = some (row.get ⟨j, hjl⟩) := List.get?_eq_get hjl
    rw [hx, hwt_eq j _ hx]
  set M1 := (if (d : WithTop ℤ) < mapL.getD v ⊤
      then mapL.set v (d : WithTop ℤ) else mapL) with hM1
  have h1len : M1.length = g.v_count := by
    rw [hM1]
    split_ifs
    · rw [List.length_set]
      exact hlen
    · exact hlen
  have h1vd : M1.getD v ⊤ ≤ (d : WithTop ℤ) := by
    rw [hM1]
    split_ifs with hp
    · rw [mgetD_set_self mapL v _ hvlen]
    · exact le_of_not_lt hp
  have h1vold : M1.getD v ⊤ ≤ mapL.getD v ⊤ := by
    rw [hM1]
    split_ifs with hp
    · rw [mgetD_set_self mapL v _ hvlen]
      exact le_of_lt hp
    · exact le_refl _
  have h1u : ∀ u, ¬ u = v → M1.getD u ⊤ = mapL.getD u ⊤ := by
    intro u hu
    rw [hM1]
    split_ifs with hp
    · exact mgetD_set_ne mapL v u _ (fun hh => hu hh.symm)
    · rfl
  have h1le : ∀ u, M1.getD u ⊤ ≤ mapL.getD u ⊤ := by
    intro u
    by_cases hu : u = v
    · rw [hu]
      exact h1vold
    · rw [h1u u hu]
  have h1cases : M1.getD v ⊤ = (d : WithTop ℤ) ∨ M1.getD v ⊤ = mapL.getD v ⊤ := by
    rw [hM1]
    split_ifs with hp
    · exact Or.inl (mgetD_set_self mapL v _ hvlen)
    · exact Or.inr rfl
  have h1fin : M1.getD v ⊤ ≠ ⊤ :=
    (lt_of_le_of_lt h1vd (WithTop.coe_lt_top d)).ne
  obtain ⟨items, hitemseq⟩ :=
    relaxRow_isSome M1 visited d row 0
      (fun u hu => by rw [h1len]; exact ((hvis u).mp hu).1)
  have hitem_mem' : ∀ p ∈ items, g.Edge v p.1 ∧ p.2 = d + g.wt v p.1 ∧ p.1 < g.v_count ∧
      (p.1 ∉ visited ∨ p.1 ∈ visited ∧
        ((d + g.wt v p.1 : ℤ) : WithTop ℤ) < M1.getD p.1 ⊤) := by
    intro p hp
    obtain ⟨j, w, hj, hw0, hpe, hcase⟩ := relaxRow_mem M1 visited d row 0 items hitemseq p hp
    have hpe' : p = (j, d + w) := by simpa using hpe
    have hjlen : j < row.length := by
      by_contra hh
      rw [List.get?_eq_none.mpr (le_of_not_lt hh)] at hj
      cases hj
    have hwteq : g.wt v j = w := hwt_eq j w hj
    have hedge : g.Edge v j := by
      show g.wt v j ≠ 0
      rw [hwteq]
      exact hw0
    subst hpe'
    refine ⟨hedge, ?_, by omega, ?_⟩
    · show d + w = d + g.wt v j
      rw [hwteq]
    · show j ∉ visited ∨ j ∈ visited ∧
        ((d + g.wt v j : ℤ) : WithTop ℤ) < M1.getD j ⊤
      rw [hwteq]
      exact hcase
  have hitem_unvis : ∀ t, g.Edge v t → t ∉ visited → (t, d + g.wt v t) ∈ items := by
    intro t hedge htv
    have htlt : t < g.v_count := (edge_lt g hwf hedge).2
    have hh := relaxRow_mem_unvisited M1 visited d row 0 items hitemseq t (g.wt v t)
      (hrow_get t htlt) hedge (by simpa using htv)
    simpa using hh
  have hitem_dec : ∀ t, g.Edge v t → t ∈ visited →
      ((d + g.wt v t : ℤ) : WithTop ℤ) < M1.getD t ⊤ → (t, d + g.wt v t) ∈ items := by
    intro t hedge htv hlt
    have htlt : t < g.v_count := (edge_lt g hwf hedge).2
    have hh := relaxRow_mem_dec M1 visited d row 0 items hitemseq t (g.wt v t)
      (hrow_get t htlt) hedge (by simpa using htv) (by simpa using hlt)
    simpa using hh
  have hvv' : ∀ u, u ∈ visited ++ [v] ↔ u ∈ visited ∨ u = v := by
    intro u
    simp
  have hcardmono : visited.toFinset.card ≤ (visited ++ [v]).toFinset.card := by
    rw [card_append_single]
    split_ifs <;> omega
  have hrelax_v : ∀ t, g.Edge v t →
      M1.getD t ⊤ ≤ M1.getD v ⊤ + ((g.wt v t : ℤ) : WithTop ℤ) ∨
      ∃ p ∈ queue1 ++ items, p.1 = t ∧
        ((p.2 : ℤ) : WithTop ℤ) ≤ M1.getD v ⊤ + ((g.wt v t : ℤ) : WithTop ℤ) := by
    intro t hedge
    rcases h1cases with hMv | hMv
    · by_cases htv : t ∈ visited
      · by_cases hlt2 : ((d + g.wt v t : ℤ) : WithTop ℤ) < M1.getD t ⊤
        · refine Or.inr ⟨(t, d + g.wt v t),
            List.mem_append_right _ (hitem_dec t hedge htv hlt2), rfl, ?_⟩
          rw [hMv, WithTop.coe_add]
        · refine Or.inl ?_
          rw [hMv, ← WithTop.coe_add]
          exact le_of_not_lt hlt2
      · refine Or.inr ⟨(t, d + g.wt v t),
          List.mem_append_right _ (hitem_unvis t hedge htv), rfl, ?_⟩
        rw [hMv, WithTop.coe_add]
    · have hvvis : v ∈ visited := by
        rw [hvis v]
        refine ⟨hvlt, ?_⟩
        rw [← hMv]
        exact h1fin
      rcases htri v hvvis t hedge with hold | ⟨p, hpq, hpt, hpv⟩
      · refine Or.inl ?_
        rw [hMv]
        calc M1.getD t ⊤ ≤ mapL.getD t ⊤ := h1le t
          _ ≤ _ := hold
      · rcases List.mem_cons.mp hpq with rfl | hpq1
        · exfalso
          have htv : t = v := hpt.symm
          rw [htv] at hedge
          exact (edge_ne g hwf hedge) rfl
        · refine Or.inr ⟨p, List.mem_append_left _ hpq1, hpt, ?_⟩
          rw [hMv]
          exact hpv
  refine ⟨items, hitemseq, ?_⟩
  constructor
  case hlen => exact h1len
  case hitems =>
    intro p hp
    rcases List.mem_append.mp hp with hp1 | hp2
    · exact hitems p (List.mem_cons_of_mem _ hp1)
    · obtain ⟨hedge, hpv, hplt, _⟩ := hitem_mem' p hp2
      refine ⟨hplt, ?_, ?_⟩
      · have hw1 := edge_one_le g hwf hedge
        omega
      · obtain ⟨hsn1, hsn2, hsn3⟩ := walk_snoc g lv src p.1 hlv1 (by rw [hlv2]; exact hedge)
        exact ⟨lv ++ [p.1], hsn1, hsn2, by rw [hsn3, hlv3, hlv2, hpv]⟩
  case hvis =>
    intro u
    rw [hvv' u]
    constructor
    · rintro (hu | rfl)
      · obtain ⟨hu1, hu2⟩ := (hvis u).mp hu
        refine ⟨hu1, ?_⟩
        by_cases huv : u = v
        · rw [huv]
          exact h1fin
        · rw [h1u u huv]
          exact hu2
      · exact ⟨hvlt, h1fin⟩
    · rintro ⟨hu1, hu2⟩
      by_cases huv : u = v
      · exact Or.inr huv
      · rw [h1u u huv] at hu2
        exact Or.inl ((hvis u).mpr ⟨hu1, hu2⟩)
  case hmapw =>
    intro u hu
    by_cases huv : u = v
    · subst huv
      rcases h1cases with hMv | hMv
      · exact Or.inr ⟨lv, hlv1, hlv2, by rw [hMv, hlv3]⟩
      · rw [hMv]
        exact hmapw u hu
    · rw [h1u u huv]
      exact hmapw u hu
  case htri =>
    intro u hu t hedge
    rcases (hvv' u).mp hu with huvis | rfl
    · by_cases huv : u = v
      · subst huv
        exact hrelax_v t hedge
      · rw [h1u u huv]
        rcases htri u huvis t hedge with hold | ⟨p, hpq, hpt, hpv⟩
        · exact Or.inl (le_trans (h1le t) hold)
        · rcases List.mem_cons.mp hpq with rfl | hpq1
          · refine Or.inl ?_
            have htv : t = v := hpt.symm
            subst htv
            calc M1.getD t ⊤ ≤ (d : WithTop ℤ) := h1vd
              _ ≤ _ := hpv
          · exact Or.inr ⟨p, List.mem_append_left _ hpq1, hpt, hpv⟩
    · exact hrelax_v t hedge
  case hcov =>
    intro u hu t hedge
    rcases (hvv' u).mp hu with huvis | huveq
    · by_cases huv : u = v
      · rw [huv] at hedge
        by_cases htv : t ∈ visited
        · exact Or.inl ((hvv' t).mpr (Or.inl htv))
        · exact Or.inr ⟨(t, d + g.wt v t),
            List.mem_append_right _ (hitem_unvis t hedge htv), rfl⟩
      · rcases hcov u huvis t hedge with htvis | ⟨p, hpq, hpt⟩
        · exact Or.inl ((hvv' t).mpr (Or.inl htvis))
        · rcases List.mem_cons.mp hpq with rfl | hpq1
          · exact Or.inl ((hvv' t).mpr (Or.inr hpt.symm))
          · exact Or.inr ⟨p, List.mem_append_left _ hpq1, hpt⟩
    · rw [huveq] at hedge
      by_cases htv : t ∈ visited
      · exact Or.inl ((hvv' t).mpr (Or.inl htv))
      · exact Or.inr ⟨(t, d + g.wt v t),
          List.mem_append_right _ (hitem_unvis t hedge htv), rfl⟩
  case hsrc0 =>
    rcases hsrc0 with ⟨hs1, hs2⟩ | ⟨hs1, hs2, hs3⟩
    · refine Or.inl ⟨?_, (hvv' src).mpr (Or.inl hs2)⟩
      by_cases hsv : src = v
      · have hnp : ¬ (d : WithTop ℤ) < mapL.getD v ⊤ := by
          rw [← hsv, hs1, ← WithTop.coe_zero, WithTop.coe_lt_coe]
          omega
        rw [hM1, if_neg hnp]
        exact hs1
      · rw [h1u src hsv]
        exact hs1
    · have hinj := hs3
      rw [List.cons.injEq, Prod.mk.injEq] at hinj
      obtain ⟨⟨hv1, hd1⟩, hq1⟩ := hinj
      refine Or.inl ⟨?_, (hvv' src).mpr (Or.inr hv1.symm)⟩
      have htop : mapL.getD v ⊤ = ⊤ := by
        rw [hs1]
        exact mgetD_replicate _ _
      have hp : (d : WithTop ℤ) < mapL.getD v ⊤ := by
        rw [htop]
        exact WithTop.coe_lt_top d
      rw [hM1, if_pos hp, ← hv1, mgetD_set_self mapL v _ hvlen, hd1]
      norm_cast
  case hbound =>
    intro p hp
    rcases List.mem_append.mp hp with hp1 | hp2
    · obtain ⟨T, hT1, hT2, hT3⟩ := hbound p (List.mem_cons_of_mem _ hp1)
      refine ⟨T, ?_, hT2, ?_⟩
      · intro x hx
        rcases hT1 x hx with hxv | hxp
        · exact Or.inl ((hvv' x).mpr (Or.inl hxv))
        · exact Or.inr hxp
      · refine le_trans hT3 ?_
        have hcm := Nat.mul_le_mul_left (g.wmax * g.v_count) hcardmono
        have harith : g.wmax * g.v_count * visited.toFinset.card + g.wmax * T.card ≤
            g.wmax * g.v_count * (visited ++ [v]).toFinset.card + g.wmax * T.card := by
          omega
        exact_mod_cast harith
    · obtain ⟨Tv, hTv1, hTv2, hTv3⟩ := hbound (v, d) (List.mem_cons_self _ _)
      obtain ⟨hedge, hpv, hplt, hpcase⟩ := hitem_mem' p hp2
      have hwle : g.wt v p.1 ≤ (g.wmax : ℤ) := wt_le_wmax g hwf v p.1
      have hvinvis' : v ∈ visited ++ [v] := (hvv' v).mpr (Or.inr rfl)
      have hcm := Nat.mul_le_mul_left (g.wmax * g.v_count) hcardmono
      have hpt_ne_v : p.1 ≠ v := Ne.symm (edge_ne g hwf hedge)
      rcases hpcase with hpnv | ⟨hpvis, hplt2⟩
      · have hpnotT : p.1 ∉ Tv := by
          intro hh
          rcases hTv1 p.1 hh with h | h
          · exact hpnv h
          · exact hpt_ne_v h
        refine ⟨insert p.1 Tv, ?_, ?_, ?_⟩
        · intro x hx
          rcases Finset.mem_insert.mp hx with rfl | hxT
          · exact Or.inr rfl
          · rcases hTv1 x hxT with h | h
            · exact Or.inl ((hvv' x).mpr (Or.inl h))
            · exact Or.inl (h ▸ hvinvis')
        · intro x hx
          rcases Finset.mem_insert.mp hx with rfl | hxT
          · rw [Finset.mem_range]
            exact hplt
          · exact hTv2 hxT
        · rw [Finset.card_insert_of_not_mem hpnotT, hpv]
          have h3 := hTv3
          push_cast at h3 hcm ⊢
          nlinarith [hwle, h3, hcm]
      · have hfin : mapL.getD p.1 ⊤ ≠ ⊤ := ((hvis p.1).mp hpvis).2
        rcases hmapb p.1 hplt with hmb | hmb
        · exact absurd hmb hfin
        · refine ⟨∅, by simp, by simp, ?_⟩
          rw [h1u p.1 hpt_ne_v] at hplt2
          have hlt3 : ((d + g.wt v p.1 : ℤ) : WithTop ℤ) <
              (((g.wmax * g.v_count * visited.toFinset.card : ℕ) : ℤ) : WithTop ℤ) :=
            lt_of_lt_of_le hplt2 hmb
          rw [WithTop.coe_lt_coe] at hlt3
          rw [hpv]
          simp only [Finset.card_empty]
          push_cast at hlt3 hcm ⊢
          nlinarith [hlt3, hcm]
  case hmapb =>
    intro u hu
    by_cases huv : u = v
    · rw [huv]
      by_cases hvvis : v ∈ visited
      · have hfin : mapL.getD v ⊤ ≠ ⊤ := ((hvis v).mp hvvis).2
        rcases hmapb v hvlt with hmb | hmb
        · exact absurd hmb hfin
        · refine Or.inr (le_trans h1vold (le_trans hmb ?_))
          have hcm := Nat.mul_le_mul_left (g.wmax * g.v_count) hcardmono
          exact_mod_cast hcm
      · obtain ⟨Tv, hTv1, hTv2, hTv3⟩ := hbound (v, d) (List.mem_cons_self _ _)
        have hTcard : Tv.card ≤ g.v_count := by
          simpa using Finset.card_le_card hTv2
        have hcard' : (visited ++ [v]).toFinset.card = visited.toFinset.card + 1 := by
          rw [card_append_single, if_neg hvvis]
        refine Or.inr (le_trans h1vd ?_)
        rw [hcard']
        have hW : (0 : ℤ) ≤ (g.wmax : ℤ) := Int.natCast_nonneg _
        have hTc : (Tv.card : ℤ) ≤ (g.v_count : ℤ) := by exact_mod_cast hTcard
        have hd' : d ≤ ((g.wmax * g.v_count * (visited.toFinset.card + 1) : ℕ) : ℤ) := by
          have h3 := hTv3
          push_cast at h3 ⊢
          nlinarith [hW, hTc, h3]
        exact_mod_cast hd'
    · rw [h1u u huv]
      rcases hmapb u hu with hmb | hmb
      · exact Or.inl hmb
      · refine Or.inr (le_trans hmb ?_)
        have hcm := Nat.mul_le_mul_left (g.wmax * g.v_count) hcardmono
        exact_mod_cast hcm

theorem dijkstra_step_dec (g : DGraph) (hwf : g.WF) (src : ℕ)
    (mapL : List (WithTop ℤ)) (visited : List ℕ) (v : ℕ) (d : ℤ)
    (queue1 : List (ℕ × ℤ)) (row : List ℤ) (items : List (ℕ × ℤ))
    (hrow : g.adj_matrix.get? v = some row)
    (hrlen : row.length = g.v_count)
    (hinv : DijkInv g src mapL visited ((v, d) :: queue1))
    (hitemseq : relaxRow (if (d : WithTop ℤ) < mapL.getD v ⊤
        then mapL.set v (d : WithTop ℤ) else mapL) visited d row 0 = some items)
    (hinv' : DijkInv g src (if (d : WithTop ℤ) < mapL.getD v ⊤
        then mapL.set v (d : WithTop ℤ) else mapL) (visited ++ [v]) (queue1 ++ items)) :
    qpot g.v_count (g.wmax * g.v_count * g.v_count + g.wmax * g.v_count)
        (queue1 ++ items) <
      qpot g.v_count (g.wmax * g.v_count * g.v_count + g.wmax * g.v_count)
        ((v, d) :: queue1) := by
  have hd0 : 0 ≤ d := (hinv.hitems (v, d) (List.mem_cons_self _ _)).2.1
  have hdK : d ≤ ((g.wmax * g.v_count * g.v_count + g.wmax * g.v_count : ℕ) : ℤ) :=
    inv_val_le_K g src mapL visited _ hinv (v, d) (List.mem_cons_self _ _)
  have hvallow : ∀ p ∈ items, d + 1 ≤ p.2 := by
    intro p hp
    obtain ⟨j, w, hj, hw0, hpe, -⟩ :=
      relaxRow_mem _ _ _ _ _ _ hitemseq p hp
    have hwteq : g.wt v j = w := by
      unfold DGraph.wt
      rw [hrow]
      simp only [Option.some_bind]
      rw [hj]
      rfl
    have hedge : g.Edge v j := by
      show g.wt v j ≠ 0
      rw [hwteq]
      exact hw0
    have h1 := edge_one_le g hwf hedge
    rw [hwteq] at h1
    have hp2 : p.2 = d + w := by rw [hpe]
    omega
  have hvalK : ∀ p ∈ items,
      p.2 ≤ ((g.wmax * g.v_count * g.v_count + g.wmax * g.v_count : ℕ) : ℤ) := by
    intro p hp
    exact inv_val_le_K g src _ _ _ hinv' p (List.mem_append_right _ hp)
  have hlen_items : items.length ≤ g.v_count := by
    have := relaxRow_length _ _ _ row 0 items hitemseq
    omega
  rw [qpot_append, qpot_cons]
  by_cases hcase : ∃ p, p ∈ items
  · obtain ⟨p0, hp0⟩ := hcase
    have h1 := hvallow p0 hp0
    have h2 := hvalK p0 hp0
    have hdK' : d.toNat < g.wmax * g.v_count * g.v_count + g.wmax * g.v_count := by omega
    have hexp : ∀ p ∈ items,
        (g.wmax * g.v_count * g.v_count + g.wmax * g.v_count) - p.2.toNat ≤
          (g.wmax * g.v_count * g.v_count + g.wmax * g.v_count) - d.toNat - 1 := by
      intro p hp
      have := hvallow p hp
      omega
    have hqi := qpot_bound g.v_count _ items _ hexp
    have hP : 0 < (g.v_count + 1) ^
        ((g.wmax * g.v_count * g.v_count + g.wmax * g.v_count) - d.toNat - 1) :=
      pow_pos (by omega) _
    have hpow : (g.v_count + 1) ^
        ((g.wmax * g.v_count * g.v_count + g.wmax * g.v_count) - d.toNat) =
        (g.v_count + 1) * (g.v_count + 1) ^
          ((g.wmax * g.v_count * g.v_count + g.wmax * g.v_count) - d.toNat - 1) := by
      rw [← pow_succ']
      congr 1
      omega
    have hnP := Nat.mul_le_mul_right
      ((g.v_count + 1) ^
        ((g.wmax * g.v_count * g.v_count + g.wmax * g.v_count) - d.toNat - 1))
      hlen_items
    have hdist : (g.v_count + 1) * (g.v_count + 1) ^
        ((g.wmax * g.v_count * g.v_count + g.wmax * g.v_count) - d.toNat - 1) =
        g.v_count * (g.v_count + 1) ^
          ((g.wmax * g.v_count * g.v_count + g.wmax * g.v_count) - d.toNat - 1) +
        (g.v_count + 1) ^
          ((g.wmax * g.v_count * g.v_count + g.wmax * g.v_count) - d.toNat - 1) := by
      ring
    omega
  · have hnil : items = [] := by
      cases items with
      | nil => rfl
      | cons a l => exact absurd ⟨a, List.mem_cons_self _ _⟩ hcase
    subst hnil
    have h0 : qpot g.v_count (g.wmax * g.v_count * g.v_count + g.wmax * g.v_count) [] = 0 :=
      rfl
    have hPP : 0 < (g.v_count + 1) ^
        ((g.wmax * g.v_count * g.v_count + g.wmax * g.v_count) - d.toNat) :=
      pow_pos (by omega) _
    omega

theorem dijkstraLoop_correct (g : DGraph) (hwf : g.WF) (src : ℕ) :
    ∀ (fuel : ℕ) (mapL : List (WithTop ℤ)) (visited : List ℕ) (queue : List (ℕ × ℤ)),
      DijkInv g src mapL visited queue →
      qpot g.v_count (g.wmax * g.v_count * g.v_count + g.wmax * g.v_count) queue < fuel →
      ∃ mapF visitedF, g.dijkstraLoop fuel mapL visited queue = some mapF ∧
        DijkInv g src mapF visitedF [] := by
  intro fuel
  induction fuel with
  | zero =>
    intro mapL visited queue _ hq
    omega
  | succ fuel ih =>
    intro mapL visited queue hinv hq
    cases queue with
    | nil => exact ⟨mapL, visited, rfl, hinv⟩
    | cons p queue1 =>
      obtain ⟨v, d⟩ := p
      have hvlt : v < g.v_count := (hinv.hitems (v, d) (List.mem_cons_self _ _)).1
      have hvlen : v < mapL.length := by
        rw [hinv.hlen]
        exact hvlt
      have hmv := mget_some_getD mapL v hvlen
      have hvmat : v < g.adj_matrix.length := by
        rw [hwf.1.1]
        exact hvlt
      obtain ⟨row, hrowe⟩ : ∃ row, g.adj_matrix.get? v = some row :=
        ⟨_, List.get?_eq_get hvmat⟩
      have hrlen : row.length = g.v_count := hwf.1.2 row (List.get?_mem hrowe)
      obtain ⟨items, hitemseq, hinv'⟩ :=
        dijkstra_step_inv g hwf src mapL visited v d queue1 row hrowe hinv
      have hdec := dijkstra_step_dec g hwf src mapL visited v d queue1 row items
        hrowe hrlen hinv hitemseq hinv'
      rw [DGraph.dijkstraLoop, hmv, hrowe]
      dsimp only
      rw [hitemseq]
      exact ih _ _ _ hinv' (by omega)

theorem dijkstra_init_inv (g : DGraph) (src : ℕ) (hsrc : src < g.v_count) :
    DijkInv g src (List.replicate g.v_count ⊤) [] [(src, 0)] := by
  constructor
  case hlen => simp
  case hitems =>
    intro p hp
    rcases List.mem_cons.mp hp with rfl | h
    · exact ⟨hsrc, le_refl 0, [], trivial, rfl, rfl⟩
    · cases h
  case hvis =>
    intro u
    constructor
    · intro h
      cases h
    · rintro ⟨h1, h2⟩
      exact absurd (mgetD_replicate _ _) h2
  case hmapw =>
    intro u hu
    exact Or.inl (mgetD_replicate _ _)
  case htri =>
    intro u hu
    cases hu
  case hcov =>
    intro u hu
    cases hu
  case hsrc0 => exact Or.inr ⟨rfl, rfl, rfl⟩
  case hbound =>
    intro p hp
    rcases List.mem_cons.mp hp with rfl | h
    · exact ⟨∅, by simp, by simp, by simp⟩
    · cases h
  case hmapb =>
    intro u hu
    exact Or.inl (mgetD_replicate _ _)

theorem dijkstra_run (g : DGraph) (hwf : g.WF) (src : ℕ) (hsrc : src < g.v_count) :
    ∃ mapF visitedF, g.dijkstra src = some mapF ∧ DijkInv g src mapF visitedF [] := by
  have hq : qpot g.v_count (g.wmax * g.v_count * g.v_count + g.wmax * g.v_count)
      [(src, 0)] < g.dijkstraBound := by
    rw [qpot_cons]
    unfold DGraph.dijkstraBound
    have h0 : qpot g.v_count (g.wmax * g.v_count * g.v_count + g.wmax * g.v_count) [] = 0 :=
      rfl
    rw [h0]
    simp only [Int.toNat_zero, Nat.sub_zero, add_zero]
    omega
  exact dijkstraLoop_correct g hwf src g.dijkstraBound _ _ _
    (dijkstra_init_inv g src hsrc) hq

theorem dijkstra_final (g : DGraph) (hwf : g.WF) (src : ℕ) (hsrc : src < g.v_count)
    (mapF : List (WithTop ℤ)) (visitedF : List ℕ)
    (hinv : DijkInv g src mapF visitedF []) :
    mapF.length = g.v_count ∧
    mapF.getD src ⊤ = 0 ∧
    (∀ i, i < g.v_count → ¬ g.Reaches src i → mapF.getD i ⊤ = ⊤) ∧
    (∀ i, i < g.v_count → g.Reaches src i →
      (∃ l, g.IsWalk src l ∧ l.getLastD src = i ∧
        mapF.getD i ⊤ = ((walkW g src l : ℤ) : WithTop ℤ)) ∧
      (∀ l, g.IsWalk src l → l.getLastD src = i →
        mapF.getD i ⊤ ≤ ((walkW g src l : ℤ) : WithTop ℤ))) := by
  obtain ⟨hlen, hitems, hvis, hmapw, htri, hcov, hsrc0, hbound, hmapb⟩ := hinv
  have hsrcv : mapF.getD src ⊤ = 0 ∧ src ∈ visitedF := by
    rcases hsrc0 with h | ⟨h1, h2, h3⟩
    · exact h
    · exact absurd h3 (by simp)
  have hclosed : ∀ u ∈ visitedF, ∀ t, g.Edge u t → t ∈ visitedF := by
    intro u hu t he
    rcases hcov u hu t he with h | ⟨p, hp, -⟩
    · exact h
    · cases hp
  have htri' : ∀ u ∈ visitedF, ∀ t, g.Edge u t →
      mapF.getD t ⊤ ≤ mapF.getD u ⊤ + ((g.wt u t : ℤ) : WithTop ℤ) := by
    intro u hu t he
    rcases htri u hu t he with h | ⟨p, hp, -⟩
    · exact h
    · cases hp
  have hwalk_vis : ∀ (l : List ℕ) (a : ℕ), a ∈ visitedF → g.IsWalk a l →
      l.getLastD a ∈ visitedF := by
    intro l
    induction l with
    | nil =>
      intro a ha _
      exact ha
    | cons b rest ihl =>
      intro a ha hw
      rw [List.getLastD_cons]
      exact ihl b (hclosed a ha b hw.1) hw.2
  have hwalk_tri : ∀ (l : List ℕ) (a : ℕ), a ∈ visitedF → g.IsWalk a l →
      mapF.getD (l.getLastD a) ⊤ ≤ mapF.getD a ⊤ + ((walkW g a l : ℤ) : WithTop ℤ) := by
    intro l
    induction l with
    | nil =>
      intro a ha _
      simp [walkW]
    | cons b rest ihl =>
      intro a ha hw
      rw [List.getLastD_cons]
      have h1 := ihl b (hclosed a ha b hw.1) hw.2
      have h2 := htri' a ha b hw.1
      calc mapF.getD (rest.getLastD b) ⊤
          ≤ mapF.getD b ⊤ + ((walkW g b rest : ℤ) : WithTop ℤ) := h1
        _ ≤ (mapF.getD a ⊤ + ((g.wt a b : ℤ) : WithTop ℤ)) +
            ((walkW g b rest : ℤ) : WithTop ℤ) := add_le_add_right h2 _
        _ = mapF.getD a ⊤ + ((walkW g a (b :: rest) : ℤ) : WithTop ℤ) := by
            rw [show walkW g a (b :: rest) = g.wt a b + walkW g b rest from rfl,
              WithTop.coe_add, add_assoc]
  refine ⟨hlen, hsrcv.1, ?_, ?_⟩
  · intro i hi hnr
    by_contra hne
    rcases hmapw i hi with h | ⟨l, h1, h2, h3⟩
    · exact hne h
    · exact hnr ⟨l, h1, h2⟩
  · intro i hi hr
    obtain ⟨l0, hl01, hl02⟩ := hr
    have hivis : i ∈ visitedF := by
      rw [← hl02]
      exact hwalk_vis l0 src hsrcv.2 hl01
    have hfin : mapF.getD i ⊤ ≠ ⊤ := ((hvis i).mp hivis).2
    constructor
    · rcases hmapw i hi with h | h
      · exact absurd h hfin
      · exact h
    · intro l hw hend
      have hh := hwalk_tri l src hsrcv.2 hw
      rw [hend, hsrcv.1] at hh
      simpa using hh

/-- Claim C1: for every well-formed `DirectedGraph` and every valid source
`src`, `dijkstra src` returns a list of length `v_count` whose entry at `src`
is `0`, whose entry at `i` is infinity (`⊤`) exactly when `i` is unreachable
from `src`, and whose entry at each reachable `i` is the minimum total edge
weight over all directed walks from `src` to `i` (attained by some walk and a
lower bound for every walk; with positive weights this minimum coincides with
the minimum over simple paths); in particular, on the graph with edges
`(0,1,10),(1,2,5),(0,2,20)`, `dijkstra 0` returns `[0, 10, 15]`. -/
theorem dijkstra_correct :
    (∀ (g : DGraph), g.WF → ∀ src, src < g.v_count →
      ∃ dist, g.dijkstra src = some dist ∧
        dist.length = g.v_count ∧
        dist.getD src ⊤ = 0 ∧
        (∀ i, i < g.v_count → ¬ g.Reaches src i → dist.getD i ⊤ = ⊤) ∧
        (∀ i, i < g.v_count → g.Reaches src i →
          (∃ l, g.IsWalk src l ∧ l.getLastD src = i ∧
            dist.getD i ⊤ = ((walkW g src l : ℤ) : WithTop ℤ)) ∧
          (∀ l, g.IsWalk src l → l.getLastD src = i →
            dist.getD i ⊤ ≤ ((walkW g src l : ℤ) : WithTop ℤ)))) ∧
    DGraph.mk_start [(0, 1, 10), (1, 2, 5), (0, 2, 20)] = some gd3 ∧
    gd3.dijkstra 0 = some [((0 : ℤ) : WithTop ℤ), ((10 : ℤ) : WithTop ℤ),
      ((15 : ℤ) : WithTop ℤ)] := by
  refine ⟨?_, by decide, by decide⟩
  intro g hwf src hsrc
  obtain ⟨mapF, visF, heq, hfin⟩ := dijkstra_run g hwf src hsrc
  obtain ⟨h1, h2, h3, h4⟩ := dijkstra_final g hwf src hsrc mapF visF hfin
  exact ⟨mapF, heq, h1, h2, h3, h4⟩

/-- Claim C10: on every well-formed `DirectedGraph` (square matrix, all
nonzero weights positive) and every valid source, `dijkstra` terminates with
a result: the fuelled relaxation loop drains its FIFO queue within the fuel
`dijkstraBound`, so the model returns `some` rather than running out of
fuel. -/
theorem dijkstra_terminates (g : DGraph) (hwf : g.WF) (src : ℕ)
    (hsrc : src < g.v_count) : (g.dijkstra src).isSome := by
  obtain ⟨mapF, visF, heq, -⟩ := dijkstra_run g hwf src hsrc
  rw [heq]
  rfl

/-- Witness for C10 at the concrete three-vertex example graph. -/
theorem dijkstra_terminates_w :
    gd3.WF ∧ 0 < gd3.v_count ∧ (gd3.dijkstra 0).isSome :=
  ⟨by decide, by decide, dijkstra_terminates gd3 (by decide) 0 (by decide)⟩

/-! ### Directed cycle detection: walks and the search predicate -/

theorem edge_lt_sq (g : DGraph) (hsq : g.Square) {u t : ℕ} (h : g.Edge u t) :
    u < g.v_count ∧ t < g.v_count := by
  obtain ⟨row, w, hr, hw, hw0, hwt⟩ := edge_elim g h
  have hu : u < g.adj_matrix.length := by
    by_contra hh
    rw [List.get?_eq_none.mpr (le_of_not_lt hh)] at hr
    cases hr
  have ht : t < row.length := by
    by_contra hh
    rw [List.get?_eq_none.mpr (le_of_not_lt hh)] at hw
    cases hw
  constructor
  · rw [← hsq.1]
    exact hu
  · rw [← hsq.2 row (List.get?_mem hr)]
    exact ht

theorem wt_eq_row (g : DGraph) {v : ℕ} {row : List ℤ}
    (hrow : g.adj_matrix.get? v = some row) {j : ℕ} {x : ℤ}
    (hj : row.get? j = some x) : g.wt v j = x := by
  unfold DGraph.wt
  rw [hrow]
  simp only [Option.some_bind]
  rw [hj]
  rfl

theorem walk_snoc_elim (g : DGraph) :
    ∀ (l : List ℕ) (a t : ℕ), g.IsWalk a (l ++ [t]) →
      g.IsWalk a l ∧ g.Edge (l.getLastD a) t := by
  intro l
  induction l with
  | nil =>
    intro a t h
    exact ⟨trivial, h.1⟩
  | cons b rest ih =>
    intro a t h
    obtain ⟨h1, h2⟩ := ih b t h.2
    exact ⟨⟨h.1, h1⟩, by rw [List.getLastD_cons]; exact h2⟩

theorem walk_suffix (g : DGraph) :
    ∀ (l : List ℕ) (a c : ℕ), g.IsWalk a l → c ∈ a :: l →
      ∃ suf, g.IsWalk c suf ∧ suf.getLastD c = l.getLastD a := by
  intro l
  induction l with
  | nil =>
    intro a c _ hc
    rcases List.mem_singleton.mp hc with rfl
    exact ⟨[], trivial, rfl⟩
  | cons b rest ih =>
    intro a c hw hc
    rcases List.mem_cons.mp hc with rfl | hc2
    · exact ⟨b :: rest, hw, by rw [List.getLastD_cons]⟩
    · obtain ⟨suf, h1, h2⟩ := ih b c hw.2 hc2
      exact ⟨suf, h1, by rw [List.getLastD_cons]; exact h2⟩

theorem cycfrom_of_walk (g : DGraph) :
    ∀ (l : List ℕ) (v c : ℕ) (stack : List ℕ),
      g.IsWalk v l → g.Edge (l.getLastD v) c → c ∈ stack ++ v :: l →
      CycFrom g v stack := by
  intro l
  induction l with
  | nil =>
    intro v c stack _ he hc
    refine CycFrom.base v stack c he ?_
    simpa using hc
  | cons b rest ih =>
    intro v c stack hw he hc
    by_cases hb : b ∈ stack ++ [v]
    · exact CycFrom.base v stack b hw.1 hb
    · refine CycFrom.step v stack b hw.1 hb ?_
      refine ih b c (stack ++ [v]) hw.2 ?_ ?_
      · rw [List.getLastD_cons] at he
        exact he
      · simp only [List.append_assoc, List.cons_append, List.nil_append] at hc ⊢
        exact hc

theorem cycfrom_closed_walk (g : DGraph) :
    ∀ (v : ℕ) (stack : List ℕ), CycFrom g v stack →
      (stack = [] ∨ ∃ s0 stl, stack = s0 :: stl ∧ g.IsWalk s0 stl ∧
        g.Edge (stl.getLastD s0) v) →
      g.HasDCycle := by
  intro v stack hcyc
  induction hcyc with
  | base v stack c hedge hc =>
    intro hch
    rcases List.mem_append.mp hc with hcs | hcv
    · rcases hch with rfl | ⟨s0, stl, rfl, hwalk, hlast⟩
      · cases hcs
      · obtain ⟨suf, hsw, hslast⟩ := walk_suffix g stl s0 c hwalk hcs
        have h1 := walk_snoc g suf c v hsw (by rw [hslast]; exact hlast)
        have h2 := walk_snoc g (suf ++ [v]) c c h1.1 (by rw [h1.2.1]; exact hedge)
        exact ⟨c, (suf ++ [v]) ++ [c], h2.1, by simp, h2.2.1⟩
    · rcases List.mem_singleton.mp hcv with rfl
      exact ⟨c, [c], ⟨hedge, trivial⟩, by simp, rfl⟩
  | step v stack c hedge hc hrec ih =>
    intro hch
    refine ih ?_
    right
    rcases hch with rfl | ⟨s0, stl, rfl, hwalk, hlast⟩
    · exact ⟨v, [], rfl, trivial, hedge⟩
    · have hs := walk_snoc g stl s0 v hwalk hlast
      exact ⟨s0, stl ++ [v], rfl, hs.1, by rw [List.getLastD_concat]; exact hedge⟩

theorem hasdcycle_iff_cycfrom (g : DGraph) (hsq : g.Square) :
    g.HasDCycle ↔ ∃ c, c < g.v_count ∧ CycFrom g c [] := by
  constructor
  · rintro ⟨a, l, hw, hne, hlast⟩
    have ha : a < g.v_count := by
      cases l with
      | nil => exact absurd rfl hne
      | cons b rest => exact (edge_lt_sq g hsq hw.1).1
    refine ⟨a, ha, ?_⟩
    obtain ⟨l', t, rfl⟩ : ∃ l' t, l = l' ++ [t] := by
      cases hh : l.reverse with
      | nil =>
        rw [List.reverse_eq_nil_iff] at hh
        exact absurd hh hne
      | cons t l'' =>
        refine ⟨l''.reverse, t, ?_⟩
        rw [← List.reverse_reverse l, hh, List.reverse_cons]
    have ht : t = a := by
      rw [List.getLastD_concat] at hlast
      exact hlast
    obtain ⟨hw1, hw2⟩ := walk_snoc_elim g l' a t hw
    exact cycfrom_of_walk g l' a t [] hw1 hw2 (by simp [ht])
  · rintro ⟨c, hcn, hcyc⟩
    exact cycfrom_closed_walk g c [] hcyc (Or.inl rfl)

theorem visited_card_lt (g : DGraph) {v : ℕ} {visited : List ℕ}
    (hv : v < g.v_count) (hnv : v ∉ visited) :
    (visited.toFinset ∩ Finset.range g.v_count).card + 1 ≤ g.v_count := by
  have hsub : visited.toFinset ∩ Finset.range g.v_count ⊆
      (Finset.range g.v_count).erase v := by
    intro x hx
    rcases Finset.mem_inter.mp hx with ⟨hx1, hx2⟩
    refine Finset.mem_erase.mpr ⟨?_, hx2⟩
    intro hxv
    subst hxv
    exact hnv (List.mem_toFinset.mp hx1)
  have h1 := Finset.card_le_card hsub
  rw [Finset.card_erase_of_mem (Finset.mem_range.mpr hv), Finset.card_range] at h1
  omega

theorem visited_card_append (g : DGraph) {v : ℕ} {visited : List ℕ}
    (hv : v < g.v_count) (hnv : v ∉ visited) :
    ((visited ++ [v]).toFinset ∩ Finset.range g.v_count).card =
      (visited.toFinset ∩ Finset.range g.v_count).card + 1 := by
  have hveq : (visited ++ [v]).toFinset ∩ Finset.range g.v_count =
      insert v (visited.toFinset ∩ Finset.range g.v_count) := by
    ext x
    simp only [List.toFinset_append, Finset.mem_inter, Finset.mem_union,
      List.mem_toFinset, List.mem_singleton, Finset.mem_insert, Finset.mem_range,
      List.toFinset_cons, List.toFinset_nil, insert_emptyc_eq,
      Finset.mem_singleton]
    constructor
    · rintro ⟨h1 | rfl, h2⟩
      · exact Or.inr ⟨h1, h2⟩
      · exact Or.inl rfl
    · rintro (rfl | ⟨h1, h2⟩)
      · exact ⟨Or.inr rfl, hv⟩
      · exact ⟨Or.inl h1, h2⟩
  rw [hveq, Finset.card_insert_of_not_mem]
  intro hmm
  exact hnv (List.mem_toFinset.mp (Finset.mem_inter.mp hmm).1)

theorem cycleHelperTB (g : DGraph) (hsq : g.Square) :
    ∀ (fuel : ℕ) (v : ℕ) (visited : List ℕ),
      v < g.v_count → v ∉ visited →
      g.v_count + 1 ≤ fuel + (visited.toFinset ∩ Finset.range g.v_count).card →
      (∃ w, g.cycleHelper fuel v visited = some (true, w)) ∨
        g.cycleHelper fuel v visited = some (false, visited) := by
  intro fuel
  induction fuel with
  | zero =>
    intro v visited hv hnv harith
    exfalso
    have := visited_card_lt g hv hnv
    omega
  | succ fuel ih =>
    intro v visited hv hnv harith
    have hvlen : v < g.adj_matrix.length := by
      rw [hsq.1]
      exact hv
    obtain ⟨row, hrow⟩ : ∃ row, g.adj_matrix.get? v = some row :=
      ⟨_, List.get?_eq_get hvlen⟩
    have hcard := visited_card_append g hv hnv
    have hrlen : row.length = g.v_count := hsq.2 row (List.get?_mem hrow)
    have hscan : ∀ (rest : List ℤ) (count : ℕ),
        count + rest.length = g.v_count →
        (∃ w, cycleScanF (g.cycleHelper fuel) rest (visited ++ [v]) count =
          some (true, w)) ∨
        cycleScanF (g.cycleHelper fuel) rest (visited ++ [v]) count =
          some (false, visited ++ [v]) := by
      intro rest
      induction rest with
      | nil =>
        intro count _
        exact Or.inr rfl
      | cons i rest ihr =>
        intro count hlen
        have hcount : count < g.v_count := by
          simp only [List.length_cons] at hlen
          omega
        have hlen1 : count + 1 + rest.length = g.v_count := by
          simp only [List.length_cons] at hlen
          omega
        rw [cycleScanF]
        by_cases hmem : count ∈ visited ++ [v]
        · rw [if_neg (by intro hcc; exact hcc.1 hmem)]
          by_cases hi : i ≠ 0
          · rw [if_pos ⟨hmem, hi⟩]
            exact Or.inl ⟨_, rfl⟩
          · rw [if_neg (by intro hcc; exact hi hcc.2)]
            exact ihr (count + 1) hlen1
        · by_cases hi : i ≠ 0
          · rw [if_pos ⟨hmem, hi⟩]
            rcases ih count (visited ++ [v]) hcount hmem (by omega) with
              ⟨w, hw⟩ | hfb
            · rw [hw]
              exact Or.inl ⟨w, rfl⟩
            · rw [hfb]
              exact ihr (count + 1) hlen1
          · rw [if_neg (by intro hcc; exact hi hcc.2), if_neg (by
              intro hcc; exact hmem hcc.1)]
            exact ihr (count + 1) hlen1
    rw [DGraph.cycleHelper, hrow]
    dsimp only
    rcases hscan row 0 (by omega) with ⟨w, hw⟩ | hfb
    · rw [hw]
      exact Or.inl ⟨w, rfl⟩
    · rw [hfb]
      right
      show some (false, (visited ++ [v]).dropLast) = some (false, visited)
      rw [List.dropLast_concat]

theorem cycleHelper_sound (g : DGraph) (hsq : g.Square) :
    ∀ (fuel : ℕ) (v : ℕ) (stack : List ℕ) (w : List ℕ),
      v < g.v_count → v ∉ stack →
      g.v_count + 1 ≤ fuel + (stack.toFinset ∩ Finset.range g.v_count).card →
      g.cycleHelper fuel v stack = some (true, w) → CycFrom g v stack := by
  intro fuel
  induction fuel with
  | zero =>
    intro v stack w hv hnv harith h
    rw [DGraph.cycleHelper] at h
    exact Option.noConfusion h
  | succ fuel ih =>
    intro v stack w hv hns harith hrun
    have hvlen : v < g.adj_matrix.length := by
      rw [hsq.1]
      exact hv
    obtain ⟨row, hrow⟩ : ∃ row, g.adj_matrix.get? v = some row :=
      ⟨_, List.get?_eq_get hvlen⟩
    rw [DGraph.cycleHelper, hrow] at hrun
    dsimp only at hrun
    have hcard := visited_card_append g hv hns
    have hscan : ∀ (rest : List ℤ) (count : ℕ) (w : List ℕ),
        (∀ j x, rest.get? j = some x → g.wt v (count + j) = x) →
        cycleScanF (g.cycleHelper fuel) rest (stack ++ [v]) count =
          some (true, w) →
        CycFrom g v stack := by
      intro rest
      induction rest with
      | nil =>
        intro count w _ hr
        rw [cycleScanF] at hr
        simp at hr
      | cons i rest ihr =>
        intro count w hidx hr
        have hidx0 : g.wt v count = i := by
          have := hidx 0 i rfl
          simpa using this
        have hidx1 : ∀ j x, rest.get? j = some x → g.wt v (count + 1 + j) = x := by
          intro j x hj
          have harg : count + 1 + j = count + (j + 1) := by omega
          rw [harg]
          exact hidx (j + 1) x (by simpa using hj)
        rw [cycleScanF] at hr
        by_cases hmem : count ∈ stack ++ [v]
        · rw [if_neg (by intro hcc; exact hcc.1 hmem)] at hr
          by_cases hi : i ≠ 0
          · exact CycFrom.base v stack count
              (by show g.wt v count ≠ 0; rw [hidx0]; exact hi) hmem
          · rw [if_neg (by intro hcc; exact hi hcc.2)] at hr
            exact ihr (count + 1) w hidx1 hr
        · by_cases hi : i ≠ 0
          · rw [if_pos ⟨hmem, hi⟩] at hr
            have hedge : g.Edge v count := by
              show g.wt v count ≠ 0
              rw [hidx0]
              exact hi
            have hcount : count < g.v_count := (edge_lt_sq g hsq hedge).2
            rcases cycleHelperTB g hsq fuel count (stack ++ [v]) hcount hmem
                (by omega) with ⟨w1, hw1⟩ | hfb
            · exact CycFrom.step v stack count hedge hmem
                (ih count (stack ++ [v]) w1 hcount hmem (by omega) hw1)
            · rw [hfb] at hr
              exact ihr (count + 1) w hidx1 hr
          · rw [if_neg (by intro hcc; exact hi hcc.2),
              if_neg (by intro hcc; exact hmem hcc.1)] at hr
            exact ihr (count + 1) w hidx1 hr
    cases hres : cycleScanF (g.cycleHelper fuel) row (stack ++ [v]) 0 with
    | none =>
      rw [hres] at hrun
      exact Option.noConfusion hrun
    | some bw =>
      obtain ⟨b, w1⟩ := bw
      cases b with
      | true =>
        exact hscan row 0 w1 (fun j x hj => by simpa using wt_eq_row g hrow hj) hres
      | false =>
        rw [hres] at hrun
        simp at hrun

theorem cycleScan_reaches (g : DGraph) (hsq : g.Square) (fuel : ℕ) (v : ℕ)
    (stack : List ℕ) (hv : v < g.v_count) (hns : v ∉ stack)
    (harith : g.v_count + 1 ≤ (fuel + 1) +
      (stack.toFinset ∩ Finset.range g.v_count).card)
    (c : ℕ) (hedge : g.Edge v c)
    (htarget : c ∈ stack ++ [v] ∨ (c ∉ stack ++ [v] ∧
      ∃ w0, g.cycleHelper fuel c (stack ++ [v]) = some (true, w0))) :
    ∃ w, g.cycleHelper (fuel + 1) v stack = some (true, w) := by
  have hvlen : v < g.adj_matrix.length := by
    rw [hsq.1]
    exact hv
  obtain ⟨row, hrow⟩ : ∃ row, g.adj_matrix.get? v = some row :=
    ⟨_, List.get?_eq_get hvlen⟩
  have hrlen : row.length = g.v_count := hsq.2 row (List.get?_mem hrow)
  have hcard := visited_card_append g hv hns
  have hc : c < g.v_count := (edge_lt_sq g hsq hedge).2
  have hscan : ∀ (rest : List ℤ) (count : ℕ),
      (∀ j x, rest.get? j = some x → g.wt v (count + j) = x) →
      count ≤ c → c < count + rest.length →
      ∃ w, cycleScanF (g.cycleHelper fuel) rest (stack ++ [v]) count =
        some (true, w) := by
    intro rest
    induction rest with
    | nil =>
      intro count _ h1 h2
      simp only [List.length_nil] at h2
      omega
    | cons i rest ihr =>
      intro count hidx h1 h2
      have hidx0 : g.wt v count = i := by
        have := hidx 0 i rfl
        simpa using this
      have hidx1 : ∀ j x, rest.get? j = some x → g.wt v (count + 1 + j) = x := by
        intro j x hj
        have harg : count + 1 + j = count + (j + 1) := by omega
        rw [harg]
        exact hidx (j + 1) x (by simpa using hj)
      have h2' : c < count + 1 + rest.length := by
        simp only [List.length_cons] at h2
        omega
      rw [cycleScanF]
      by_cases heq : count = c
      · subst heq
        have hi : i ≠ 0 := by
          rw [← hidx0]
          exact hedge
        rcases htarget with hmem | ⟨hcnot, w0, hw0⟩
        · rw [if_neg (fun hcc => hcc.1 hmem), if_pos ⟨hmem, hi⟩]
          exact ⟨_, rfl⟩
        · rw [if_pos ⟨hcnot, hi⟩, hw0]
          exact ⟨w0, rfl⟩
      · have hlt : count < c := lt_of_le_of_ne h1 heq
        by_cases hmem : count ∈ stack ++ [v]
        · rw [if_neg (fun hcc => hcc.1 hmem)]
          by_cases hi : i ≠ 0
          · rw [if_pos ⟨hmem, hi⟩]
            exact ⟨_, rfl⟩
          · rw [if_neg (fun hcc => hi hcc.2)]
            exact ihr (count + 1) hidx1 (by omega) h2'
        · by_cases hi : i ≠ 0
          · rw [if_pos ⟨hmem, hi⟩]
            have hedge2 : g.Edge v count := by
              show g.wt v count ≠ 0
              rw [hidx0]
              exact hi
            have hcount : count < g.v_count := (edge_lt_sq g hsq hedge2).2
            rcases cycleHelperTB g hsq fuel count (stack ++ [v]) hcount hmem
                (by omega) with ⟨w1, hw1⟩ | hfb
            · rw [hw1]
              exact ⟨w1, rfl⟩
            · rw [hfb]
              exact ihr (count + 1) hidx1 (by omega) h2'
          · rw [if_neg (fun hcc => hi hcc.2), if_neg (fun hcc => hmem hcc.1)]
            exact ihr (count + 1) hidx1 (by omega) h2'
  rw [DGraph.cycleHelper, hrow]
  dsimp only
  obtain ⟨w, hw⟩ := hscan row 0
    (fun j x hj => by simpa using wt_eq_row g hrow hj) (by omega)
    (by rw [hrlen]; omega)
  rw [hw]
  exact ⟨w, rfl⟩

theorem cycfrom_helper (g : DGraph) (hsq : g.Square) :
    ∀ (v : ℕ) (stack : List ℕ), CycFrom g v stack →
      ∀ fuel, v ∉ stack →
        g.v_count + 1 ≤ fuel + (stack.toFinset ∩ Finset.range g.v_count).card →
        ∃ w, g.cycleHelper fuel v stack = some (true, w) := by
  intro v stack hcyc
  induction hcyc with
  | base v stack c hedge hcmem =>
    intro fuel hns harith
    have hv : v < g.v_count := (edge_lt_sq g hsq hedge).1
    cases fuel with
    | zero =>
      exfalso
      have := visited_card_lt g hv hns
      omega
    | succ f =>
      exact cycleScan_reaches g hsq f v stack hv hns harith c hedge (Or.inl hcmem)
  | step v stack c hedge hcmem hrec ih =>
    intro fuel hns harith
    have hv : v < g.v_count := (edge_lt_sq g hsq hedge).1
    cases fuel with
    | zero =>
      exfalso
      have := visited_card_lt g hv hns
      omega
    | succ f =>
      have hcard := visited_card_append g hv hns
      obtain ⟨w0, hw0⟩ := ih f hcmem (by omega)
      exact cycleScan_reaches g hsq f v stack hv hns harith c hedge
        (Or.inr ⟨hcmem, w0, hw0⟩)

theorem hasCycleLoop_correct (g : DGraph) (hsq : g.Square) :
    ∀ (rows : List (List ℤ)) (count : ℕ),
      count + rows.length = g.v_count →
      ∃ b, g.hasCycleLoop rows count [] = some b ∧
        (b = true ↔ ∃ c, count ≤ c ∧ c < g.v_count ∧ CycFrom g c []) := by
  intro rows
  induction rows with
  | nil =>
    intro count hlen
    refine ⟨false, rfl, ?_⟩
    simp only [List.length_nil] at hlen
    constructor
    · intro h
      exact absurd h (by simp)
    · rintro ⟨c, h1, h2, -⟩
      omega
  | cons r rows ihr =>
    intro count hlen
    have hcount : count < g.v_count := by
      simp only [List.length_cons] at hlen
      omega
    have hlen1 : (count + 1) + rows.length = g.v_count := by
      simp only [List.length_cons] at hlen
      omega
    rw [DGraph.hasCycleLoop, if_neg (List.not_mem_nil count)]
    rcases cycleHelperTB g hsq (g.v_count + 1) count [] hcount
        (List.not_mem_nil count) (by
          simp only [List.toFinset_nil, Finset.empty_inter, Finset.card_empty]
          omega) with ⟨w, hw⟩ | hfb
    · rw [hw]
      refine ⟨true, rfl, ?_⟩
      constructor
      · intro _
        exact ⟨count, le_refl _, hcount, cycleHelper_sound g hsq _ count [] w
          hcount (List.not_mem_nil count) (by
            simp only [List.toFinset_nil, Finset.empty_inter, Finset.card_empty]
            omega) hw⟩
      · intro _
        rfl
    · rw [hfb]
      obtain ⟨b, hb, hiff⟩ := ihr (count + 1) hlen1
      refine ⟨b, hb, ?_⟩
      rw [hiff]
      constructor
      · rintro ⟨c, h1, h2, h3⟩
        exact ⟨c, by omega, h2, h3⟩
      · rintro ⟨c, h1, h2, h3⟩
        rcases Nat.lt_or_ge count c with hgt | hge
        · exact ⟨c, by omega, h2, h3⟩
        · have hceq : c = count := by omega
          subst hceq
          exfalso
          obtain ⟨w0, hw0⟩ := cycfrom_helper g hsq c [] h3 (g.v_count + 1)
            (List.not_mem_nil c) (by
              simp only [List.toFinset_nil, Finset.empty_inter, Finset.card_empty]
              omega)
          rw [hw0] at hfb
          simp at hfb

theorem dcycle_spec (g : DGraph) (hsq : g.Square) :
    ∃ b, g.has_cycle = some b ∧ (b = true ↔ g.HasDCycle) := by
  obtain ⟨b, hb, hiff⟩ := hasCycleLoop_correct g hsq g.adj_matrix 0
    (by rw [Nat.zero_add]; exact hsq.1)
  refine ⟨b, hb, ?_⟩
  rw [hiff, hasdcycle_iff_cycfrom g hsq]
  constructor
  · rintro ⟨c, -, h2, h3⟩
    exact ⟨c, h2, h3⟩
  · rintro ⟨c, h2, h3⟩
    exact ⟨c, Nat.zero_le c, h2, h3⟩

/-! ### Undirected cycle detection: adjacency, chains, cycles -/

theorem uadj_key_left (g : UGraph) {a b : String} (h : g.Adj a b) : a ∈ g.keys := by
  obtain ⟨l, hl, -⟩ := h
  exact (uget_isSome_iff g a).mp (by rw [hl]; rfl)

theorem uadj_key_right (g : UGraph) (hwf : g.WF) {a b : String} (h : g.Adj a b) :
    b ∈ g.keys := by
  obtain ⟨l, hl, hb⟩ := h
  exact (uget_isSome_iff g b).mp ((hwf.2.1 a l hl).2.2 b hb)

theorem uadj_ne (g : UGraph) (hwf : g.WF) {a b : String} (h : g.Adj a b) : a ≠ b := by
  obtain ⟨l, hl, hb⟩ := h
  intro he
  subst he
  exact (hwf.2.1 a l hl).2.1 hb

theorem uadj_symm (g : UGraph) (hwf : g.WF) {a b : String} (h : g.Adj a b) :
    g.Adj b a :=
  hwf.2.2 a b h

theorem uadj_of_mem (g : UGraph) {v : String} {nbrs : List String}
    (hn : g.get v = some nbrs) {y : String} (hy : y ∈ nbrs) : g.Adj v y :=
  ⟨nbrs, hn, hy⟩

theorem ulen_bound (g : UGraph) {v : String} {visited : List String}
    (hv : v ∈ g.keys) (hnv : v ∉ visited) (hsub : ∀ x ∈ visited, x ∈ g.keys)
    (hnd : visited.Nodup) : visited.length + 1 ≤ g.keys.length := by
  have hnd2 : (visited ++ [v]).Nodup := by
    rw [List.nodup_append]
    refine ⟨hnd, List.nodup_singleton v, ?_⟩
    intro x hx hx2
    rw [List.mem_singleton] at hx2
    subst hx2
    exact hnv hx
  have h1 : (visited ++ [v]).toFinset.card = visited.length + 1 := by
    rw [List.toFinset_card_of_nodup hnd2, List.length_append, List.length_singleton]
  have h2 : (visited ++ [v]).toFinset ⊆ g.keys.toFinset := by
    intro x hx
    rw [List.mem_toFinset] at hx ⊢
    rcases List.mem_append.mp hx with hx | hx
    · exact hsub x hx
    · rw [List.mem_singleton] at hx
      subst hx
      exact hv
  have h3 := Finset.card_le_card h2
  have h4 := List.toFinset_card_le g.keys
  omega

theorem uchain_cons_elim (g : UGraph) {a : String} {rest : List String}
    (h : g.ChainU (a :: rest)) :
    g.ChainU rest ∧ ∀ b, rest.head? = some b → g.Adj a b := by
  cases rest with
  | nil =>
    refine ⟨trivial, ?_⟩
    intro b hb
    cases hb
  | cons b r2 =>
    refine ⟨h.2, ?_⟩
    intro b2 hb2
    cases hb2
    exact h.1

theorem uchain_snoc (g : UGraph) :
    ∀ (L : List String) (z i : String), g.ChainU L → L.getLast? = some z →
      g.Adj z i → g.ChainU (L ++ [i]) := by
  intro L
  induction L with
  | nil =>
    intro z i _ hz
    cases hz
  | cons a rest ih =>
    intro z i hch hz hadj
    cases rest with
    | nil =>
      simp only [List.getLast?_singleton, Option.some_inj] at hz
      subst hz
      exact ⟨hadj, trivial⟩
    | cons b r2 =>
      have hz2 : (b :: r2).getLast? = some z := by
        rw [List.getLast?_cons_cons] at hz
        exact hz
      exact ⟨hch.1, ih z i hch.2 hz2 hadj⟩

theorem uchain_suffix (g : UGraph) :
    ∀ (A B : List String), g.ChainU (A ++ B) → g.ChainU B := by
  intro A
  induction A with
  | nil =>
    intro B h
    exact h
  | cons a A ih =>
    intro B h
    exact ih B (uchain_cons_elim g h).1

theorem ucyclelist_rot1 (g : UGraph) (c : String) (rest : List String)
    (h : g.CycleList (c :: rest)) : g.CycleList (rest ++ [c]) := by
  obtain ⟨hlen, hnd, hch, hwrap⟩ := h
  have hrest_ne : rest ≠ [] := by
    intro he
    subst he
    simp at hlen
  have hnd2 := List.nodup_cons.mp hnd
  refine ⟨?_, ?_, ?_, ?_⟩
  · simp only [List.length_cons] at hlen
    simp only [List.length_append, List.length_singleton]
    omega
  · rw [List.nodup_append]
    refine ⟨hnd2.2, List.nodup_singleton c, ?_⟩
    intro x hx hx2
    rw [List.mem_singleton] at hx2
    subst hx2
    exact hnd2.1 hx
  · have hlast : (c :: rest).getLast? = rest.getLast? := by
      cases rest with
      | nil => exact absurd rfl hrest_ne
      | cons b r2 => exact List.getLast?_cons_cons
    obtain ⟨z, hz⟩ : ∃ z, rest.getLast? = some z :=
      ⟨rest.getLast hrest_ne, List.getLast?_eq_getLast rest hrest_ne⟩
    have hadj : g.Adj z c := hwrap c z rfl (by rw [hlast]; exact hz)
    exact uchain_snoc g rest z c (uchain_cons_elim g hch).1 hz hadj
  · intro a b ha hb
    rw [List.getLast?_concat] at hb
    cases hb
    have ha2 : rest.head? = some a := by
      cases rest with
      | nil => exact absurd rfl hrest_ne
      | cons b2 r2 => exact ha
    exact (uchain_cons_elim g hch).2 a ha2

theorem ucyclelist_to_head (g : UGraph) :
    ∀ (pre : List String) (x : String) (suf : List String),
      g.CycleList (pre ++ x :: suf) → g.CycleList (x :: (suf ++ pre)) := by
  intro pre
  induction pre with
  | nil =>
    intro x suf h
    simpa using h
  | cons p pre ih =>
    intro x suf h
    have h1 := ucyclelist_rot1 g p (pre ++ x :: suf) h
    have h2 : g.CycleList (pre ++ x :: (suf ++ [p])) := by
      simpa [List.append_assoc] using h1
    have h3 := ih x (suf ++ [p]) h2
    simpa [List.append_assoc] using h3

theorem indexOf_inj_mem {l : List String} {a b : String}
    (ha : a ∈ l) (hb : b ∈ l) (h : l.indexOf a = l.indexOf b) : a = b := by
  have h1 := List.indexOf_get (List.indexOf_lt_length.mpr ha)
  have h2 := List.indexOf_get (List.indexOf_lt_length.mpr hb)
  rw [← h1, ← h2]
  congr 1
  exact Fin.ext h

theorem indexOf_lt_prefix {A B : List String} {y : String} (hy : y ∈ A ++ B)
    (hlt : (A ++ B).indexOf y < A.length) : y ∈ A := by
  by_contra hny
  rw [List.indexOf_append_of_not_mem hny] at hlt
  omega

theorem no_cycle_of_post (g : UGraph) (hwf : g.WF) (visF : List String)
    (hkeys : ∀ k ∈ g.keys, k ∈ visF)
    (hp5 : ∀ x ∈ visF, ∃ px, ∀ y, g.Adj x y → y ∈ visF →
      visF.indexOf y < visF.indexOf x → some y = px) :
    ¬ g.HasCycleU := by
  rintro ⟨cs, hcyc⟩
  have hne : cs.toFinset.Nonempty := by
    have hlen := hcyc.1
    cases cs with
    | nil => simp at hlen
    | cons a l => exact ⟨a, by simp⟩
  obtain ⟨x, hx_cs, hx_max⟩ :=
    cs.toFinset.exists_max_image (fun y => visF.indexOf y) hne
  rw [List.mem_toFinset] at hx_cs
  obtain ⟨pre, suf, rfl⟩ := List.append_of_mem hx_cs
  have hrot := ucyclelist_to_head g pre x suf hcyc
  obtain ⟨hlen, hnd2, hch, hwrap⟩ := hrot
  obtain ⟨y1, t2, ht⟩ : ∃ y1 t2, suf ++ pre = y1 :: t2 := by
    cases hh : suf ++ pre with
    | nil =>
      rw [hh] at hlen
      simp at hlen
    | cons y1 t2 => exact ⟨y1, t2, rfl⟩
  rw [ht] at hlen hnd2 hch hwrap
  have ht2ne : t2 ≠ [] := by
    intro he
    subst he
    simp at hlen
  obtain ⟨y2, hy2last⟩ : ∃ y2, t2.getLast? = some y2 :=
    ⟨t2.getLast ht2ne, List.getLast?_eq_getLast t2 ht2ne⟩
  have hy2mem : y2 ∈ t2 := by
    have := List.getLast_mem ht2ne
    rw [List.getLast?_eq_getLast t2 ht2ne] at hy2last
    cases hy2last
    exact this
  have hadj1 : g.Adj x y1 := (uchain_cons_elim g hch).2 y1 rfl
  have hadjw : g.Adj y2 x := by
    refine hwrap x y2 rfl ?_
    rw [List.getLast?_cons_cons, ← hy2last]
    cases t2 with
    | nil => exact absurd rfl ht2ne
    | cons z2 r2 => exact List.getLast?_cons_cons
  have hadj2 : g.Adj x y2 := uadj_symm g hwf hadjw
  have hxy1 : x ≠ y1 := uadj_ne g hwf hadj1
  have hxy2 : x ≠ y2 := uadj_ne g hwf hadj2
  have hy12 : y1 ≠ y2 := by
    intro he
    subst he
    have := (List.nodup_cons.mp (List.nodup_cons.mp hnd2).2).1
    exact this hy2mem
  have hmem_cs : ∀ z, z ∈ y1 :: t2 → z ∈ pre ++ x :: suf := by
    intro z hz
    rw [← ht] at hz
    rcases List.mem_append.mp hz with hz | hz
    · exact List.mem_append.mpr (Or.inr (List.mem_cons_of_mem x hz))
    · exact List.mem_append.mpr (Or.inl hz)
  have hx_v : x ∈ visF := hkeys x (uadj_key_left g hadj1)
  have hy1_v : y1 ∈ visF := hkeys y1 (uadj_key_right g hwf hadj1)
  have hy2_v : y2 ∈ visF := hkeys y2 (uadj_key_right g hwf hadj2)
  have hlt1 : visF.indexOf y1 < visF.indexOf x := by
    have hle := hx_max y1 (List.mem_toFinset.mpr
      (hmem_cs y1 (List.mem_cons_self y1 t2)))
    rcases Nat.lt_or_ge (visF.indexOf y1) (visF.indexOf x) with h | h
    · exact h
    · exact absurd (indexOf_inj_mem hy1_v hx_v (by omega)) (fun he => hxy1 he.symm)
  have hlt2 : visF.indexOf y2 < visF.indexOf x := by
    have hle := hx_max y2 (List.mem_toFinset.mpr
      (hmem_cs y2 (List.mem_cons_of_mem y1 hy2mem)))
    rcases Nat.lt_or_ge (visF.indexOf y2) (visF.indexOf x) with h | h
    · exact h
    · exact absurd (indexOf_inj_mem hy2_v hx_v (by omega)) (fun he => hxy2 he.symm)
  obtain ⟨px, hpx⟩ := hp5 x hx_v
  have e1 := hpx y1 hadj1 hy1_v hlt1
  have e2 := hpx y2 hadj2 hy2_v hlt2
  rw [← e2] at e1
  exact hy12 (Option.some_inj.mp e1)

theorem ucycleScan_main (g : UGraph) (hwf : g.WF) (fuel : ℕ) (v : String)
    (visited stack nbrs : List String)
    (hnbrs : g.get v = some nbrs)
    (hinv : UInv g v visited stack)
    (harith : g.keys.length + 1 ≤ (fuel + 1) + visited.length)
    (IH : ∀ (v2 : String) (vis2 stack2 : List String), UInv g v2 vis2 stack2 →
      g.keys.length + 1 ≤ fuel + vis2.length →
      (g.HasCycleU ∧
        ∃ w, g.ucycleHelper fuel v2 vis2 stack2.getLast? = some (true, w)) ∨
      (∃ new, g.ucycleHelper fuel v2 vis2 stack2.getLast? =
          some (false, vis2 ++ new) ∧ UPost g v2 vis2 stack2 new)) :
    ∀ (rest done acc : List String), nbrs = done ++ rest →
      UScanInv g v visited stack done acc →
      (g.HasCycleU ∧ ∃ w,
        ucycleScanF (fun c vis => g.ucycleHelper fuel c vis (some v))
          stack.getLast? rest ((visited ++ [v]) ++ acc) = some (true, w)) ∨
      (∃ acc2,
        ucycleScanF (fun c vis => g.ucycleHelper fuel c vis (some v))
          stack.getLast? rest ((visited ++ [v]) ++ acc) =
          some (false, (visited ++ [v]) ++ acc2) ∧
        UScanInv g v visited stack (done ++ rest) acc2) := by
  obtain ⟨hchain, hnd_sv, hssub, hvnew, hvkey, hviskeys, hvisnd, hclosed⟩ := hinv
  have hnbrs_wf := hwf.2.1 v nbrs hnbrs
  intro rest
  induction rest with
  | nil =>
    intro done acc hsplit hscaninv
    right
    refine ⟨acc, rfl, ?_⟩
    rw [List.append_nil]
    exact hscaninv
  | cons i rest ihr =>
    intro done acc hsplit hscaninv
    obtain ⟨hacc_keys, hacc_nd, hacc_cl, hacc_p4, hacc_p5, hdone_vis, hdone_par⟩ :=
      hscaninv
    have hi_nbrs : i ∈ nbrs := by
      rw [hsplit]
      exact List.mem_append.mpr (Or.inr (List.mem_cons_self i rest))
    have hadj_vi : g.Adj v i := uadj_of_mem g hnbrs hi_nbrs
    have hi_key : i ∈ g.keys := uadj_key_right g hwf hadj_vi
    have hiv : i ≠ v := fun he => uadj_ne g hwf hadj_vi he.symm
    have hsplit1 : nbrs = (done ++ [i]) ++ rest := by
      rw [hsplit]
      simp
    have hde : (done ++ [i]) ++ rest = done ++ i :: rest := by simp
    rw [ucycleScanF]
    by_cases hmem : i ∈ (visited ++ [v]) ++ acc
    · rw [if_neg (not_not_intro hmem)]
      by_cases hpar : stack.getLast? ≠ some i
      · rw [if_pos hpar]
        left
        refine ⟨?_, (visited ++ [v]) ++ acc, rfl⟩
        rcases List.mem_append.mp hmem with hmem1 | hacc
        · rcases List.mem_append.mp hmem1 with hvisi | hvi
          · by_cases hist : i ∈ stack
            · obtain ⟨pre, suf, hstack_eq⟩ := List.append_of_mem hist
              have hsufne : suf ≠ [] := by
                intro he
                subst he
                apply hpar
                rw [hstack_eq]
                exact List.getLast?_concat pre
              have hchain2 : g.ChainU (i :: (suf ++ [v])) := by
                refine uchain_suffix g pre _ ?_
                have hh : stack ++ [v] = pre ++ (i :: (suf ++ [v])) := by
                  rw [hstack_eq]
                  simp
                rw [← hh]
                exact hchain
              have hnd3 : (i :: (suf ++ [v])).Nodup := by
                have hsl : (i :: (suf ++ [v])).Sublist (stack ++ [v]) := by
                  rw [hstack_eq]
                  have hh : pre ++ i :: suf ++ [v] = pre ++ (i :: (suf ++ [v])) := by
                    simp
                  rw [hh]
                  exact List.sublist_append_right pre _
                exact hsl.nodup hnd_sv
              refine ⟨i :: (suf ++ [v]), ?_, hnd3, hchain2, ?_⟩
              · simp only [List.length_cons, List.length_append,
                  List.length_singleton]
                have hh : suf.length ≠ 0 :=
                  fun he => hsufne (List.length_eq_zero.mp he)
                omega
              · intro a b hha hhb
                cases hha
                have hb : b = v := by
                  rw [show i :: (suf ++ [v]) = (i :: suf) ++ [v] from rfl,
                    List.getLast?_concat] at hhb
                  exact (Option.some_inj.mp hhb).symm
                rw [hb]
                exact hadj_vi
            · exact absurd (hclosed i hvisi hist v (uadj_symm g hwf hadj_vi)) hvnew
          · rw [List.mem_singleton] at hvi
            exact absurd hvi hiv
        · have h4 := hacc_p4 i hacc v
            (List.mem_append.mpr (Or.inr (List.mem_singleton_self v)))
            (uadj_symm g hwf hadj_vi)
          exfalso
          have hnd := hnbrs_wf.1
          rw [hsplit] at hnd
          exact (List.nodup_append.mp hnd).2.2 h4.2 (List.mem_cons_self i rest)
      · rw [if_neg hpar]
        have hpar2 : stack.getLast? = some i := not_ne_iff.mp hpar
        have hinew : ∀ y ∈ done ++ [i], y ∈ (visited ++ [v]) ++ acc := by
          intro y hy
          rcases List.mem_append.mp hy with hy | hy
          · exact hdone_vis y hy
          · rw [List.mem_singleton] at hy
            subst hy
            exact hmem
        have hparnew : ∀ y ∈ done ++ [i], y ∈ visited →
            stack.getLast? = some y := by
          intro y hy hyv
          rcases List.mem_append.mp hy with hy | hy
          · exact hdone_par y hy hyv
          · rw [List.mem_singleton] at hy
            subst hy
            exact hpar2
        have hp4a : ∀ x ∈ acc, ∀ y ∈ stack ++ [v], g.Adj x y →
            y = v ∧ x ∈ done ++ [i] := by
          intro x hx y hy hxy
          obtain ⟨hy1, hy2⟩ := hacc_p4 x hx y hy hxy
          exact ⟨hy1, List.mem_append.mpr (Or.inl hy2)⟩
        rcases ihr (done ++ [i]) acc hsplit1
            ⟨hacc_keys, hacc_nd, hacc_cl, hp4a, hacc_p5, hinew, hparnew⟩ with
          ⟨hc, w, hw⟩ | ⟨acc2, heq2, hsi2⟩
        · exact Or.inl ⟨hc, w, hw⟩
        · right
          refine ⟨acc2, heq2, ?_⟩
          rw [hde] at hsi2
          exact hsi2
    · rw [if_pos hmem]
      have hvc_sub : ∀ x ∈ stack ++ [v], x ∈ (visited ++ [v]) ++ acc := by
        intro x hx
        rcases List.mem_append.mp hx with hxs | hxv
        · exact List.mem_append.mpr
            (Or.inl (List.mem_append.mpr (Or.inl (hssub x hxs))))
        · rw [List.mem_singleton] at hxv
          subst hxv
          exact List.mem_append.mpr
            (Or.inl (List.mem_append.mpr (Or.inr (List.mem_singleton_self _))))
      have hsub_inv : UInv g i ((visited ++ [v]) ++ acc) (stack ++ [v]) := by
        refine ⟨?_, ?_, hvc_sub, hmem, hi_key, ?_, hacc_nd, ?_⟩
        · exact uchain_snoc g (stack ++ [v]) v i hchain
            (List.getLast?_concat stack) hadj_vi
        · rw [List.nodup_append]
          refine ⟨hnd_sv, List.nodup_singleton i, ?_⟩
          intro x hx hx2
          rw [List.mem_singleton] at hx2
          subst hx2
          exact hmem (hvc_sub x hx)
        · intro x hx
          rcases List.mem_append.mp hx with hx1 | hx2
          · rcases List.mem_append.mp hx1 with hxa | hxb
            · exact hviskeys x hxa
            · rw [List.mem_singleton] at hxb
              subst hxb
              exact hvkey
          · exact (hacc_keys x hx2).1
        · intro x hx hxn y hxy
          rcases List.mem_append.mp hx with hx1 | hx2
          · rcases List.mem_append.mp hx1 with hxa | hxb
            · have hxns : x ∉ stack :=
                fun hh => hxn (List.mem_append.mpr (Or.inl hh))
              exact List.mem_append.mpr
                (Or.inl (List.mem_append.mpr (Or.inl (hclosed x hxa hxns y hxy))))
            · rw [List.mem_singleton] at hxb
              subst hxb
              exact absurd
                (List.mem_append.mpr (Or.inr (List.mem_singleton_self x))) hxn
          · exact hacc_cl x hx2 y hxy
      have hsub_arith : g.keys.length + 1 ≤
          fuel + ((visited ++ [v]) ++ acc).length := by
        simp only [List.length_append, List.length_singleton]
        omega
      have hIH := IH i ((visited ++ [v]) ++ acc) (stack ++ [v]) hsub_inv hsub_arith
      rw [List.getLast?_concat] at hIH
      rcases hIH with ⟨hc, w, hw⟩ | ⟨new, heq, hpost⟩
      · rw [hw]
        exact Or.inl ⟨hc, w, rfl⟩
      · obtain ⟨hv_new_mem, hnew_keys, hnew_nd, hnew_cl, hnew_p4, hnew_p5⟩ := hpost
        have hassoc : ((visited ++ [v]) ++ acc) ++ new =
            (visited ++ [v]) ++ (acc ++ new) := List.append_assoc _ _ _
        rw [hassoc] at heq hnew_nd hnew_cl hnew_p5
        rw [heq]
        have hmemL : ∀ x ∈ (visited ++ [v]) ++ acc,
            x ∈ (visited ++ [v]) ++ (acc ++ new) := by
          intro x hx
          rcases List.mem_append.mp hx with hx1 | hx2
          · exact List.mem_append.mpr (Or.inl hx1)
          · exact List.mem_append.mpr
              (Or.inr (List.mem_append.mpr (Or.inl hx2)))
        have hkeys2 : ∀ x ∈ acc ++ new, x ∈ g.keys ∧ x ∉ visited ++ [v] := by
          intro x hx
          rcases List.mem_append.mp hx with hx1 | hx2
          · exact hacc_keys x hx1
          · refine ⟨(hnew_keys x hx2).1, ?_⟩
            intro hh
            exact (hnew_keys x hx2).2 (List.mem_append.mpr (Or.inl hh))
        have hcl2 : ∀ x ∈ acc ++ new, ∀ y, g.Adj x y →
            y ∈ (visited ++ [v]) ++ (acc ++ new) := by
          intro x hx y hxy
          rcases List.mem_append.mp hx with hx1 | hx2
          · exact hmemL y (hacc_cl x hx1 y hxy)
          · exact hnew_cl x hx2 y hxy
        have hp42 : ∀ x ∈ acc ++ new, ∀ y ∈ stack ++ [v], g.Adj x y →
            y = v ∧ x ∈ done ++ [i] := by
          intro x hx y hy hxy
          rcases List.mem_append.mp hx with hx1 | hx2
          · obtain ⟨hy1, hy2⟩ := hacc_p4 x hx1 y hy hxy
            exact ⟨hy1, List.mem_append.mpr (Or.inl hy2)⟩
          · obtain ⟨hx_eq, hy_eq⟩ := hnew_p4 x hx2 y hy hxy
            rw [List.getLast?_concat] at hy_eq
            refine ⟨(Option.some_inj.mp hy_eq).symm, ?_⟩
            rw [hx_eq]
            exact List.mem_append.mpr (Or.inr (List.mem_singleton_self i))
        have hp52 : ∀ x ∈ acc ++ new, ∃ px, ∀ y, g.Adj x y →
            y ∈ (visited ++ [v]) ++ (acc ++ new) →
            ((visited ++ [v]) ++ (acc ++ new)).indexOf y <
              ((visited ++ [v]) ++ (acc ++ new)).indexOf x → some y = px := by
          intro x hx
          rcases List.mem_append.mp hx with hx1 | hx2
          · obtain ⟨px, hpx⟩ := hacc_p5 x hx1
            refine ⟨px, ?_⟩
            intro y hxy hymem hylt
            have hxm : x ∈ (visited ++ [v]) ++ acc :=
              List.mem_append.mpr (Or.inr hx1)
            rw [← hassoc] at hymem hylt
            rw [List.indexOf_append_of_mem hxm] at hylt
            have hxlen := List.indexOf_lt_length.mpr hxm
            have hym2 : y ∈ (visited ++ [v]) ++ acc :=
              indexOf_lt_prefix hymem (by omega)
            rw [List.indexOf_append_of_mem hym2] at hylt
            exact hpx y hxy hym2 hylt
          · obtain ⟨px, hpx⟩ := hnew_p5 x hx2
            exact ⟨px, hpx⟩
        have hdv2 : ∀ y ∈ done ++ [i], y ∈ (visited ++ [v]) ++ (acc ++ new) := by
          intro y hy
          rcases List.mem_append.mp hy with hy | hy
          · exact hmemL y (hdone_vis y hy)
          · rw [List.mem_singleton] at hy
            subst hy
            exact List.mem_append.mpr
              (Or.inr (List.mem_append.mpr (Or.inr hv_new_mem)))
        have hdp2 : ∀ y ∈ done ++ [i], y ∈ visited →
            stack.getLast? = some y := by
          intro y hy hyv
          rcases List.mem_append.mp hy with hy | hy
          · exact hdone_par y hy hyv
          · rw [List.mem_singleton] at hy
            subst hy
            exact absurd (List.mem_append.mpr
              (Or.inl (List.mem_append.mpr (Or.inl hyv)))) hmem
        have hnd2 : ((visited ++ [v]) ++ (acc ++ new)).Nodup := hnew_nd
        rcases ihr (done ++ [i]) (acc ++ new) hsplit1
            ⟨hkeys2, hnd2, hcl2, hp42, hp52, hdv2, hdp2⟩ with
          ⟨hc, w, hw⟩ | ⟨acc2, heq2, hsi2⟩
        · exact Or.inl ⟨hc, w, hw⟩
        · right
          refine ⟨acc2, heq2, ?_⟩
          rw [hde] at hsi2
          exact hsi2

theorem ucycleHelper_main (g : UGraph) (hwf : g.WF) :
    ∀ (fuel : ℕ) (v : String) (visited stack : List String),
      UInv g v visited stack →
      g.keys.length + 1 ≤ fuel + visited.length →
      (g.HasCycleU ∧
        ∃ w, g.ucycleHelper fuel v visited stack.getLast? = some (true, w)) ∨
      (∃ new, g.ucycleHelper fuel v visited stack.getLast? =
          some (false, visited ++ new) ∧ UPost g v visited stack new) := by
  intro fuel
  induction fuel with
  | zero =>
    intro v visited stack hinv harith
    exfalso
    obtain ⟨-, -, -, hvnew, hvkey, hviskeys, hvisnd, -⟩ := hinv
    have := ulen_bound g hvkey hvnew hviskeys hvisnd
    omega
  | succ fuel ih =>
    intro v visited stack hinv harith
    have hinv2 := hinv
    obtain ⟨hchain, hnd_sv, hssub, hvnew, hvkey, hviskeys, hvisnd, hclosed⟩ := hinv2
    have hvstack : v ∉ stack :=
      fun hv => (List.nodup_append.mp hnd_sv).2.2 hv (List.mem_singleton_self v)
    obtain ⟨nbrs, hnbrs⟩ := Option.isSome_iff_exists.mp
      ((uget_isSome_iff g v).mpr hvkey)
    have hadj_to_nbrs : ∀ y, g.Adj v y → y ∈ nbrs := by
      rintro y ⟨l, hl, hyl⟩
      rw [hnbrs] at hl
      cases hl
      exact hyl
    have hnd_v1 : (visited ++ [v]).Nodup := by
      rw [List.nodup_append]
      refine ⟨hvisnd, List.nodup_singleton v, ?_⟩
      intro x hx hx2
      rw [List.mem_singleton] at hx2
      subst hx2
      exact hvnew hx
    have hinit : UScanInv g v visited stack [] [] := by
      refine ⟨?_, ?_, ?_, ?_, ?_, ?_, ?_⟩
      · intro x hx
        cases hx
      · rw [List.append_nil]
        exact hnd_v1
      · intro x hx
        cases hx
      · intro x hx
        cases hx
      · intro x hx
        cases hx
      · intro y hy
        cases hy
      · intro y hy
        cases hy
    have hscan := ucycleScan_main g hwf fuel v visited stack nbrs hnbrs hinv
      harith ih nbrs [] [] rfl hinit
    rw [List.append_nil] at hscan
    rw [UGraph.ucycleHelper, hnbrs]
    dsimp only
    rcases hscan with ⟨hc, w, hw⟩ | ⟨acc2, heq, hsi⟩
    · exact Or.inl ⟨hc, w, hw⟩
    · right
      have hlist : (visited ++ [v]) ++ acc2 = visited ++ v :: acc2 := by simp
      rw [List.nil_append] at hsi
      obtain ⟨hk2, hnd2, hcl2, hp42, hp52, hdv2, hdp2⟩ := hsi
      rw [hlist] at heq hnd2 hcl2 hp52 hdv2
      refine ⟨v :: acc2, heq, List.mem_cons_self v acc2, ?_, hnd2, ?_, ?_, ?_⟩
      · intro x hx
        rcases List.mem_cons.mp hx with rfl | hx2
        · exact ⟨hvkey, hvnew⟩
        · refine ⟨(hk2 x hx2).1, ?_⟩
          intro hh
          exact (hk2 x hx2).2 (List.mem_append.mpr (Or.inl hh))
      · intro x hx y hxy
        rcases List.mem_cons.mp hx with rfl | hx2
        · exact hdv2 y (hadj_to_nbrs y hxy)
        · exact hcl2 x hx2 y hxy
      · intro x hx y hy hxy
        rcases List.mem_cons.mp hx with rfl | hx2
        · exact ⟨rfl, hdp2 y (hadj_to_nbrs y hxy) (hssub y hy)⟩
        · obtain ⟨hy1, -⟩ := hp42 x hx2 y (List.mem_append.mpr (Or.inl hy)) hxy
          subst hy1
          exact absurd hy hvstack
      · intro x hx
        rcases List.mem_cons.mp hx with rfl | hx2
        · refine ⟨stack.getLast?, ?_⟩
          intro y hxy hymem hylt
          have hidxv : (visited ++ x :: acc2).indexOf x = visited.length := by
            rw [List.indexOf_append_of_not_mem hvnew, List.indexOf_cons_self]
            omega
          rw [hidxv] at hylt
          have hyvis : y ∈ visited := indexOf_lt_prefix hymem hylt
          exact (hdp2 y (hadj_to_nbrs y hxy) hyvis).symm
        · exact hp52 x hx2

theorem uhasCycleLoop_main (g : UGraph) (hwf : g.WF) :
    ∀ (vs : List String) (visited : List String),
      (∀ x ∈ vs, x ∈ g.keys) →
      (∀ x ∈ visited, x ∈ g.keys) → visited.Nodup →
      (∀ x ∈ visited, ∀ y, g.Adj x y → y ∈ visited) →
      (∀ x ∈ visited, ∃ px, ∀ y, g.Adj x y → y ∈ visited →
        visited.indexOf y < visited.indexOf x → some y = px) →
      (g.HasCycleU ∧ g.hasCycleLoopU vs visited = some true) ∨
      (∃ visF : List String, g.hasCycleLoopU vs visited = some false ∧
        (∀ x ∈ visited, x ∈ visF) ∧ (∀ x ∈ vs, x ∈ visF) ∧
        (∀ x ∈ visF, x ∈ g.keys) ∧ visF.Nodup ∧
        (∀ x ∈ visF, ∀ y, g.Adj x y → y ∈ visF) ∧
        (∀ x ∈ visF, ∃ px, ∀ y, g.Adj x y → y ∈ visF →
          visF.indexOf y < visF.indexOf x → some y = px)) := by
  intro vs
  induction vs with
  | nil =>
    intro visited hvs hvk hvn hvc hp5
    exact Or.inr ⟨visited, rfl, fun x hx => hx,
      fun x hx => absurd hx (List.not_mem_nil x), hvk, hvn, hvc, hp5⟩
  | cons v vs ihr =>
    intro visited hvs hvk hvn hvc hp5
    rw [UGraph.hasCycleLoopU]
    by_cases hmem : v ∈ visited
    · rw [if_pos hmem]
      rcases ihr visited (fun x hx => hvs x (List.mem_cons_of_mem v hx))
          hvk hvn hvc hp5 with ⟨hc, hh⟩ | ⟨visF, hh, h1, h2, h3, h4, h5, h6⟩
      · exact Or.inl ⟨hc, hh⟩
      · refine Or.inr ⟨visF, hh, h1, ?_, h3, h4, h5, h6⟩
        intro x hx
        rcases List.mem_cons.mp hx with rfl | hx2
        · exact h1 x hmem
        · exact h2 x hx2
    · rw [if_neg hmem]
      have hstinv : UInv g v visited [] := by
        refine ⟨trivial, ?_, ?_, hmem, hvs v (List.mem_cons_self v vs), hvk,
          hvn, ?_⟩
        · exact List.nodup_singleton v
        · intro x hx
          cases hx
        · intro x hx _ y hxy
          exact hvc x hx y hxy
      have harith : g.keys.length + 1 ≤ (g.keys.length + 1) + visited.length :=
        by omega
      rcases ucycleHelper_main g hwf (g.keys.length + 1) v visited [] hstinv
          harith with ⟨hc, w, hw⟩ | ⟨new, heq, hpost⟩
      · have hw2 : g.ucycleHelper (g.keys.length + 1) v visited none =
            some (true, w) := hw
        rw [hw2]
        exact Or.inl ⟨hc, rfl⟩
      · have heq2 : g.ucycleHelper (g.keys.length + 1) v visited none =
            some (false, visited ++ new) := heq
        rw [heq2]
        obtain ⟨hvmem, hnkeys, hnnd, hncl, -, hnp5⟩ := hpost
        have hvk2 : ∀ x ∈ visited ++ new, x ∈ g.keys := by
          intro x hx
          rcases List.mem_append.mp hx with hx1 | hx2
          · exact hvk x hx1
          · exact (hnkeys x hx2).1
        have hvc2 : ∀ x ∈ visited ++ new, ∀ y, g.Adj x y → y ∈ visited ++ new := by
          intro x hx y hxy
          rcases List.mem_append.mp hx with hx1 | hx2
          · exact List.mem_append.mpr (Or.inl (hvc x hx1 y hxy))
          · exact hncl x hx2 y hxy
        have hp52 : ∀ x ∈ visited ++ new, ∃ px, ∀ y, g.Adj x y →
            y ∈ visited ++ new →
            (visited ++ new).indexOf y < (visited ++ new).indexOf x →
            some y = px := by
          intro x hx
          rcases List.mem_append.mp hx with hx1 | hx2
          · obtain ⟨px, hpx⟩ := hp5 x hx1
            refine ⟨px, ?_⟩
            intro y hxy hym hylt
            rw [List.indexOf_append_of_mem hx1] at hylt
            have hxlen := List.indexOf_lt_length.mpr hx1
            have hym2 : y ∈ visited := indexOf_lt_prefix hym (by omega)
            rw [List.indexOf_append_of_mem hym2] at hylt
            exact hpx y hxy hym2 hylt
          · exact hnp5 x hx2
        rcases ihr (visited ++ new)
            (fun x hx => hvs x (List.mem_cons_of_mem v hx)) hvk2 hnnd hvc2
            hp52 with ⟨hc, hh⟩ | ⟨visF, hh, h1, h2, h3, h4, h5, h6⟩
        · exact Or.inl ⟨hc, hh⟩
        · refine Or.inr ⟨visF, hh, ?_, ?_, h3, h4, h5, h6⟩
          · intro x hx
            exact h1 x (List.mem_append.mpr (Or.inl hx))
          · intro x hx
            rcases List.mem_cons.mp hx with rfl | hx2
            · exact h1 x (List.mem_append.mpr (Or.inr hvmem))
            · exact h2 x hx2

theorem ucycle_spec (g : UGraph) (hwf : g.WF) :
    ∃ b, g.has_cycle = some b ∧ (b = true ↔ g.HasCycleU) := by
  have h := uhasCycleLoop_main g hwf g.keys [] (fun x hx => hx)
    (by intro x hx; cases hx) List.nodup_nil
    (by intro x hx; cases hx) (by intro x hx; cases hx)
  rcases h with ⟨hc, hh⟩ | ⟨visF, hh, h1, h2, h3, h4, h5, h6⟩
  · refine ⟨true, hh, ?_⟩
    constructor
    · intro _
      exact hc
    · intro _
      rfl
  · refine ⟨false, hh, ?_⟩
    constructor
    · intro hf
      exact absurd hf (by simp)
    · intro hcyc
      exact absurd hcyc (no_cycle_of_post g hwf visF h2 h6)

/-- Claim C2: `has_cycle` decides cycle existence for both classes.  For
every square `DirectedGraph`, `has_cycle` returns a boolean that is `true`
exactly when the graph contains a directed cycle (a nonempty closed walk);
for every reachable `UndirectedGraph` state, `has_cycle` returns a boolean
that is `true` exactly when the graph contains a cycle: a closed walk of
length at least 3 over distinct vertices (what the parent-excluded back-edge
search detects). -/
theorem has_cycle_iff :
    (∀ g : DGraph, g.Square →
      ∃ b, g.has_cycle = some b ∧ (b = true ↔ g.HasDCycle)) ∧
    (∀ g : UGraph, UReach g →
      ∃ b, g.has_cycle = some b ∧ (b = true ↔ g.HasCycleU)) := by
  constructor
  · intro g hsq
    exact dcycle_spec g hsq
  · intro g hr
    exact ucycle_spec g (ureach_wf g hr)

/-! ### Traversal correctness: sorted neighbour lists -/

theorem mem_rowNbrsAsc (row : List ℤ) (x : ℤ) :
    x ∈ rowNbrsAsc row ↔
      ∃ c : ℕ, c < row.length ∧ row.getD c 0 ≠ 0 ∧ x = (c : ℤ) := by
  unfold rowNbrsAsc
  rw [(List.perm_insertionSort _ _).mem_iff]
  simp only [List.mem_map, List.mem_filter, List.mem_range, decide_eq_true_eq]
  constructor
  · rintro ⟨c, ⟨hc1, hc2⟩, rfl⟩
    exact ⟨c, hc1, hc2, rfl⟩
  · rintro ⟨c, hc1, hc2, rfl⟩
    exact ⟨c, ⟨hc1, hc2⟩, rfl⟩

theorem mem_rowNbrsDesc (row : List ℤ) (x : ℤ) :
    x ∈ rowNbrsDesc row ↔
      ∃ c : ℕ, c < row.length ∧ row.getD c 0 ≠ 0 ∧ x = (c : ℤ) := by
  unfold rowNbrsDesc
  rw [(List.perm_insertionSort _ _).mem_iff]
  simp only [List.mem_map, List.mem_filter, List.mem_range, decide_eq_true_eq]
  constructor
  · rintro ⟨c, ⟨hc1, hc2⟩, rfl⟩
    exact ⟨c, hc1, hc2, rfl⟩
  · rintro ⟨c, hc1, hc2, rfl⟩
    exact ⟨c, ⟨hc1, hc2⟩, rfl⟩

theorem rowNbrs_length (row : List ℤ) :
    (rowNbrsDesc row).length ≤ row.length ∧
      (rowNbrsAsc row).length ≤ row.length := by
  constructor
  · calc (rowNbrsDesc row).length
        = (((List.range row.length).filter fun c =>
            row.getD c 0 ≠ 0).map Int.ofNat).length :=
          (List.perm_insertionSort _ _).length_eq
      _ ≤ row.length := by
          rw [List.length_map]
          calc ((List.range row.length).filter fun c => row.getD c 0 ≠ 0).length
              ≤ (List.range row.length).length := List.length_filter_le _ _
            _ = row.length := List.length_range _
  · calc (rowNbrsAsc row).length
        = (((List.range row.length).filter fun c =>
            row.getD c 0 ≠ 0).map Int.ofNat).length :=
          (List.perm_insertionSort _ _).length_eq
      _ ≤ row.length := by
          rw [List.length_map]
          calc ((List.range row.length).filter fun c => row.getD c 0 ≠ 0).length
              ≤ (List.range row.length).length := List.length_filter_le _ _
            _ = row.length := List.length_range _

theorem rowNbrsDesc_reverse (row : List ℤ) :
    (rowNbrsDesc row).reverse = rowNbrsAsc row := by
  refine List.eq_of_perm_of_sorted ?_ ?_ (List.sorted_insertionSort _ _)
  · exact ((List.reverse_perm _).trans
      (List.perm_insertionSort _ _)).trans (List.perm_insertionSort _ _).symm
  · rw [List.Sorted, List.pairwise_reverse]
    exact List.sorted_insertionSort _ _

theorem rowNbrsAsc_sorted (row : List ℤ) :
    (rowNbrsAsc row).Sorted (fun a b => a ≤ b) :=
  List.sorted_insertionSort _ _

theorem mem_sortedAscStr (l : List String) (x : String) :
    x ∈ sortedAscStr l ↔ x ∈ l :=
  (List.perm_insertionSort _ _).mem_iff

theorem mem_sortedDescStr (l : List String) (x : String) :
    x ∈ sortedDescStr l ↔ x ∈ l :=
  (List.perm_insertionSort _ _).mem_iff

theorem sortedStr_length (l : List String) :
    (sortedDescStr l).length = l.length ∧ (sortedAscStr l).length = l.length :=
  ⟨(List.perm_insertionSort _ _).length_eq, (List.perm_insertionSort _ _).length_eq⟩

theorem sortedDescStr_reverse (l : List String) :
    (sortedDescStr l).reverse = sortedAscStr l := by
  refine List.eq_of_perm_of_sorted ?_ ?_ (List.sorted_insertionSort _ _)
  · exact ((List.reverse_perm _).trans
      (List.perm_insertionSort _ _)).trans (List.perm_insertionSort _ _).symm
  · rw [List.Sorted, List.pairwise_reverse]
    exact List.sorted_insertionSort _ _

theorem sortedAscStr_sorted (l : List String) :
    (sortedAscStr l).Sorted (fun a b => a ≤ b) :=
  List.sorted_insertionSort _ _

theorem nodup_length_le {α : Type} [DecidableEq α] (l L : List α)
    (hnd : l.Nodup) (hsub : ∀ x ∈ l, x ∈ L) : l.length ≤ L.length := by
  have h1 : l.toFinset.card = l.length := List.toFinset_card_of_nodup hnd
  have h2 : l.toFinset ⊆ L.toFinset := by
    intro x hx
    rw [List.mem_toFinset] at hx ⊢
    exact hsub x hx
  have h3 := Finset.card_le_card h2
  have h4 := List.toFinset_card_le L
  omega

theorem pyGet_nat {α : Type} (l : List α) (k : ℕ) (hk : k < l.length) :
    pyGet l (k : ℤ) = l.get? k := by
  unfold pyGet pyIdx
  rw [if_pos ⟨Int.natCast_nonneg k, by exact_mod_cast hk⟩]
  simp

theorem edge_iff_getD (g : DGraph) {k : ℕ} {row : List ℤ}
    (hrow : g.adj_matrix.get? k = some row) (j : ℕ) (hj : j < row.length) :
    (g.Edge k j ↔ row.getD j 0 ≠ 0) := by
  obtain ⟨w, hw⟩ : ∃ w, row.get? j = some w := ⟨_, List.get?_eq_get hj⟩
  have h1 : g.wt k j = w := wt_eq_row g hrow hw
  have h2 : row.getD j 0 = w := by
    rw [List.getD_eq_getElem?_getD, ← List.get?_eq_getElem?, hw]
    rfl
  rw [DGraph.Edge, h1, h2]

theorem reaches_refl (g : DGraph) (a : ℕ) : g.Reaches a a := ⟨[], trivial, rfl⟩

theorem reaches_step (g : DGraph) {a b c : ℕ} (h : g.Reaches a b)
    (he : g.Edge b c) : g.Reaches a c := by
  obtain ⟨l, hw, hl⟩ := h
  rw [← hl] at he
  obtain ⟨h1, h2, -⟩ := walk_snoc g l a c hw he
  exact ⟨l ++ [c], h1, h2⟩

theorem reaches_closed (g : DGraph) (hsq : g.Square) (vis : List ℤ)
    (hcl : ∀ k : ℕ, k < g.v_count → (k : ℤ) ∈ vis → ∀ j, g.Edge k j →
      (j : ℤ) ∈ vis) :
    ∀ (l : List ℕ) (a : ℕ), g.IsWalk a l → (a : ℤ) ∈ vis →
      ((l.getLastD a : ℕ) : ℤ) ∈ vis := by
  intro l
  induction l with
  | nil =>
    intro a _ ha
    exact ha
  | cons b rest ih =>
    intro a hw ha
    rw [List.getLastD_cons]
    have hlt := edge_lt_sq g hsq hw.1
    exact ih b hw.2 (hcl a hlt.1 ha b hw.1)

theorem ureaches_refl (g : UGraph) (a : String) : g.ReachesU a a :=
  ⟨[], trivial, rfl⟩

theorem uwalk_snoc (g : UGraph) :
    ∀ (l : List String) (a c : String), g.IsWalkU a l →
      g.Adj (l.getLastD a) c →
      g.IsWalkU a (l ++ [c]) ∧ (l ++ [c]).getLastD a = c := by
  intro l
  induction l with
  | nil =>
    intro a c _ he
    exact ⟨⟨he, trivial⟩, rfl⟩
  | cons b rest ih =>
    intro a c hw he
    rw [List.getLastD_cons] at he
    obtain ⟨h1, h2⟩ := ih b c hw.2 he
    refine ⟨⟨hw.1, h1⟩, ?_⟩
    rw [List.cons_append, List.getLastD_cons]
    exact h2

theorem ureaches_step (g : UGraph) {a b c : String} (h : g.ReachesU a b)
    (he : g.Adj b c) : g.ReachesU a c := by
  obtain ⟨l, hw, hl⟩ := h
  rw [← hl] at he
  obtain ⟨h1, h2⟩ := uwalk_snoc g l a c hw he
  exact ⟨l ++ [c], h1, h2⟩

theorem ureaches_closed (g : UGraph) (vis : List String)
    (hcl : ∀ x ∈ vis, ∀ y, g.Adj x y → y ∈ vis) :
    ∀ (l : List String) (a : String), g.IsWalkU a l → a ∈ vis →
      l.getLastD a ∈ vis := by
  intro l
  induction l with
  | nil =>
    intro a _ ha
    exact ha
  | cons b rest ih =>
    intro a hw ha
    rw [List.getLastD_cons]
    exact ih b hw.2 (hcl a ha b hw.1)

theorem dfsLoop_main (g : DGraph) (hsq : g.Square) (v0 : ℕ)
    (hv0 : v0 < g.v_count) :
    ∀ (fuel : ℕ) (visited stack : List ℤ),
      (∀ x ∈ visited, ∃ k : ℕ, x = (k : ℤ) ∧ k < g.v_count ∧ g.Reaches v0 k) →
      (∀ x ∈ stack, ∃ k : ℕ, x = (k : ℤ) ∧ k < g.v_count ∧ g.Reaches v0 k) →
      visited.Nodup →
      (∀ k : ℕ, k < g.v_count → (k : ℤ) ∈ visited → ∀ j, g.Edge k j →
        ((j : ℤ) ∈ visited ∨ (j : ℤ) ∈ stack)) →
      ((v0 : ℤ) ∈ visited ∨ (v0 : ℤ) ∈ stack) →
      stack.length + (g.v_count - visited.length) * (g.v_count + 1) < fuel →
      ∃ vis, g.dfsLoop none fuel visited stack = some vis ∧
        (∀ x ∈ vis, ∃ k : ℕ, x = (k : ℤ) ∧ k < g.v_count ∧ g.Reaches v0 k) ∧
        vis.Nodup ∧
        (∀ k : ℕ, k < g.v_count → (k : ℤ) ∈ vis → ∀ j, g.Edge k j →
          (j : ℤ) ∈ vis) ∧
        (v0 : ℤ) ∈ vis := by
  intro fuel
  induction fuel with
  | zero =>
    intro visited stack _ _ _ _ _ hpot
    omega
  | succ fuel ih =>
    intro visited stack hvk hsk hnd hcl hv0m hpot
    cases hst : stack.getLast? with
    | none =>
      have hse : stack = [] := List.getLast?_eq_none.mp hst
      rw [DGraph.dfsLoop, hst]
      refine ⟨visited, rfl, hvk, hnd, ?_, ?_⟩
      · intro k hk hkm j hj
        rcases hcl k hk hkm j hj with h | h
        · exact h
        · rw [hse] at h
          cases h
      · rcases hv0m with h | h
        · exact h
        · rw [hse] at h
          cases h
    | some v =>
      have hvmem : v ∈ stack := List.mem_of_mem_getLast? hst
      have hsne : stack ≠ [] := by
        intro he
        rw [he] at hvmem
        cases hvmem
      have hveq : stack.getLast hsne = v := by
        have := List.getLast?_eq_getLast stack hsne
        rw [hst] at this
        exact (Option.some_inj.mp this).symm
      have hsplit : stack.dropLast ++ [v] = stack := by
        rw [← hveq]
        exact List.dropLast_append_getLast hsne
      have hslen : stack.length = stack.dropLast.length + 1 := by
        rw [List.length_dropLast]
        have : stack.length ≠ 0 := fun he => hsne (List.length_eq_zero.mp he)
        omega
      obtain ⟨k, hkx, hkn, hkr⟩ := hsk v hvmem
      rw [DGraph.dfsLoop, hst]
      dsimp only
      by_cases hvis : v ∈ visited
      · rw [if_pos hvis, if_neg (by simp)]
        refine ih visited stack.dropLast hvk ?_ hnd ?_ ?_ (by omega)
        · intro x hx
          exact hsk x ((List.dropLast_sublist stack).subset hx)
        · intro m hm hmm j hj
          rcases hcl m hm hmm j hj with h | h
          · exact Or.inl h
          · rw [← hsplit] at h
            rcases List.mem_append.mp h with h2 | h2
            · exact Or.inr h2
            · rw [List.mem_singleton] at h2
              rw [h2]
              exact Or.inl hvis
        · rcases hv0m with h | h
          · exact Or.inl h
          · rw [← hsplit] at h
            rcases List.mem_append.mp h with h2 | h2
            · exact Or.inr h2
            · rw [List.mem_singleton] at h2
              rw [h2]
              exact Or.inl hvis
      · rw [if_neg hvis]
        have hkmat : k < g.adj_matrix.length := by
          rw [hsq.1]
          exact hkn
        obtain ⟨row, hrow⟩ : ∃ row, g.adj_matrix.get? k = some row :=
          ⟨_, List.get?_eq_get hkmat⟩
        have hpg : pyGet g.adj_matrix v = some row := by
          rw [hkx, pyGet_nat _ _ hkmat]
          exact hrow
        rw [hpg]
        dsimp only
        rw [if_neg (by simp)]
        have hrlen : row.length = g.v_count := hsq.2 _ (List.get?_mem hrow)
        have hlenb : visited.length + 1 ≤ g.v_count := by
          have hnd2 : (visited ++ [v]).Nodup := by
            rw [List.nodup_append]
            refine ⟨hnd, List.nodup_singleton v, ?_⟩
            intro x hx hx2
            rw [List.mem_singleton] at hx2
            subst hx2
            exact hvis hx
          have := nodup_length_le (visited ++ [v])
            ((List.range g.v_count).map Int.ofNat) hnd2 ?_
          · rw [List.length_append, List.length_singleton, List.length_map,
              List.length_range] at this
            omega
          · intro x hx
            rcases List.mem_append.mp hx with hx1 | hx2
            · obtain ⟨m, hm1, hm2, -⟩ := hvk x hx1
              rw [hm1]
              exact List.mem_map.mpr ⟨m, List.mem_range.mpr hm2, rfl⟩
            · rw [List.mem_singleton] at hx2
              subst hx2
              rw [hkx]
              exact List.mem_map.mpr ⟨k, List.mem_range.mpr hkn, rfl⟩
        have hrnb := (rowNbrs_length row).1
        have hprod : (g.v_count - visited.length) * (g.v_count + 1) =
            (g.v_count - (visited.length + 1)) * (g.v_count + 1) +
              (g.v_count + 1) := by
          have hh : g.v_count - visited.length =
              (g.v_count - (visited.length + 1)) + 1 := by omega
          rw [hh]
          ring
        refine ih (visited ++ [v]) (stack.dropLast ++ rowNbrsDesc row) ?_ ?_ ?_
          ?_ ?_ ?_
        · intro x hx
          rcases List.mem_append.mp hx with hx1 | hx2
          · exact hvk x hx1
          · rw [List.mem_singleton] at hx2
            subst hx2
            exact ⟨k, hkx, hkn, hkr⟩
        · intro x hx
          rcases List.mem_append.mp hx with hx1 | hx2
          · exact hsk x ((List.dropLast_sublist stack).subset hx1)
          · obtain ⟨c, hc1, hc2, hc3⟩ := (mem_rowNbrsDesc row x).mp hx2
            refine ⟨c, hc3, by omega, ?_⟩
            exact reaches_step g hkr ((edge_iff_getD g hrow c hc1).mpr hc2)
        · rw [List.nodup_append]
          refine ⟨hnd, List.nodup_singleton v, ?_⟩
          intro x hx hx2
          rw [List.mem_singleton] at hx2
          subst hx2
          exact hvis hx
        · intro m hm hmm j hj
          rcases List.mem_append.mp hmm with hm1 | hm2
          · rcases hcl m hm hm1 j hj with h | h
            · exact Or.inl (List.mem_append.mpr (Or.inl h))
            · rw [← hsplit] at h
              rcases List.mem_append.mp h with h2 | h2
              · exact Or.inr (List.mem_append.mpr (Or.inl h2))
              · rw [List.mem_singleton] at h2
                rw [h2]
                exact Or.inl (List.mem_append.mpr
                  (Or.inr (List.mem_singleton_self v)))
          · rw [List.mem_singleton] at hm2
            have hmk : m = k := by
              rw [hkx] at hm2
              exact_mod_cast hm2
            subst hmk
            right
            refine List.mem_append.mpr (Or.inr ?_)
            refine (mem_rowNbrsDesc row (j : ℤ)).mpr ⟨j, ?_, ?_, rfl⟩
            · rw [hrlen]
              exact (edge_lt_sq g hsq hj).2
            · refine (edge_iff_getD g hrow j ?_).mp hj
              rw [hrlen]
              exact (edge_lt_sq g hsq hj).2
        · rcases hv0m with h | h
          · exact Or.inl (List.mem_append.mpr (Or.inl h))
          · rw [← hsplit] at h
            rcases List.mem_append.mp h with h2 | h2
            · exact Or.inr (List.mem_append.mpr (Or.inl h2))
            · rw [List.mem_singleton] at h2
              rw [h2]
              exact Or.inl (List.mem_append.mpr
                (Or.inr (List.mem_singleton_self v)))
        · simp only [List.length_append, List.length_singleton]
          omega

theorem bfsLoop_main (g : DGraph) (hsq : g.Square) (v0 : ℕ)
    (hv0 : v0 < g.v_count) :
    ∀ (fuel : ℕ) (visited queue : List ℤ),
      (∀ x ∈ visited, ∃ k : ℕ, x = (k : ℤ) ∧ k < g.v_count ∧ g.Reaches v0 k) →
      (∀ x ∈ queue, ∃ k : ℕ, x = (k : ℤ) ∧ k < g.v_count ∧ g.Reaches v0 k) →
      visited.Nodup →
      (∀ k : ℕ, k < g.v_count → (k : ℤ) ∈ visited → ∀ j, g.Edge k j →
        ((j : ℤ) ∈ visited ∨ (j : ℤ) ∈ queue)) →
      ((v0 : ℤ) ∈ visited ∨ (v0 : ℤ) ∈ queue) →
      queue.length + (g.v_count - visited.length) * (g.v_count + 1) < fuel →
      ∃ vis, g.bfsLoop none fuel visited queue = some vis ∧
        (∀ x ∈ vis, ∃ k : ℕ, x = (k : ℤ) ∧ k < g.v_count ∧ g.Reaches v0 k) ∧
        vis.Nodup ∧
        (∀ k : ℕ, k < g.v_count → (k : ℤ) ∈ vis → ∀ j, g.Edge k j →
          (j : ℤ) ∈ vis) ∧
        (v0 : ℤ) ∈ vis := by
  intro fuel
  induction fuel with
  | zero =>
    intro visited queue _ _ _ _ _ hpot
    omega
  | succ fuel ih =>
    intro visited queue hvk hsk hnd hcl hv0m hpot
    cases queue with
    | nil =>
      rw [DGraph.bfsLoop]
      refine ⟨visited, rfl, hvk, hnd, ?_, ?_⟩
      · intro k hk hkm j hj
        rcases hcl k hk hkm j hj with h | h
        · exact h
        · cases h
      · rcases hv0m with h | h
        · exact h
        · cases h
    | cons v queue1 =>
      obtain ⟨k, hkx, hkn, hkr⟩ := hsk v (List.mem_cons_self v queue1)
      rw [DGraph.bfsLoop]
      dsimp only
      by_cases hvis : v ∈ visited
      · rw [if_pos hvis, if_neg (by simp)]
        refine ih visited queue1 hvk ?_ hnd ?_ ?_ (by
          simp only [List.length_cons] at hpot
          omega)
        · intro x hx
          exact hsk x (List.mem_cons_of_mem v hx)
        · intro m hm hmm j hj
          rcases hcl m hm hmm j hj with h | h
          · exact Or.inl h
          · rcases List.mem_cons.mp h with h2 | h2
            · rw [h2]
              exact Or.inl hvis
            · exact Or.inr h2
        · rcases hv0m with h | h
          · exact Or.inl h
          · rcases List.mem_cons.mp h with h2 | h2
            · rw [h2]
              exact Or.inl hvis
            · exact Or.inr h2
      · rw [if_neg hvis]
        have hkmat : k < g.adj_matrix.length := by
          rw [hsq.1]
          exact hkn
        obtain ⟨row, hrow⟩ : ∃ row, g.adj_matrix.get? k = some row :=
          ⟨_, List.get?_eq_get hkmat⟩
        have hpg : pyGet g.adj_matrix v = some row := by
          rw [hkx, pyGet_nat _ _ hkmat]
          exact hrow
        rw [hpg]
        dsimp only
        rw [if_neg (by simp)]
        have hrlen : row.length = g.v_count := hsq.2 _ (List.get?_mem hrow)
        have hlenb : visited.length + 1 ≤ g.v_count := by
          have hnd2 : (visited ++ [v]).Nodup := by
            rw [List.nodup_append]
            refine ⟨hnd, List.nodup_singleton v, ?_⟩
            intro x hx hx2
            rw [List.mem_singleton] at hx2
            subst hx2
            exact hvis hx
          have := nodup_length_le (visited ++ [v])
            ((List.range g.v_count).map Int.ofNat) hnd2 ?_
          · rw [List.length_append, List.length_singleton, List.length_map,
              List.length_range] at this
            omega
          · intro x hx
            rcases List.mem_append.mp hx with hx1 | hx2
            · obtain ⟨m, hm1, hm2, -⟩ := hvk x hx1
              rw [hm1]
              exact List.mem_map.mpr ⟨m, List.mem_range.mpr hm2, rfl⟩
            · rw [List.mem_singleton] at hx2
              subst hx2
              rw [hkx]
              exact List.mem_map.mpr ⟨k, List.mem_range.mpr hkn, rfl⟩
        have hrnb := (rowNbrs_length row).2
        have hprod : (g.v_count - visited.length) * (g.v_count + 1) =
            (g.v_count - (visited.length + 1)) * (g.v_count + 1) +
              (g.v_count + 1) := by
          have hh : g.v_count - visited.length =
              (g.v_count - (visited.length + 1)) + 1 := by omega
          rw [hh]
          ring
        refine ih (visited ++ [v]) (queue1 ++ rowNbrsAsc row) ?_ ?_ ?_ ?_ ?_ ?_
        · intro x hx
          rcases List.mem_append.mp hx with hx1 | hx2
          · exact hvk x hx1
          · rw [List.mem_singleton] at hx2
            subst hx2
            exact ⟨k, hkx, hkn, hkr⟩
        · intro x hx
          rcases List.mem_append.mp hx with hx1 | hx2
          · exact hsk x (List.mem_cons_of_mem v hx1)
          · obtain ⟨c, hc1, hc2, hc3⟩ := (mem_rowNbrsAsc row x).mp hx2
            refine ⟨c, hc3, by omega, ?_⟩
            exact reaches_step g hkr ((edge_iff_getD g hrow c hc1).mpr hc2)
        · rw [List.nodup_append]
          refine ⟨hnd, List.nodup_singleton v, ?_⟩
          intro x hx hx2
          rw [List.mem_singleton] at hx2
          subst hx2
          exact hvis hx
        · intro m hm hmm j hj
          rcases List.mem_append.mp hmm with hm1 | hm2
          · rcases hcl m hm hm1 j hj with h | h
            · exact Or.inl (List.mem_append.mpr (Or.inl h))
            · rcases List.mem_cons.mp h with h2 | h2
              · rw [h2]
                exact Or.inl (List.mem_append.mpr
                  (Or.inr (List.mem_singleton_self v)))
              · exact Or.inr (List.mem_append.mpr (Or.inl h2))
          · rw [List.mem_singleton] at hm2
            have hmk : m = k := by
              rw [hkx] at hm2
              exact_mod_cast hm2
            subst hmk
            right
            refine List.mem_append.mpr (Or.inr ?_)
            refine (mem_rowNbrsAsc row (j : ℤ)).mpr ⟨j, ?_, ?_, rfl⟩
            · rw [hrlen]
              exact (edge_lt_sq g hsq hj).2
            · refine (edge_iff_getD g hrow j ?_).mp hj
              rw [hrlen]
              exact (edge_lt_sq g hsq hj).2
        · rcases hv0m with h | h
          · exact Or.inl (List.mem_append.mpr (Or.inl h))
          · rcases List.mem_cons.mp h with h2 | h2
            · rw [h2]
              exact Or.inl (List.mem_append.mpr
                (Or.inr (List.mem_singleton_self v)))
            · exact Or.inr (List.mem_append.mpr (Or.inl h2))
        · simp only [List.length_append, List.length_cons, List.length_nil,
            List.length_singleton, Nat.zero_add] at hpot ⊢
          omega

theorem udfsLoop_main (g : UGraph) (hwf : g.WF) (v0 : String)
    (hv0 : v0 ∈ g.keys) :
    ∀ (fuel : ℕ) (visited stack : List String),
      (∀ x ∈ visited, x ∈ g.keys ∧ g.ReachesU v0 x) →
      (∀ x ∈ stack, x ∈ g.keys ∧ g.ReachesU v0 x) →
      visited.Nodup →
      (∀ x ∈ visited, ∀ y, g.Adj x y → y ∈ visited ∨ y ∈ stack) →
      (v0 ∈ visited ∨ v0 ∈ stack) →
      stack.length + (g.keys.length - visited.length) * (g.keys.length + 1) <
        fuel →
      ∃ vis, g.udfsLoop none fuel visited stack = some vis ∧
        (∀ x ∈ vis, x ∈ g.keys ∧ g.ReachesU v0 x) ∧
        vis.Nodup ∧
        (∀ x ∈ vis, ∀ y, g.Adj x y → y ∈ vis) ∧
        v0 ∈ vis := by
  intro fuel
  induction fuel with
  | zero =>
    intro visited stack _ _ _ _ _ hpot
    omega
  | succ fuel ih =>
    intro visited stack hvk hsk hnd hcl hv0m hpot
    cases hst : stack.getLast? with
    | none =>
      have hse : stack = [] := List.getLast?_eq_none.mp hst
      rw [UGraph.udfsLoop, hst]
      refine ⟨visited, rfl, hvk, hnd, ?_, ?_⟩
      · intro x hx y hxy
        rcases hcl x hx y hxy with h | h
        · exact h
        · rw [hse] at h
          cases h
      · rcases hv0m with h | h
        · exact h
        · rw [hse] at h
          cases h
    | some v =>
      have hvmem : v ∈ stack := List.mem_of_mem_getLast? hst
      have hsne : stack ≠ [] := by
        intro he
        rw [he] at hvmem
        cases hvmem
      have hveq : stack.getLast hsne = v := by
        have := List.getLast?_eq_getLast stack hsne
        rw [hst] at this
        exact (Option.some_inj.mp this).symm
      have hsplit : stack.dropLast ++ [v] = stack := by
        rw [← hveq]
        exact List.dropLast_append_getLast hsne
      have hslen : stack.length = stack.dropLast.length + 1 := by
        rw [List.length_dropLast]
        have : stack.length ≠ 0 := fun he => hsne (List.length_eq_zero.mp he)
        omega
      obtain ⟨hvkey, hvreach⟩ := hsk v hvmem
      rw [UGraph.udfsLoop, hst]
      dsimp only
      by_cases hvis : v ∈ visited
      · rw [if_pos hvis, if_neg (by simp)]
        refine ih visited stack.dropLast hvk ?_ hnd ?_ ?_ (by omega)
        · intro x hx
          exact hsk x ((List.dropLast_sublist stack).subset hx)
        · intro x hx y hxy
          rcases hcl x hx y hxy with h | h
          · exact Or.inl h
          · rw [← hsplit] at h
            rcases List.mem_append.mp h with h2 | h2
            · exact Or.inr h2
            · rw [List.mem_singleton] at h2
              rw [h2]
              exact Or.inl hvis
        · rcases hv0m with h | h
          · exact Or.inl h
          · rw [← hsplit] at h
            rcases List.mem_append.mp h with h2 | h2
            · exact Or.inr h2
            · rw [List.mem_singleton] at h2
              rw [h2]
              exact Or.inl hvis
      · rw [if_neg hvis]
        obtain ⟨nbrs, hnbrs⟩ := Option.isSome_iff_exists.mp
          ((uget_isSome_iff g v).mpr hvkey)
        rw [hnbrs]
        dsimp only
        rw [if_neg (by simp)]
        have hnbrs_wf := hwf.2.1 v nbrs hnbrs
        have hadj_iff : ∀ y, g.Adj v y ↔ y ∈ nbrs := by
          intro y
          constructor
          · rintro ⟨l, hl, hyl⟩
            rw [hnbrs] at hl
            cases hl
            exact hyl
          · intro hy
            exact uadj_of_mem g hnbrs hy
        have hnbrs_len : nbrs.length ≤ g.keys.length := by
          refine nodup_length_le nbrs g.keys hnbrs_wf.1 ?_
          intro x hx
          exact uadj_key_right g hwf (uadj_of_mem g hnbrs hx)
        have hlenb : visited.length + 1 ≤ g.keys.length := by
          have hnd2 : (visited ++ [v]).Nodup := by
            rw [List.nodup_append]
            refine ⟨hnd, List.nodup_singleton v, ?_⟩
            intro x hx hx2
            rw [List.mem_singleton] at hx2
            subst hx2
            exact hvis hx
          have := nodup_length_le (visited ++ [v]) g.keys hnd2 ?_
          · rw [List.length_append, List.length_singleton] at this
            omega
          · intro x hx
            rcases List.mem_append.mp hx with hx1 | hx2
            · exact (hvk x hx1).1
            · rw [List.mem_singleton] at hx2
              subst hx2
              exact hvkey
        have hsds := (sortedStr_length nbrs).1
        have hprod : (g.keys.length - visited.length) * (g.keys.length + 1) =
            (g.keys.length - (visited.length + 1)) * (g.keys.length + 1) +
              (g.keys.length + 1) := by
          have hh : g.keys.length - visited.length =
              (g.keys.length - (visited.length + 1)) + 1 := by omega
          rw [hh]
          ring
        refine ih (visited ++ [v]) (stack.dropLast ++ sortedDescStr nbrs)
          ?_ ?_ ?_ ?_ ?_ ?_
        · intro x hx
          rcases List.mem_append.mp hx with hx1 | hx2
          · exact hvk x hx1
          · rw [List.mem_singleton] at hx2
            subst hx2
            exact ⟨hvkey, hvreach⟩
        · intro x hx
          rcases List.mem_append.mp hx with hx1 | hx2
          · exact hsk x ((List.dropLast_sublist stack).subset hx1)
          · have hxn : x ∈ nbrs := (mem_sortedDescStr nbrs x).mp hx2
            have hadj := uadj_of_mem g hnbrs hxn
            exact ⟨uadj_key_right g hwf hadj, ureaches_step g hvreach hadj⟩
        · rw [List.nodup_append]
          refine ⟨hnd, List.nodup_singleton v, ?_⟩
          intro x hx hx2
          rw [List.mem_singleton] at hx2
          subst hx2
          exact hvis hx
        · intro x hx y hxy
          rcases List.mem_append.mp hx with hx1 | hx2
          · rcases hcl x hx1 y hxy with h | h
            · exact Or.inl (List.mem_append.mpr (Or.inl h))
            · rw [← hsplit] at h
              rcases List.mem_append.mp h with h2 | h2
              · exact Or.inr (List.mem_append.mpr (Or.inl h2))
              · rw [List.mem_singleton] at h2
                rw [h2]
                exact Or.inl (List.mem_append.mpr
                  (Or.inr (List.mem_singleton_self v)))
          · rw [List.mem_singleton] at hx2
            subst hx2
            right
            refine List.mem_append.mpr (Or.inr ?_)
            exact (mem_sortedDescStr nbrs y).mpr ((hadj_iff y).mp hxy)
        · rcases hv0m with h | h
          · exact Or.inl (List.mem_append.mpr (Or.inl h))
          · rw [← hsplit] at h
            rcases List.mem_append.mp h with h2 | h2
            · exact Or.inr (List.mem_append.mpr (Or.inl h2))
            · rw [List.mem_singleton] at h2
              rw [h2]
              exact Or.inl (List.mem_append.mpr
                (Or.inr (List.mem_singleton_self v)))
        · simp only [List.length_append, List.length_singleton]
          omega

theorem ubfsLoop_main (g : UGraph) (hwf : g.WF) (v0 : String)
    (hv0 : v0 ∈ g.keys) :
    ∀ (fuel : ℕ) (visited queue : List String),
      (∀ x ∈ visited, x ∈ g.keys ∧ g.ReachesU v0 x) →
      (∀ x ∈ queue, x ∈ g.keys ∧ g.ReachesU v0 x) →
      visited.Nodup →
      (∀ x ∈ visited, ∀ y, g.Adj x y → y ∈ visited ∨ y ∈ queue) →
      (v0 ∈ visited ∨ v0 ∈ queue) →
      queue.length + (g.keys.length - visited.length) * (g.keys.length + 1) <
        fuel →
      ∃ vis, g.ubfsLoop none fuel visited queue = some vis ∧
        (∀ x ∈ vis, x ∈ g.keys ∧ g.ReachesU v0 x) ∧
        vis.Nodup ∧
        (∀ x ∈ vis, ∀ y, g.Adj x y → y ∈ vis) ∧
        v0 ∈ vis := by
  intro fuel
  induction fuel with
  | zero =>
    intro visited queue _ _ _ _ _ hpot
    omega
  | succ fuel ih =>
    intro visited queue hvk hsk hnd hcl hv0m hpot
    cases queue with
    | nil =>
      rw [UGraph.ubfsLoop]
      refine ⟨visited, rfl, hvk, hnd, ?_, ?_⟩
      · intro x hx y hxy
        rcases hcl x hx y hxy with h | h
        · exact h
        · cases h
      · rcases hv0m with h | h
        · exact h
        · cases h
    | cons v queue1 =>
      obtain ⟨hvkey, hvreach⟩ := hsk v (List.mem_cons_self v queue1)
      rw [UGraph.ubfsLoop]
      dsimp only
      by_cases hvis : v ∈ visited
      · rw [if_pos hvis, if_neg (by simp)]
        refine ih visited queue1 hvk ?_ hnd ?_ ?_ (by
          simp only [List.length_cons] at hpot
          omega)
        · intro x hx
          exact hsk x (List.mem_cons_of_mem v hx)
        · intro x hx y hxy
          rcases hcl x hx y hxy with h | h
          · exact Or.inl h
          · rcases List.mem_cons.mp h with h2 | h2
            · rw [h2]
              exact Or.inl hvis
            · exact Or.inr h2
        · rcases hv0m with h | h
          · exact Or.inl h
          · rcases List.mem_cons.mp h with h2 | h2
            · rw [h2]
              exact Or.inl hvis
            · exact Or.inr h2
      · rw [if_neg hvis]
        obtain ⟨nbrs, hnbrs⟩ := Option.isSome_iff_exists.mp
          ((uget_isSome_iff g v).mpr hvkey)
        rw [hnbrs]
        dsimp only
        rw [if_neg (by simp)]
        have hnbrs_wf := hwf.2.1 v nbrs hnbrs
        have hadj_iff : ∀ y, g.Adj v y ↔ y ∈ nbrs := by
          intro y
          constructor
          · rintro ⟨l, hl, hyl⟩
            rw [hnbrs] at hl
            cases hl
            exact hyl
          · intro hy
            exact uadj_of_mem g hnbrs hy
        have hnbrs_len : nbrs.length ≤ g.keys.length := by
          refine nodup_length_le nbrs g.keys hnbrs_wf.1 ?_
          intro x hx
          exact uadj_key_right g hwf (uadj_of_mem g hnbrs hx)
        have hlenb : visited.length + 1 ≤ g.keys.length := by
          have hnd2 : (visited ++ [v]).Nodup := by
            rw [List.nodup_append]
            refine ⟨hnd, List.nodup_singleton v, ?_⟩
            intro x hx hx2
            rw [List.mem_singleton] at hx2
            subst hx2
            exact hvis hx
          have := nodup_length_le (visited ++ [v]) g.keys hnd2 ?_
          · rw [List.length_append, List.length_singleton] at this
            omega
          · intro x hx
            rcases List.mem_append.mp hx with hx1 | hx2
            · exact (hvk x hx1).1
            · rw [List.mem_singleton] at hx2
              subst hx2
              exact hvkey
        have hsds := (sortedStr_length nbrs).2
        have hprod : (g.keys.length - visited.length) * (g.keys.length + 1) =
            (g.keys.length - (visited.length + 1)) * (g.keys.length + 1) +
              (g.keys.length + 1) := by
          have hh : g.keys.length - visited.length =
              (g.keys.length - (visited.length + 1)) + 1 := by omega
          rw [hh]
          ring
        refine ih (visited ++ [v]) (queue1 ++ sortedAscStr nbrs) ?_ ?_ ?_ ?_ ?_ ?_
        · intro x hx
          rcases List.mem_append.mp hx with hx1 | hx2
          · exact hvk x hx1
          · rw [List.mem_singleton] at hx2
            subst hx2
            exact ⟨hvkey, hvreach⟩
        · intro x hx
          rcases List.mem_append.mp hx with hx1 | hx2
          · exact hsk x (List.mem_cons_of_mem v hx1)
          · have hxn : x ∈ nbrs := (mem_sortedAscStr nbrs x).mp hx2
            have hadj := uadj_of_mem g hnbrs hxn
            exact ⟨uadj_key_right g hwf hadj, ureaches_step g hvreach hadj⟩
        · rw [List.nodup_append]
          refine ⟨hnd, List.nodup_singleton v, ?_⟩
          intro x hx hx2
          rw [List.mem_singleton] at hx2
          subst hx2
          exact hvis hx
        · intro x hx y hxy
          rcases List.mem_append.mp hx with hx1 | hx2
          · rcases hcl x hx1 y hxy with h | h
            · exact Or.inl (List.mem_append.mpr (Or.inl h))
            · rcases List.mem_cons.mp h with h2 | h2
              · rw [h2]
                exact Or.inl (List.mem_append.mpr
                  (Or.inr (List.mem_singleton_self v)))
              · exact Or.inr (List.mem_append.mpr (Or.inl h2))
          · rw [List.mem_singleton] at hx2
            subst hx2
            right
            refine List.mem_append.mpr (Or.inr ?_)
            exact (mem_sortedAscStr nbrs y).mpr ((hadj_iff y).mp hxy)
        · rcases hv0m with h | h
          · exact Or.inl (List.mem_append.mpr (Or.inl h))
          · rcases List.mem_cons.mp h with h2 | h2
            · rw [h2]
              exact Or.inl (List.mem_append.mpr
                (Or.inr (List.mem_singleton_self v)))
            · exact Or.inr (List.mem_append.mpr (Or.inl h2))
        · simp only [List.length_append, List.length_cons, List.length_nil,
            List.length_singleton, Nat.zero_add] at hpot ⊢
          omega

theorem dfsLoop_eq_front (g : DGraph) (vEnd : Option ℤ) :
    ∀ (fuel : ℕ) (visited stack : List ℤ),
      g.dfsLoop vEnd fuel visited stack =
        g.dfsFront vEnd fuel visited stack.reverse := by
  intro fuel
  induction fuel with
  | zero =>
    intro visited stack
    rfl
  | succ fuel ih =>
    intro visited stack
    cases hrev : stack.reverse with
    | nil =>
      have hse : stack = [] := by
        rw [← List.reverse_reverse stack, hrev]
        rfl
      subst hse
      rfl
    | cons v rs =>
      have hse : stack = rs.reverse ++ [v] := by
        rw [← List.reverse_reverse stack, hrev, List.reverse_cons]
      rw [hse, DGraph.dfsLoop, DGraph.dfsFront, List.getLast?_concat]
      dsimp only
      rw [List.dropLast_concat]
      by_cases hvis : v ∈ visited
      · rw [if_pos hvis, if_pos hvis]
        by_cases hend : vEnd = some v
        · rw [if_pos hend, if_pos hend]
        · rw [if_neg hend, if_neg hend]
          have hh := ih visited rs.reverse
          rw [List.reverse_reverse] at hh
          exact hh
      · rw [if_neg hvis, if_neg hvis]
        cases hpg : pyGet g.adj_matrix v with
        | none => rfl
        | some row =>
          dsimp only
          by_cases hend : vEnd = some v
          · rw [if_pos hend, if_pos hend]
          · rw [if_neg hend, if_neg hend]
            have hh := ih (visited ++ [v]) (rs.reverse ++ rowNbrsDesc row)
            rw [List.reverse_append, List.reverse_reverse,
              rowNbrsDesc_reverse] at hh
            exact hh

theorem udfsLoop_eq_front (g : UGraph) (vEnd : Option String) :
    ∀ (fuel : ℕ) (visited stack : List String),
      g.udfsLoop vEnd fuel visited stack =
        g.udfsFront vEnd fuel visited stack.reverse := by
  intro fuel
  induction fuel with
  | zero =>
    intro visited stack
    rfl
  | succ fuel ih =>
    intro visited stack
    cases hrev : stack.reverse with
    | nil =>
      have hse : stack = [] := by
        rw [← List.reverse_reverse stack, hrev]
        rfl
      subst hse
      rfl
    | cons v rs =>
      have hse : stack = rs.reverse ++ [v] := by
        rw [← List.reverse_reverse stack, hrev, List.reverse_cons]
      rw [hse, UGraph.udfsLoop, UGraph.udfsFront, List.getLast?_concat]
      dsimp only
      rw [List.dropLast_concat]
      by_cases hvis : v ∈ visited
      · rw [if_pos hvis, if_pos hvis]
        by_cases hend : vEnd = some v
        · rw [if_pos hend, if_pos hend]
        · rw [if_neg hend, if_neg hend]
          have hh := ih visited rs.reverse
          rw [List.reverse_reverse] at hh
          exact hh
      · rw [if_neg hvis, if_neg hvis]
        cases hpg : g.get v with
        | none => rfl
        | some nbrs =>
          dsimp only
          by_cases hend : vEnd = some v
          · rw [if_pos hend, if_pos hend]
          · rw [if_neg hend, if_neg hend]
            have hh := ih (visited ++ [v]) (rs.reverse ++ sortedDescStr nbrs)
            rw [List.reverse_append, List.reverse_reverse,
              sortedDescStr_reverse] at hh
            exact hh

/-- Claim C8: with `v_end` omitted, the four traversals return exactly the
vertices reachable from a valid start, each exactly once; and the
exploration order is ascending at every branch point: each stack loop equals
the reference front-stack machine that expands a newly visited vertex by
placing its neighbours at the front in ascending (numeric, respectively
lexicographic) order, the pushed lists being exactly the sorted neighbour
lists.  Directed graphs are taken square (the shape invariant), undirected
states reachable (which yields the adjacency-list invariants). -/
theorem dfs_bfs_reachable_once_ascending :
    (∀ (g : DGraph), g.Square → ∀ v0 : ℕ, v0 < g.v_count →
      ∃ vis, g.dfs (v0 : ℤ) none = some vis ∧ vis.Nodup ∧
        (∀ k : ℕ, ((k : ℤ) ∈ vis ↔ k < g.v_count ∧ g.Reaches v0 k)) ∧
        ∀ x ∈ vis, 0 ≤ x) ∧
    (∀ (g : DGraph), g.Square → ∀ v0 : ℕ, v0 < g.v_count →
      ∃ vis, g.bfs (v0 : ℤ) none = some vis ∧ vis.Nodup ∧
        (∀ k : ℕ, ((k : ℤ) ∈ vis ↔ k < g.v_count ∧ g.Reaches v0 k)) ∧
        ∀ x ∈ vis, 0 ≤ x) ∧
    (∀ (g : UGraph), UReach g → ∀ v0 ∈ g.keys,
      ∃ vis, g.dfs v0 none = some vis ∧ vis.Nodup ∧
        ∀ x, (x ∈ vis ↔ g.ReachesU v0 x)) ∧
    (∀ (g : UGraph), UReach g → ∀ v0 ∈ g.keys,
      ∃ vis, g.bfs v0 none = some vis ∧ vis.Nodup ∧
        ∀ x, (x ∈ vis ↔ g.ReachesU v0 x)) ∧
    (∀ (g : DGraph) (vEnd : Option ℤ) (fuel : ℕ) (visited stack : List ℤ),
      g.dfsLoop vEnd fuel visited stack =
        g.dfsFront vEnd fuel visited stack.reverse) ∧
    (∀ (g : UGraph) (vEnd : Option String) (fuel : ℕ)
      (visited stack : List String),
      g.udfsLoop vEnd fuel visited stack =
        g.udfsFront vEnd fuel visited stack.reverse) ∧
    (∀ row : List ℤ, (rowNbrsDesc row).reverse = rowNbrsAsc row ∧
      (rowNbrsAsc row).Sorted (fun a b => a ≤ b)) ∧
    (∀ l : List String, (sortedDescStr l).reverse = sortedAscStr l ∧
      (sortedAscStr l).Sorted (fun a b => a ≤ b)) := by
  refine ⟨?_, ?_, ?_, ?_, dfsLoop_eq_front, udfsLoop_eq_front,
    fun row => ⟨rowNbrsDesc_reverse row, rowNbrsAsc_sorted row⟩,
    fun l => ⟨sortedDescStr_reverse l, sortedAscStr_sorted l⟩⟩
  · intro g hsq v0 hv0
    have hguard : ¬ ((v0 : ℤ) > (g.adj_matrix.length : ℤ)) := by
      rw [hsq.1]
      omega
    rw [DGraph.dfs]
    rw [if_neg hguard]
    obtain ⟨vis, heq, hvk, hnd, hcl, hv0m⟩ := dfsLoop_main g hsq v0 hv0
      (g.adj_matrix.length * g.adj_matrix.length + g.adj_matrix.length + 2)
      [] [(v0 : ℤ)]
      (by intro x hx; cases hx)
      (by
        intro x hx
        rw [List.mem_singleton] at hx
        subst hx
        exact ⟨v0, rfl, hv0, reaches_refl g v0⟩)
      List.nodup_nil
      (by intro k _ hkm _ _; cases hkm)
      (Or.inr (List.mem_singleton_self _))
      (by
        simp only [List.length_singleton, List.length_nil, Nat.sub_zero]
        rw [hsq.1]
        have hp : g.v_count * (g.v_count + 1) =
            g.v_count * g.v_count + g.v_count := by ring
        omega)
    refine ⟨vis, heq, hnd, ?_, ?_⟩
    · intro k
      constructor
      · intro hk
        obtain ⟨m, hm1, hm2, hm3⟩ := hvk _ hk
        have hkm : k = m := by exact_mod_cast hm1
        subst hkm
        exact ⟨hm2, hm3⟩
      · rintro ⟨hk1, hk2⟩
        obtain ⟨l, hw, hl⟩ := hk2
        have hh := reaches_closed g hsq vis hcl l v0 hw hv0m
        rw [hl] at hh
        exact hh
    · intro x hx
      obtain ⟨m, hm1, -, -⟩ := hvk x hx
      rw [hm1]
      exact Int.natCast_nonneg m
  · intro g hsq v0 hv0
    have hguard : ¬ ((v0 : ℤ) > (g.adj_matrix.length : ℤ)) := by
      rw [hsq.1]
      omega
    rw [DGraph.bfs]
    rw [if_neg hguard]
    obtain ⟨vis, heq, hvk, hnd, hcl, hv0m⟩ := bfsLoop_main g hsq v0 hv0
      (g.adj_matrix.length * g.adj_matrix.length + g.adj_matrix.length + 2)
      [] [(v0 : ℤ)]
      (by intro x hx; cases hx)
      (by
        intro x hx
        rw [List.mem_singleton] at hx
        subst hx
        exact ⟨v0, rfl, hv0, reaches_refl g v0⟩)
      List.nodup_nil
      (by intro k _ hkm _ _; cases hkm)
      (Or.inr (List.mem_singleton_self _))
      (by
        simp only [List.length_singleton, List.length_nil, Nat.sub_zero]
        rw [hsq.1]
        have hp : g.v_count * (g.v_count + 1) =
            g.v_count * g.v_count + g.v_count := by ring
        omega)
    refine ⟨vis, heq, hnd, ?_, ?_⟩
    · intro k
      constructor
      · intro hk
        obtain ⟨m, hm1, hm2, hm3⟩ := hvk _ hk
        have hkm : k = m := by exact_mod_cast hm1
        subst hkm
        exact ⟨hm2, hm3⟩
      · rintro ⟨hk1, hk2⟩
        obtain ⟨l, hw, hl⟩ := hk2
        have hh := reaches_closed g hsq vis hcl l v0 hw hv0m
        rw [hl] at hh
        exact hh
    · intro x hx
      obtain ⟨m, hm1, -, -⟩ := hvk x hx
      rw [hm1]
      exact Int.natCast_nonneg m
  · intro g hr v0 hv0
    have hwf := ureach_wf g hr
    have hguard : ¬ ((g.get v0).isNone = true) := by
      intro h
      rw [Option.isNone_iff_eq_none] at h
      exact ((uget_eq_none_iff g v0).mp h) hv0
    rw [UGraph.dfs]
    rw [if_neg hguard]
    obtain ⟨vis, heq, hvk, hnd, hcl, hv0m⟩ := udfsLoop_main g hwf v0 hv0
      (g.keys.length * g.keys.length + g.keys.length + 2) [] [v0]
      (by intro x hx; cases hx)
      (by
        intro x hx
        rw [List.mem_singleton] at hx
        rw [hx]
        exact ⟨hv0, ureaches_refl g v0⟩)
      List.nodup_nil
      (by intro x hx _ _; cases hx)
      (Or.inr (List.mem_singleton_self _))
      (by
        simp only [List.length_singleton, List.length_nil, Nat.sub_zero]
        have hp : g.keys.length * (g.keys.length + 1) =
            g.keys.length * g.keys.length + g.keys.length := by ring
        omega)
    refine ⟨vis, heq, hnd, ?_⟩
    intro x
    constructor
    · intro hx
      exact (hvk x hx).2
    · intro hx
      obtain ⟨l, hw, hl⟩ := hx
      have hh := ureaches_closed g vis hcl l v0 hw hv0m
      rw [hl] at hh
      exact hh
  · intro g hr v0 hv0
    have hwf := ureach_wf g hr
    have hguard : ¬ ((g.get v0).isNone = true) := by
      intro h
      rw [Option.isNone_iff_eq_none] at h
      exact ((uget_eq_none_iff g v0).mp h) hv0
    rw [UGraph.bfs]
    rw [if_neg hguard]
    obtain ⟨vis, heq, hvk, hnd, hcl, hv0m⟩ := ubfsLoop_main g hwf v0 hv0
      (g.keys.length * g.keys.length + g.keys.length + 2) [] [v0]
      (by intro x hx; cases hx)
      (by
        intro x hx
        rw [List.mem_singleton] at hx
        rw [hx]
        exact ⟨hv0, ureaches_refl g v0⟩)
      List.nodup_nil
      (by intro x hx _ _; cases hx)
      (Or.inr (List.mem_singleton_self _))
      (by
        simp only [List.length_singleton, List.length_nil, Nat.sub_zero]
        have hp : g.keys.length * (g.keys.length + 1) =
            g.keys.length * g.keys.length + g.keys.length := by ring
        omega)
    refine ⟨vis, heq, hnd, ?_⟩
    intro x
    constructor
    · intro hx
      exact (hvk x hx).2
    · intro hx
      obtain ⟨l, hw, hl⟩ := hx
      have hh := ureaches_closed g vis hcl l v0 hw hv0m
      rw [hl] at hh
      exact hh

end Graphs
